import Mathlib

/-!
# Fast Hadamard transform kernel (`C_fht.template.c`)

Shallow embedding of the two entry points `fht1_%(ctype)s` (one vector) and
`fht2_%(ctype)s` (every row of a matrix) of `src/fht/C_fht.template.c`.

* The element type `CTYPE` is a parameter: any type `α` with its own addition, subtraction
  and multiplication (`CType α`), which may wrap or round. Statements about exact integer
  results take as a hypothesis (`ExactUpTo`) that the sums and differences of elements
  standing for integers are exact up to a bound, and bound the input accordingly; `int32`,
  the wrapping 32 bit `int`, is one such arithmetic.
* Array elements live in a memory addressed by the identity of the array's data
  buffer and an element index (`DIND1(a, i)`, `DIND2(a, i, j)`); two handles alias
  exactly when they name the same buffer. The state records which cells belong to an
  array (`valid`).
* Every `DIND` access is recorded in a log and every arithmetic operation on elements in a
  list of operations, in program order. An access outside the arrays is undefined
  behaviour: it sets the flag `ub`, and an entry point whose run has set it has no defined
  result (`PyReturn.undefined`).
* `unsigned` variables are natural numbers reduced modulo `2 ^ 32` after every
  arithmetic step; a C `for` loop is a fuelled loop whose result is `none` when
  the fuel does not suffice.
-/

namespace FHT

/-! ## Elements, memory, arrays and Python values -/

/-- An arithmetic operation of C on two elements. -/
inductive ArithOp where
  | add
  | sub
  | mul
deriving DecidableEq

/-- The arithmetic of the element type `CTYPE` (`%(ctype)s`): what `+`, `-` and `*` give on
two elements, overflow or rounding included. -/
structure CType (α : Type) where
  add : α → α → α
  sub : α → α → α
  mul : α → α → α

/-- Result of an operation in the arithmetic `A`. -/
def CType.apply {α : Type} (A : CType α) : ArithOp → α → α → α
  | ArithOp.add => A.add
  | ArithOp.sub => A.sub
  | ArithOp.mul => A.mul

/-- One element access through `DIND1` / `DIND2`: the buffer and the index. -/
inductive Access (ι : Type) where
  | read (a : Nat) (i : ι)
  | write (a : Nat) (i : ι)
deriving DecidableEq

/-- Machine state. `mem` holds the contents of every buffer and `valid a i` tells whether
the element `i` of buffer `a` lies in the memory that belongs to the buffer (the elements
of the array; for an array that is a view of a larger one, those of the larger one); `log`
and `ops` are the accesses and the arithmetic operations made so far; `ub` is set once an
access has left that memory. After that the behaviour of the C program is undefined; the
state then follows the run of a machine on which `mem a i` is the memory that `DIND(a, i)`
reaches outside the buffer. -/
structure State (ι α : Type) where
  mem : Nat → ι → α
  valid : Nat → ι → Bool
  log : List (Access ι)
  ops : List ArithOp
  ub : Bool

/-- Reading `DIND(a, i)`. -/
def load {ι α : Type} (a : Nat) (i : ι) (s : State ι α) : α × State ι α :=
  (s.mem a i, { s with log := s.log ++ [Access.read a i], ub := s.ub || !s.valid a i })

/-- Assigning `DIND(a, i) = v`. -/
def store {ι α : Type} [DecidableEq ι] (a : Nat) (i : ι) (v : α) (s : State ι α) :
    State ι α :=
  { s with
    mem := fun b n => if b = a ∧ n = i then v else s.mem b n
    log := s.log ++ [Access.write a i]
    ub := s.ub || !s.valid a i }

/-- Evaluating `x op y` on two elements. -/
def arith {ι α : Type} (A : CType α) (op : ArithOp) (x y : α) (s : State ι α) :
    α × State ι α :=
  (A.apply op x y, { s with ops := s.ops ++ [op] })

/-- The part of a `PyArrayObject` the kernel uses: its data buffer and its shape. -/
structure PyArrayObject where
  data : Nat
  dimensions : List Nat
deriving DecidableEq

/-- A Python object in the argument tuple. -/
inductive PyObject where
  | ndarray (a : PyArrayObject)
  | other
deriving DecidableEq

/-- What a call of an entry point gives: `NULL` (an exception is set), a Python float, or
nothing that C defines, when the run has undefined behaviour. -/
inductive PyReturn where
  | NULL
  | double (v : Int)
  | undefined
deriving DecidableEq

/-- The call `PyArg_ParseTuple(args, "O!O!", &PyArray_Type, &x, &PyArray_Type, &y)`: it
succeeds exactly on a tuple of two arrays. -/
def PyArg_ParseTuple : List PyObject → Option (PyArrayObject × PyArrayObject)
  | [PyObject.ndarray x, PyObject.ndarray y] => some (x, y)
  | _ => none

/-- Value of an `unsigned` (32 bit) expression. -/
def u32 (n : Nat) : Nat := n % 2 ^ 32

/-- The loop `for (j = start; cond j; j = next j) body` with a bound `fuel` on the number of
tests of the condition; `none` when the bound is reached or the body does not return. -/
def forLoop {σ : Type} (cond : Nat → Bool) (next : Nat → Nat) (body : Nat → σ → Option σ) :
    Nat → Nat → σ → Option σ
  | 0, _, _ => none
  | fuel + 1, j, s =>
    if cond j then (body j s).bind (forLoop cond next body fuel (next j)) else some s

/-- The value of `Py_BuildValue("d", 1.)` at the end of an entry point, when the run is
defined. -/
def finish {ι α : Type} (s : State ι α) : PyReturn × State ι α :=
  (if s.ub = true then PyReturn.undefined else PyReturn.double 1, s)

/-! ## `fht1`: transform of one vector -/

/-- Body of the first loop of `fht1` (lines 55-57). -/
def fht1_base_body {α : Type} (A : CType α) (vector_in vector_out : Nat) (j : Nat)
    (s : State Nat α) : State Nat α :=
  let k := u32 (j + 1)
  let (a, s) := load vector_in j s
  let (b, s) := load vector_in k s
  let (v, s) := arith A ArithOp.add a b s
  let s := store vector_out j v s
  let (a, s) := load vector_in j s
  let (b, s) := load vector_in k s
  let (v, s) := arith A ArithOp.sub a b s
  store vector_out k v s

/-- Body of the inner loop of the second loop nest of `fht1` (lines 61-66). -/
def fht1_stage_body {α : Type} (A : CType α) (vector_out : Nat) (bit j : Nat)
    (s : State Nat α) : State Nat α :=
  if bit &&& j = 0 then
    let k := j ||| bit
    let (temp, s) := load vector_out j s
    let (a, s) := load vector_out j s
    let (b, s) := load vector_out k s
    let (v, s) := arith A ArithOp.add a b s
    let s := store vector_out j v s
    let (b, s) := load vector_out k s
    let (v, s) := arith A ArithOp.sub temp b s
    store vector_out k v s
  else s

/-- The first loop of `fht1` (lines 54-58). -/
def fht1_base {α : Type} (A : CType α) (fuel : Nat) (vector_in vector_out dim0 : Nat)
    (s : State Nat α) : Option (State Nat α) :=
  forLoop (fun j => decide (j < dim0)) (fun j => u32 (j + 2))
    (fun j s => some (fht1_base_body A vector_in vector_out j s)) fuel 0 s

/-- The loop over `j` for one value of `bit` (lines 60-67). -/
def fht1_stage {α : Type} (A : CType α) (fuel : Nat) (vector_out dim0 bit : Nat)
    (s : State Nat α) : Option (State Nat α) :=
  forLoop (fun j => decide (j < dim0)) (fun j => u32 (j + 1))
    (fun j s => some (fht1_stage_body A vector_out bit j s)) fuel 0 s

/-- The loop over `bit` (lines 59-68). -/
def fht1_stages {α : Type} (A : CType α) (fuel : Nat) (vector_out dim0 : Nat)
    (s : State Nat α) : Option (State Nat α) :=
  forLoop (fun bit => decide (bit < dim0)) (fun bit => u32 (bit <<< 1))
    (fun bit s => fht1_stage A fuel vector_out dim0 bit s) fuel 2 s

/-- The entry point `fht1_%(ctype)s` (lines 39-70). Line 53 reads `dimensions[0]`, which an
array without dimensions does not have: that read is undefined. `dim0` is an `int` that is
compared with `unsigned` counters, so it enters every test as its value modulo `2 ^ 32`.
Every loop may test its condition `fuel` times; the result is `none` when some loop needs
more. -/
def fht1 {α : Type} (A : CType α) (fuel : Nat) (args : List PyObject) (s : State Nat α) :
    Option (PyReturn × State Nat α) :=
  match PyArg_ParseTuple args with
  | none => some (PyReturn.NULL, s)
  | some (vector_in, vector_out) =>
    match vector_in.dimensions with
    | [] => some (PyReturn.undefined, { s with ub := true })
    | d :: _ =>
      let dim0 := u32 d
      (fht1_base A fuel vector_in.data vector_out.data dim0 s).bind fun s =>
      (fht1_stages A fuel vector_out.data dim0 s).bind fun s =>
      some (finish s)

/-! ## `fht2`: transform of every row of a matrix -/

/-- Body of the first inner loop of `fht2` (lines 88-90). -/
def fht2_base_body {α : Type} (A : CType α) (arr1 oarr : Nat) (i j : Nat)
    (s : State (Nat × Nat) α) : State (Nat × Nat) α :=
  let k := u32 (j + 1)
  let (a, s) := load arr1 (i, j) s
  let (b, s) := load arr1 (i, k) s
  let (v, s) := arith A ArithOp.add a b s
  let s := store oarr (i, j) v s
  let (a, s) := load arr1 (i, j) s
  let (b, s) := load arr1 (i, k) s
  let (v, s) := arith A ArithOp.sub a b s
  store oarr (i, k) v s

/-- Body of the innermost loop of `fht2` (lines 94-99). -/
def fht2_stage_body {α : Type} (A : CType α) (oarr : Nat) (i bit j : Nat)
    (s : State (Nat × Nat) α) : State (Nat × Nat) α :=
  if bit &&& j = 0 then
    let k := j ||| bit
    let (temp, s) := load oarr (i, j) s
    let (a, s) := load oarr (i, j) s
    let (b, s) := load oarr (i, k) s
    let (v, s) := arith A ArithOp.add a b s
    let s := store oarr (i, j) v s
    let (b, s) := load oarr (i, k) s
    let (v, s) := arith A ArithOp.sub temp b s
    store oarr (i, k) v s
  else s

/-- Body of the loop over rows of `fht2` (lines 86-101): the transform of row `i`. -/
def fht2_row {α : Type} (A : CType α) (fuel : Nat) (arr1 oarr dim2 : Nat) (i : Nat)
    (s : State (Nat × Nat) α) : Option (State (Nat × Nat) α) :=
  (forLoop (fun j => decide (j < dim2)) (fun j => u32 (j + 2))
    (fun j s => some (fht2_base_body A arr1 oarr i j s)) fuel 0 s).bind fun s =>
  forLoop (fun bit => decide (bit < dim2)) (fun bit => u32 (bit <<< 1))
    (fun bit s =>
      forLoop (fun j => decide (j < dim2)) (fun j => u32 (j + 1))
        (fun j s => some (fht2_stage_body A oarr i bit j s)) fuel 0 s) fuel 2 s

/-- The entry point `fht2_%(ctype)s` (lines 73-104), the rows taken in increasing
order (one thread). Lines 80-81 read `dimensions[0]` and `dimensions[1]`; an array with
fewer than two dimensions does not have them, and the read is undefined. -/
def fht2 {α : Type} (A : CType α) (fuel : Nat) (args : List PyObject)
    (s : State (Nat × Nat) α) : Option (PyReturn × State (Nat × Nat) α) :=
  match PyArg_ParseTuple args with
  | none => some (PyReturn.NULL, s)
  | some (arr1, oarr) =>
    match arr1.dimensions with
    | d1 :: d2 :: _ =>
      let dim1 := u32 d1
      let dim2 := u32 d2
      (forLoop (fun i => decide (i < dim1)) (fun i => u32 (i + 1))
        (fun i s => fht2_row A fuel arr1.data oarr.data dim2 i s) fuel 0 s).bind fun s =>
      some (finish s)
    | _ => some (PyReturn.undefined, { s with ub := true })

/-! ## Specification-side definitions -/

/-- Number of one bits among the lowest `w` bits of `n`. -/
def popcountBits : Nat → Nat → Nat
  | 0, _ => 0
  | w + 1, n => n % 2 + popcountBits w (n / 2)

/-- Number of one bits of `n` (all of them lie below position `n`). -/
def popcount (n : Nat) : Nat := popcountBits n n

/-- Natural-order Walsh-Hadamard transform of the first `m` entries of `x`. -/
def wht (m : Nat) (x : Nat → Int) (i : Nat) : Int :=
  ∑ j in Finset.range m, (-1) ^ popcount (i &&& j) * x j

/-- Transform of the aligned block of length `2 ^ s` that contains index `i`. -/
def blockWht (s : Nat) (x : Nat → Int) (i : Nat) : Int :=
  wht (2 ^ s) (fun j => x (i / 2 ^ s * 2 ^ s + j)) (i % 2 ^ s)

/-- What one butterfly stage with stride `bit` makes of the integer vector `y`, in exact
arithmetic. -/
def stageFn (bit : Nat) (y : Nat → Int) (i : Nat) : Int :=
  if bit &&& i = 0 then y i + y (i ||| bit) else y (i - bit) - y i

/-- What one butterfly stage with stride `bit` makes of the vector `y`, in the arithmetic
of the element type. -/
def stageOf {α : Type} (A : CType α) (bit : Nat) (y : Nat → α) (i : Nat) : α :=
  if bit &&& i = 0 then A.add (y i) (y (i ||| bit)) else A.sub (y (i - bit)) (y i)

/-- The vector after the stages of strides `1, 2, ..., 2 ^ (s - 1)`, in the arithmetic of
the element type. -/
def afterStages {α : Type} (A : CType α) : Nat → (Nat → α) → Nat → α
  | 0, x => x
  | s + 1, x => stageOf A (2 ^ s) (afterStages A s x)

/-- Exactness of the arithmetic `A` on integers of magnitude up to `B`. The elements in
`dom` stand for integers, `val a` being the integer that `a` stands for (for a floating
type, `dom` holds the elements with an integer value; for an integer type, all of them).
A sum or a difference of two such elements whose exact value has magnitude at most `B` is
computed exactly: the result stands for the exact value. -/
structure ExactUpTo {α : Type} (A : CType α) (dom : α → Prop) (val : α → Int) (B : Int) :
    Prop where
  add : ∀ a b, dom a → dom b → |val a + val b| ≤ B →
    dom (A.add a b) ∧ val (A.add a b) = val a + val b
  sub : ∀ a b, dom a → dom b → |val a - val b| ≤ B →
    dom (A.sub a b) ∧ val (A.sub a b) = val a - val b

/-- The arithmetic of a 32 bit `int` that wraps around. -/
def int32 : CType Int where
  add := fun a b => Int.bmod (a + b) (2 ^ 32)
  sub := fun a b => Int.bmod (a - b) (2 ^ 32)
  mul := fun a b => Int.bmod (a * b) (2 ^ 32)

/-- The low index of the butterfly that index `i` belongs to. -/
def lowPartner (bit i : Nat) : Nat := if bit &&& i = 0 then i else i - bit

/-- Runs `f` at `seq t, seq (t + 1), ...`, `k` times. -/
def runSeq {σ : Type} (f : Nat → σ → σ) (seq : Nat → Nat) : Nat → Nat → σ → σ
  | 0, _, s => s
  | k + 1, t, s => runSeq f seq k (t + 1) (f (seq t) s)

/-- Both computations fail to return, or both return and their results are related. -/
def optRel {σ τ : Type} (R : σ → τ → Prop) : Option σ → Option τ → Prop
  | some s, some t => R s t
  | none, none => True
  | _, _ => False

/-- Row `i` of every matrix, seen as a vector, at the start of a run. -/
def rowState {α : Type} (i : Nat) (s : State (Nat × Nat) α) : State Nat α :=
  { mem := fun a c => s.mem a (i, c)
    valid := fun a c => s.valid a (i, c)
    log := []
    ops := []
    ub := false }

/-- Row `i` of every matrix of `s2` holds what the vectors of `s1` hold. -/
def rowRel {α : Type} (i : Nat) (s2 : State (Nat × Nat) α) (s1 : State Nat α) : Prop :=
  ∀ a c, s2.mem a (i, c) = s1.mem a c

/-- Memory holding the rows `xss` in matrix `0` and the rows `yss` in matrix `1`. -/
def memOf2 (xss yss : List (List Int)) : Nat → Nat × Nat → Int :=
  fun a p => if a = 0 then (xss.getD p.1 []).getD p.2 0
    else if a = 1 then (yss.getD p.1 []).getD p.2 0 else 0

/-- Memory holding the list `xs` in buffer `0` and the list `ys` in buffer `1`. -/
def memOf (xs ys : List Int) : Nat → Nat → Int :=
  fun a i => if a = 0 then xs.getD i 0 else if a = 1 then ys.getD i 0 else 0

/-- Buffer `0` holds `n0` elements and buffer `1` holds `n1` elements. -/
def extents (n0 n1 : Nat) : Nat → Nat → Bool :=
  fun a i => if a = 0 then decide (i < n0) else if a = 1 then decide (i < n1) else false

/-- Buffers `0` and `1` hold matrices of `rows` rows and `cols` columns. -/
def extents2 (rows cols : Nat) : Nat → Nat × Nat → Bool :=
  fun a p => (decide (a = 0) || decide (a = 1)) && decide (p.1 < rows) && decide (p.2 < cols)

/-- State at the start of a run: the given memory and arrays, nothing logged. -/
def initState {ι α : Type} (mem : Nat → ι → α) (valid : Nat → ι → Bool) : State ι α :=
  { mem := mem, valid := valid, log := [], ops := [], ub := false }

/-- The array `a` is a vector of `k` elements, and its buffer holds these elements and no
other. -/
def IsVector {α : Type} (s : State Nat α) (a : PyArrayObject) (k : Nat) : Prop :=
  a.dimensions = [k] ∧ ∀ i, s.valid a.data i = decide (i < k)

/-- The buffers of `vin` and of `vout` hold at least `m` elements each, and the run has not
left the buffers so far. -/
def Ready {α : Type} (s : State Nat α) (vin vout : PyArrayObject) (m : Nat) : Prop :=
  (∀ i, i < m → s.valid vin.data i = true) ∧ (∀ i, i < m → s.valid vout.data i = true) ∧
    s.ub = false

/-- Index of the element that an access touches. -/
def Access.index {ι : Type} : Access ι → ι
  | Access.read _ i => i
  | Access.write _ i => i

/-- Buffer that an access touches. -/
def Access.buffer {ι : Type} : Access ι → Nat
  | Access.read a _ => a
  | Access.write a _ => a

/-- The access leaves the arrays. -/
def Access.outside {ι : Type} (valid : Nat → ι → Bool) (acc : Access ι) : Bool :=
  !valid acc.buffer acc.index

/-- The run from `s` to `t` made the accesses `l` and the operations `o`: they are appended
to the log and to the list of operations, the flag `ub` is set exactly if it was set or
an access of `l` leaves the arrays, and the arrays are the same. -/
def Ran {ι α : Type} (s t : State ι α) (l : List (Access ι)) (o : List ArithOp) : Prop :=
  t.log = s.log ++ l ∧ t.ops = s.ops ++ o ∧
    t.ub = (s.ub || l.any (Access.outside s.valid)) ∧ t.valid = s.valid

/-- Number of stores in a log. -/
def countWrites {ι : Type} : List (Access ι) → Nat
  | [] => 0
  | Access.read _ _ :: l => countWrites l
  | Access.write _ _ :: l => countWrites l + 1

/-- The first loop of `fht1`, unrolled: the body at `j = 0, 2, 4, ...` below `dim0`. -/
def basePass {α : Type} (A : CType α) (vector_in vector_out dim0 : Nat) (s : State Nat α) :
    State Nat α :=
  runSeq (fun j s => fht1_base_body A vector_in vector_out j s) (fun t => t * 2)
    ((dim0 + 1) / 2) 0 s

/-- The loop over `j` of `fht1` for one value of `bit`, unrolled: the body at
`j = 0, 1, ..., dim0 - 1`. -/
def stagePass {α : Type} (A : CType α) (vector_out dim0 bit : Nat) (s : State Nat α) :
    State Nat α :=
  runSeq (fun j s => fht1_stage_body A vector_out bit j s) (fun t => t * 1) dim0 0 s

/-- Number of indices `j < J` whose bit `P` (a power of two) is clear. -/
def clearBelow (P J : Nat) : Nat := J / (2 * P) * P + min (J % (2 * P)) P

/-- The state after the first `t` stages of `fht1`: the first loop, then the passes at the
strides `2, 4, ..., 2 ^ (t - 1)`. -/
def stagesOf {α : Type} (A : CType α) (vector_in vector_out dim0 : Nat) (s : State Nat α)
    (t : Nat) : State Nat α :=
  if t = 0 then s
  else runSeq (fun bit s => stagePass A vector_out dim0 bit s) (fun t => 2 ^ (t + 1)) (t - 1) 0
    (basePass A vector_in vector_out dim0 s)

/-- The loop over rows of `fht2` with the rows taken in the order of the list `rows`
(one thread that is handed the rows in that order). -/
def fht2_rows_in {α : Type} (A : CType α) (fuel : Nat) (arr1 oarr dim2 : Nat) :
    List Nat → State (Nat × Nat) α → Option (State (Nat × Nat) α)
  | [], s => some s
  | i :: rows, s =>
    (fht2_row A fuel arr1 oarr dim2 i s).bind (fht2_rows_in A fuel arr1 oarr dim2 rows)

/-- An access of a vector, seen as an access of row `i` of a matrix. -/
def Access.inRow (i : Nat) : Access Nat → Access (Nat × Nat)
  | Access.read a c => Access.read a (i, c)
  | Access.write a c => Access.write a (i, c)

/-- The run of `fht2` on row `i` that has reached the state `s2` goes as the run of the loops
of `fht1` that has reached the state `s1`: row `i` of every matrix holds what the vectors
hold and has their extent, the accesses logged after `pre` are those of `s1`, made in row
`i`, and the run is undefined when it was so at the start of the row (`u0`) or when that of
`s1` is. -/
def rowSim {α : Type} (i : Nat) (pre : List (Access (Nat × Nat))) (u0 : Bool)
    (s2 : State (Nat × Nat) α) (s1 : State Nat α) : Prop :=
  rowRel i s2 s1 ∧ s2.log = pre ++ s1.log.map (Access.inRow i) ∧
    s2.ub = (u0 || s1.ub) ∧ ∀ a c, s2.valid a (i, c) = s1.valid a c

/-- The unit vector `e_i` in buffer `a`, zero elsewhere. -/
def unitMem (a i : Nat) : Nat → Nat → Int :=
  fun b j => if b = a ∧ j = i then 1 else 0

/-! ## The Walsh-Hadamard transform -/

theorem popcountBits_succ_of_lt : ∀ (w n : Nat), n < 2 ^ w →
    popcountBits (w + 1) n = popcountBits w n := by
  intro w
  induction w with
  | zero => intro n h; have : n = 0 := by simpa using h
            subst this; rfl
  | succ w ih =>
    intro n h
    have h2 : n / 2 < 2 ^ w := by
      rw [Nat.div_lt_iff_lt_mul (by norm_num)]; rw [pow_succ] at h; exact h
    show n % 2 + popcountBits (w + 1) (n / 2) = n % 2 + popcountBits w (n / 2)
    rw [ih _ h2]

theorem popcountBits_add_of_lt (w k n : Nat) (h : n < 2 ^ w) :
    popcountBits (w + k) n = popcountBits w n := by
  induction k with
  | zero => rfl
  | succ k ih =>
    rw [← Nat.add_assoc, popcountBits_succ_of_lt _ _ ?_, ih]
    exact lt_of_lt_of_le h (Nat.pow_le_pow_right (by norm_num) (by omega))

theorem popcount_eq_bits (w n : Nat) (h : n < 2 ^ w) : popcount n = popcountBits w n := by
  have hn : n < 2 ^ n := Nat.lt_two_pow n
  unfold popcount
  rcases Nat.le_total w n with hwn | hwn
  · obtain ⟨k, rfl⟩ := Nat.exists_eq_add_of_le hwn
    exact popcountBits_add_of_lt w k _ h
  · obtain ⟨k, rfl⟩ := Nat.exists_eq_add_of_le hwn
    exact (popcountBits_add_of_lt n k _ hn).symm

theorem popcountBits_add_two_pow : ∀ (w c : Nat), c < 2 ^ w →
    popcountBits (w + 1) (c + 2 ^ w) = popcountBits w c + 1 := by
  intro w
  induction w with
  | zero => intro c h; have : c = 0 := by simpa using h
            subst this; rfl
  | succ w ih =>
    intro c h
    have h2 : c / 2 < 2 ^ w := by
      rw [Nat.div_lt_iff_lt_mul (by norm_num)]; rw [pow_succ] at h; exact h
    have e1 : (c + 2 ^ (w + 1)) % 2 = c % 2 := by
      rw [pow_succ]; omega
    have e2 : (c + 2 ^ (w + 1)) / 2 = c / 2 + 2 ^ w := by
      rw [pow_succ]; omega
    show (c + 2 ^ (w + 1)) % 2 + popcountBits (w + 1) ((c + 2 ^ (w + 1)) / 2) = _
    rw [e1, e2, ih _ h2]
    show _ = c % 2 + popcountBits w (c / 2) + 1
    omega

theorem popcount_add_two_pow (w c : Nat) (h : c < 2 ^ w) :
    popcount (c + 2 ^ w) = popcount c + 1 := by
  have h1 : c + 2 ^ w < 2 ^ (w + 1) := by rw [pow_succ]; omega
  rw [popcount_eq_bits (w + 1) _ h1, popcount_eq_bits w _ h, popcountBits_add_two_pow w c h]

theorem and_two_pow_of_lt {i n : Nat} (h : i < 2 ^ n) : i &&& 2 ^ n = 0 := by
  apply Nat.eq_of_testBit_eq
  intro b
  rw [Nat.testBit_and, Nat.testBit_two_pow, Nat.zero_testBit]
  by_cases hb : n = b
  · subst hb; simp [Nat.testBit_lt_two_pow h]
  · simp [hb]

theorem two_pow_add_eq_or {j n : Nat} (h : j < 2 ^ n) : 2 ^ n + j = 2 ^ n ||| j := by
  have := Nat.mul_add_lt_is_or h 1
  simpa using this

theorem and_two_pow_add {i j n : Nat} (hi : i < 2 ^ n) (hj : j < 2 ^ n) :
    i &&& (2 ^ n + j) = i &&& j := by
  rw [two_pow_add_eq_or hj, Nat.and_or_distrib_left, and_two_pow_of_lt hi, Nat.zero_or]

theorem two_pow_add_and {i j n : Nat} (hi : i < 2 ^ n) (hj : j < 2 ^ n) :
    (2 ^ n + i) &&& j = i &&& j := by
  rw [Nat.and_comm, and_two_pow_add hj hi, Nat.and_comm]

theorem two_pow_add_and_two_pow_add {i j n : Nat} (hi : i < 2 ^ n) (hj : j < 2 ^ n) :
    (2 ^ n + i) &&& (2 ^ n + j) = (i &&& j) + 2 ^ n := by
  have hij : i &&& j < 2 ^ n := Nat.and_lt_two_pow i hj
  rw [two_pow_add_eq_or hi, two_pow_add_eq_or hj, ← Nat.or_and_distrib_left,
    ← two_pow_add_eq_or hij, Nat.add_comm]

/-- Sign of the Walsh-Hadamard matrix. -/
theorem sign_lo_hi {i j n : Nat} (hi : i < 2 ^ n) (hj : j < 2 ^ n) :
    ((-1 : Int)) ^ popcount (i &&& (2 ^ n + j)) = (-1) ^ popcount (i &&& j) := by
  rw [and_two_pow_add hi hj]

theorem sign_hi_lo {i j n : Nat} (hi : i < 2 ^ n) (hj : j < 2 ^ n) :
    ((-1 : Int)) ^ popcount ((2 ^ n + i) &&& j) = (-1) ^ popcount (i &&& j) := by
  rw [two_pow_add_and hi hj]

theorem sign_hi_hi {i j n : Nat} (hi : i < 2 ^ n) (hj : j < 2 ^ n) :
    ((-1 : Int)) ^ popcount ((2 ^ n + i) &&& (2 ^ n + j)) = -(-1) ^ popcount (i &&& j) := by
  rw [two_pow_add_and_two_pow_add hi hj, popcount_add_two_pow n _ (Nat.and_lt_two_pow i hj),
    pow_succ]
  ring

/-- Splitting the transform of length `2 ^ (n + 1)` at the top bit, low half of the output. -/
theorem wht_succ_lo (n : Nat) (x : Nat → Int) (i : Nat) (hi : i < 2 ^ n) :
    wht (2 ^ (n + 1)) x i = wht (2 ^ n) x i + wht (2 ^ n) (fun j => x (2 ^ n + j)) i := by
  unfold wht
  rw [pow_succ, Nat.mul_two, Finset.sum_range_add]
  congr 1
  apply Finset.sum_congr rfl
  intro j hj
  rw [sign_lo_hi hi (Finset.mem_range.mp hj)]

theorem wht_succ_hi (n : Nat) (x : Nat → Int) (i : Nat) (hi : i < 2 ^ n) :
    wht (2 ^ (n + 1)) x (2 ^ n + i) =
      wht (2 ^ n) x i - wht (2 ^ n) (fun j => x (2 ^ n + j)) i := by
  unfold wht
  rw [pow_succ, Nat.mul_two, Finset.sum_range_add, sub_eq_add_neg, ← Finset.sum_neg_distrib]
  congr 1
  · apply Finset.sum_congr rfl
    intro j hj
    rw [sign_hi_lo hi (Finset.mem_range.mp hj)]
  · apply Finset.sum_congr rfl
    intro j hj
    rw [sign_hi_hi hi (Finset.mem_range.mp hj)]
    ring

theorem wht_congr (m : Nat) (x y : Nat → Int) (h : ∀ j < m, x j = y j) (i : Nat) :
    wht m x i = wht m y i := by
  unfold wht
  apply Finset.sum_congr rfl
  intro j hj
  rw [h j (Finset.mem_range.mp hj)]

theorem wht_add (m : Nat) (x y : Nat → Int) (i : Nat) :
    wht m (fun j => x j + y j) i = wht m x i + wht m y i := by
  unfold wht
  rw [← Finset.sum_add_distrib]
  apply Finset.sum_congr rfl
  intro j _; ring

theorem wht_sub (m : Nat) (x y : Nat → Int) (i : Nat) :
    wht m (fun j => x j - y j) i = wht m x i - wht m y i := by
  unfold wht
  rw [← Finset.sum_sub_distrib]
  apply Finset.sum_congr rfl
  intro j _; ring

theorem wht_one (x : Nat → Int) : wht 1 x 0 = x 0 := by
  simp [wht, popcount, popcountBits]

/-- Self-inverse law of the Walsh-Hadamard transform. -/
theorem wht_wht : ∀ (n : Nat) (x : Nat → Int) (i : Nat), i < 2 ^ n →
    wht (2 ^ n) (wht (2 ^ n) x) i = 2 ^ n * x i := by
  intro n
  induction n with
  | zero =>
    intro x i hi
    have : i = 0 := by simpa using hi
    subst this
    simp [wht_one]
  | succ n ih =>
    intro x i hi
    have key1 : ∀ k, wht (2 ^ n) (wht (2 ^ (n + 1)) x) k =
        wht (2 ^ n) (wht (2 ^ n) x) k + wht (2 ^ n) (wht (2 ^ n) (fun j => x (2 ^ n + j))) k := by
      intro k
      rw [← wht_add]
      exact wht_congr _ _ _ (fun j hj => wht_succ_lo n x j hj) k
    have key2 : ∀ k, wht (2 ^ n) (fun j => wht (2 ^ (n + 1)) x (2 ^ n + j)) k =
        wht (2 ^ n) (wht (2 ^ n) x) k - wht (2 ^ n) (wht (2 ^ n) (fun j => x (2 ^ n + j))) k := by
      intro k
      rw [← wht_sub]
      exact wht_congr _ _ _ (fun j hj => wht_succ_hi n x j hj) k
    by_cases h : i < 2 ^ n
    · rw [wht_succ_lo n _ i h, key1, key2, ih x i h]
      rw [pow_succ]; ring
    · obtain ⟨k, rfl⟩ : ∃ k, i = 2 ^ n + k := ⟨i - 2 ^ n, by omega⟩
      have hk : k < 2 ^ n := by rw [pow_succ] at hi; omega
      rw [wht_succ_hi n _ k hk, key1, key2, ih (fun j => x (2 ^ n + j)) k hk]
      rw [pow_succ]; ring

/-- Parseval identity of the Walsh-Hadamard transform. -/
theorem wht_parseval : ∀ (n : Nat) (x : Nat → Int),
    ∑ i in Finset.range (2 ^ n), wht (2 ^ n) x i ^ 2 =
      2 ^ n * ∑ i in Finset.range (2 ^ n), x i ^ 2 := by
  intro n
  induction n with
  | zero => intro x; simp [wht_one]
  | succ n ih =>
    intro x
    have e : 2 ^ (n + 1) = 2 ^ n + 2 ^ n := by rw [pow_succ]; omega
    rw [e, Finset.sum_range_add, Finset.sum_range_add, ← e]
    have h1 : ∑ i in Finset.range (2 ^ n), wht (2 ^ (n + 1)) x i ^ 2 =
        ∑ i in Finset.range (2 ^ n),
          (wht (2 ^ n) x i + wht (2 ^ n) (fun j => x (2 ^ n + j)) i) ^ 2 :=
      Finset.sum_congr rfl fun i hi => by rw [wht_succ_lo n x i (Finset.mem_range.mp hi)]
    have h2 : ∑ i in Finset.range (2 ^ n), wht (2 ^ (n + 1)) x (2 ^ n + i) ^ 2 =
        ∑ i in Finset.range (2 ^ n),
          (wht (2 ^ n) x i - wht (2 ^ n) (fun j => x (2 ^ n + j)) i) ^ 2 :=
      Finset.sum_congr rfl fun i hi => by rw [wht_succ_hi n x i (Finset.mem_range.mp hi)]
    rw [h1, h2, ← Finset.sum_add_distrib]
    have h3 : ∀ i, (wht (2 ^ n) x i + wht (2 ^ n) (fun j => x (2 ^ n + j)) i) ^ 2 +
        (wht (2 ^ n) x i - wht (2 ^ n) (fun j => x (2 ^ n + j)) i) ^ 2 =
        2 * wht (2 ^ n) x i ^ 2 + 2 * wht (2 ^ n) (fun j => x (2 ^ n + j)) i ^ 2 := by
      intro i; ring
    simp only [h3]
    rw [Finset.sum_add_distrib, ← Finset.mul_sum, ← Finset.mul_sum, ih x,
      ih (fun j => x (2 ^ n + j))]
    rw [pow_succ]; ring


/-! ### Index arithmetic of one butterfly stage -/

theorem two_pow_and_eq_zero_iff_testBit (s j : Nat) : 2 ^ s &&& j = 0 ↔ j.testBit s = false := by
  constructor
  · intro h
    have := congrArg (fun t => Nat.testBit t s) h
    simpa [Nat.testBit_two_pow_self] using this
  · intro h
    apply Nat.eq_of_testBit_eq
    intro b
    rw [Nat.testBit_and, Nat.testBit_two_pow, Nat.zero_testBit]
    by_cases hb : s = b
    · subst hb; simp [h]
    · simp [hb]

theorem two_pow_and_eq_zero_iff (s j : Nat) : 2 ^ s &&& j = 0 ↔ j % 2 ^ (s + 1) < 2 ^ s := by
  rw [two_pow_and_eq_zero_iff_testBit, Nat.testBit_to_div_mod, pow_succ, Nat.mod_mul]
  have hp : 0 < 2 ^ s := Nat.two_pow_pos s
  have hr : j % 2 ^ s < 2 ^ s := Nat.mod_lt _ hp
  rcases Nat.mod_two_eq_zero_or_one (j / 2 ^ s) with h | h
  · rw [h]; simp; omega
  · rw [h]; simp

theorem divmod_of_eq {P a r i : Nat} (hr : r < P) (h : i = P * a + r) :
    i / P = a ∧ i % P = r := by
  have hP : 0 < P := by omega
  subst h
  refine ⟨?_, ?_⟩
  · rw [Nat.mul_add_div hP, Nat.div_eq_of_lt hr]; rfl
  · rw [Nat.mul_add_mod, Nat.mod_eq_of_lt hr]

theorem or_two_pow_of_clear {s j : Nat} (h : 2 ^ s &&& j = 0) : j ||| 2 ^ s = j + 2 ^ s := by
  rw [two_pow_and_eq_zero_iff] at h
  have hj := Nat.div_add_mod j (2 ^ (s + 1))
  have hr' : j % 2 ^ (s + 1) < 2 ^ (s + 1) := lt_of_lt_of_le h (Nat.pow_le_pow_right (by norm_num) (by omega))
  have e1 : j = 2 ^ (s + 1) * (j / 2 ^ (s + 1)) ||| j % 2 ^ (s + 1) := by
    rw [← Nat.mul_add_lt_is_or hr']; exact hj.symm
  have e2 : 2 ^ s + j % 2 ^ (s + 1) = 2 ^ s ||| j % 2 ^ (s + 1) := two_pow_add_eq_or h
  have e3 : 2 ^ s + j % 2 ^ (s + 1) < 2 ^ (s + 1) := by
    have h6 : 2 ^ (s + 1) = 2 ^ s * 2 := pow_succ 2 s
    omega
  have e4 : j + 2 ^ s = 2 ^ (s + 1) * (j / 2 ^ (s + 1)) + (2 ^ s + j % 2 ^ (s + 1)) := by omega
  rw [e4, Nat.mul_add_lt_is_or e3, e2]
  conv_lhs => rw [e1]
  rw [Nat.or_assoc, Nat.or_comm (j % 2 ^ (s + 1))]

/-- Partner index stays inside a power-of-two length. -/
theorem add_two_pow_lt {s n j : Nat} (hs : s < n) (hj : j < 2 ^ n) (h : 2 ^ s &&& j = 0) :
    j + 2 ^ s < 2 ^ n := by
  rw [two_pow_and_eq_zero_iff] at h
  obtain ⟨d, rfl⟩ : ∃ d, n = s + 1 + d := ⟨n - (s + 1), by omega⟩
  rw [pow_add] at hj ⊢
  have hq : j / 2 ^ (s + 1) < 2 ^ d := by
    rw [Nat.div_lt_iff_lt_mul (Nat.two_pow_pos _), Nat.mul_comm]; exact hj
  have hj' := Nat.div_add_mod j (2 ^ (s + 1))
  have h5 : 2 ^ (s + 1) * (j / 2 ^ (s + 1) + 1) ≤ 2 ^ (s + 1) * 2 ^ d :=
    Nat.mul_le_mul_left _ hq
  have h6 : 2 ^ (s + 1) = 2 ^ s * 2 := pow_succ 2 s
  rw [Nat.mul_add, Nat.mul_one] at h5
  omega

/-! ### The value held after `s` stages -/

theorem blockWht_zero (x : Nat → Int) (i : Nat) : blockWht 0 x i = x i := by
  simp [blockWht, Nat.mod_one, wht_one]

theorem blockWht_full (n : Nat) (x : Nat → Int) (i : Nat) (hi : i < 2 ^ n) :
    blockWht n x i = wht (2 ^ n) x i := by
  simp [blockWht, Nat.mod_eq_of_lt hi, Nat.div_eq_of_lt hi]

theorem blockWht_succ (s : Nat) (x : Nat → Int) (i : Nat) :
    blockWht (s + 1) x i = stageFn (2 ^ s) (blockWht s x) i := by
  have hP : 0 < 2 ^ s := Nat.two_pow_pos s
  have h2 : 2 ^ (s + 1) = 2 ^ s * 2 := pow_succ 2 s
  have hi := Nat.div_add_mod i (2 ^ (s + 1))
  have hr := Nat.mod_lt i (Nat.two_pow_pos (s + 1))
  generalize hq : i / 2 ^ (s + 1) = q at hi
  generalize hrr : i % 2 ^ (s + 1) = r at hi hr
  unfold stageFn
  by_cases hc : 2 ^ s &&& i = 0
  · rw [if_pos hc, or_two_pow_of_clear hc]
    have hc' := (two_pow_and_eq_zero_iff s i).mp hc
    rw [hrr] at hc'
    have ei : i = 2 ^ s * (2 * q) + r := by rw [← hi, h2]; ring
    have ei' : i + 2 ^ s = 2 ^ s * (2 * q + 1) + r := by rw [← hi, h2]; ring
    obtain ⟨d1, m1⟩ := divmod_of_eq hc' ei
    obtain ⟨d2, m2⟩ := divmod_of_eq hc' ei'
    unfold blockWht
    rw [hq, hrr, d1, m1, d2, m2, wht_succ_lo s _ r hc']
    congr 1
    · apply wht_congr; intro j _; rw [h2]; ring_nf
    · apply wht_congr; intro j _; rw [h2]; ring_nf
  · rw [if_neg hc]
    have hc' : ¬ r < 2 ^ s := by
      rw [← hrr]; exact fun h => hc ((two_pow_and_eq_zero_iff s i).mpr h)
    obtain ⟨r', rfl⟩ : ∃ r', r = 2 ^ s + r' := ⟨r - 2 ^ s, by omega⟩
    have hr' : r' < 2 ^ s := by omega
    have ei : i = 2 ^ s * (2 * q + 1) + r' := by rw [← hi, h2]; ring
    have ei' : i - 2 ^ s = 2 ^ s * (2 * q) + r' := by
      have : i = 2 ^ s * (2 * q) + r' + 2 ^ s := by rw [← hi, h2]; ring
      omega
    obtain ⟨d1, m1⟩ := divmod_of_eq hr' ei
    obtain ⟨d2, m2⟩ := divmod_of_eq hr' ei'
    unfold blockWht
    rw [hq, hrr, d1, m1, d2, m2, wht_succ_hi s _ r' hr']
    congr 1
    · apply wht_congr; intro j _; rw [h2]; ring_nf
    · apply wht_congr; intro j _; rw [h2]; ring_nf

/-! ## Loops -/

theorem forLoop_seq {σ : Type} (cond : Nat → Bool) (next : Nat → Nat) (f : Nat → σ → σ)
    (seq : Nat → Nat) (K : Nat)
    (hnext : ∀ t, t < K → next (seq t) = seq (t + 1))
    (hcond : ∀ t, t < K → cond (seq t) = true) (hend : cond (seq K) = false) :
    ∀ (k t fuel : Nat) (s : σ), t + k = K → k < fuel →
      forLoop cond next (fun j s => some (f j s)) fuel (seq t) s = some (runSeq f seq k t s) := by
  intro k
  induction k with
  | zero =>
    intro t fuel s ht hf
    obtain ⟨fuel, rfl⟩ : ∃ g, fuel = g + 1 := ⟨fuel - 1, by omega⟩
    have : t = K := by omega
    subst this
    simp [forLoop, hend, runSeq]
  | succ k ih =>
    intro t fuel s ht hf
    obtain ⟨fuel, rfl⟩ : ∃ g, fuel = g + 1 := ⟨fuel - 1, by omega⟩
    have htK : t < K := by omega
    simp only [forLoop, hcond t htK, if_true, Option.some_bind, runSeq]
    rw [hnext t htK]
    exact ih (t + 1) fuel _ (by omega) (by omega)

theorem runSeq_inv {σ : Type} (f : Nat → σ → σ) (seq : Nat → Nat) (K : Nat)
    (Inv : Nat → σ → Prop) (hstep : ∀ t s, t < K → Inv t s → Inv (t + 1) (f (seq t) s)) :
    ∀ (k t : Nat) (s : σ), t + k ≤ K → Inv t s → Inv (t + k) (runSeq f seq k t s) := by
  intro k
  induction k with
  | zero => intro t s _ h; exact h
  | succ k ih =>
    intro t s ht h
    have := ih (t + 1) (f (seq t) s) (by omega) (hstep t s (by omega) h)
    rw [show t + (k + 1) = t + 1 + k by omega]
    exact this

theorem u32_of_lt {n : Nat} (h : n < 2 ^ 32) : u32 n = n := Nat.mod_eq_of_lt h

/-- The loop `for (j = 0; j < n; j += c)` runs its body at `0, c, 2 c, ...`. -/
theorem forLoop_count {σ : Type} (f : Nat → σ → σ) (n c K fuel : Nat) (s : σ)
    (hn : n + c ≤ 2 ^ 32) (hK1 : n ≤ K * c) (hK2 : K * c < n + c) (hf : K < fuel) :
    forLoop (fun j => decide (j < n)) (fun j => u32 (j + c)) (fun j s => some (f j s)) fuel 0 s
      = some (runSeq f (fun t => t * c) K 0 s) := by
  have h := forLoop_seq (fun j => decide (j < n)) (fun j => u32 (j + c)) f (fun t => t * c) K
    ?_ ?_ ?_ K 0 fuel s (by omega) hf
  · simpa using h
  · intro t ht
    have h1 : (t + 1) * c ≤ K * c := Nat.mul_le_mul_right c ht
    have h2 : (t + 1) * c = t * c + c := by ring
    show u32 (t * c + c) = (t + 1) * c
    rw [u32_of_lt (by omega), h2]
  · intro t ht
    have h1 : (t + 1) * c ≤ K * c := Nat.mul_le_mul_right c ht
    have h2 : (t + 1) * c = t * c + c := by ring
    simp only [decide_eq_true_eq]
    omega
  · simp only [decide_eq_false_iff_not]
    omega

/-- The loop `for (bit = 2; bit < dim0; bit <<= 1)` runs its body at `2, 4, ..., 2 ^ K`,
where `2 ^ K < dim0 ≤ 2 ^ (K + 1)`; no shift wraps as long as `K ≤ 30`. -/
theorem forLoop_doubling_count {σ : Type} (f : Nat → σ → σ) (dim0 K fuel : Nat) (s : σ)
    (hK1 : ∀ t, t < K → 2 ^ (t + 1) < dim0) (hK2 : dim0 ≤ 2 ^ (K + 1)) (hK : K ≤ 30)
    (hf : K < fuel) :
    forLoop (fun bit => decide (bit < dim0)) (fun bit => u32 (bit <<< 1))
        (fun j s => some (f j s)) fuel 2 s
      = some (runSeq f (fun t => 2 ^ (t + 1)) K 0 s) := by
  have h := forLoop_seq (fun bit => decide (bit < dim0)) (fun bit => u32 (bit <<< 1)) f
    (fun t => 2 ^ (t + 1)) K ?_ ?_ ?_ K 0 fuel s (by omega) hf
  · simpa using h
  · intro t ht
    show u32 (2 ^ (t + 1) <<< 1) = 2 ^ (t + 1 + 1)
    rw [Nat.shiftLeft_eq, pow_one, ← pow_succ]
    apply u32_of_lt
    exact Nat.pow_lt_pow_right (by norm_num) (by omega)
  · intro t ht
    simp only [decide_eq_true_eq]
    exact hK1 t ht
  · simp only [decide_eq_false_iff_not, not_lt]
    exact hK2

/-- Number of values that `bit` takes for a length that fits an `int`. -/
theorem exists_stride_count (dim0 : Nat) (h : dim0 ≤ 2 ^ 31) :
    ∃ K, K ≤ 30 ∧ (∀ t, t < K → 2 ^ (t + 1) < dim0) ∧ dim0 ≤ 2 ^ (K + 1) ∧ K ≤ dim0 := by
  by_cases h2 : dim0 < 2
  · exact ⟨0, by omega, fun t ht => absurd ht (Nat.not_lt_zero t), by omega, by omega⟩
  · have hc : 0 < Nat.clog 2 dim0 := Nat.clog_pos (by norm_num) (by omega)
    have h3 : 2 ^ (Nat.clog 2 dim0).pred < dim0 :=
      Nat.pow_pred_clog_lt_self (by norm_num) (by omega)
    have h4 : dim0 ≤ 2 ^ Nat.clog 2 dim0 := Nat.le_pow_clog (by norm_num) dim0
    have h5 : Nat.clog 2 dim0 ≤ 31 := (Nat.le_pow_iff_clog_le (by norm_num)).mp h
    refine ⟨Nat.clog 2 dim0 - 1, by omega, ?_, ?_, ?_⟩
    · intro t ht
      refine lt_of_le_of_lt (Nat.pow_le_pow_right (by norm_num) ?_) h3
      rw [Nat.pred_eq_sub_one]; omega
    · rw [Nat.sub_add_cancel hc]; exact h4
    · rw [Nat.pred_eq_sub_one] at h3
      exact le_of_lt (lt_trans (Nat.lt_two_pow _) h3)

/-! ## Further facts on the transform -/

theorem pow_two_bounds {m n : Nat} (hm : m = 2 ^ n) (h2 : 2 ≤ m) (hint : m < 2 ^ 31) :
    1 ≤ n ∧ n ≤ 31 := by
  subst hm
  refine ⟨?_, ?_⟩
  · rcases Nat.eq_zero_or_pos n with h | h
    · subst h; simp at h2
    · exact h
  · exact le_of_lt ((Nat.pow_lt_pow_iff_right (by norm_num)).mp hint)

theorem wht_impulse (m : Nat) (x : Nat → Int) (i : Nat) (hm : 0 < m) (h0 : x 0 = 1)
    (h1 : ∀ j, 0 < j → j < m → x j = 0) : wht m x i = 1 := by
  unfold wht
  rw [Finset.sum_eq_single_of_mem 0 (Finset.mem_range.mpr hm)]
  · rw [Nat.and_zero, h0]; rfl
  · intro j hj hne
    rw [h1 j (Nat.pos_of_ne_zero hne) (Finset.mem_range.mp hj), mul_zero]

theorem wht_smul (m : Nat) (c : Int) (x : Nat → Int) (i : Nat) :
    wht m (fun j => c * x j) i = c * wht m x i := by
  unfold wht
  rw [Finset.mul_sum]
  apply Finset.sum_congr rfl
  intro j _; ring

theorem wht_unit (m i j : Nat) (x : Nat → Int) (hi : i < m)
    (hx : ∀ k, k < m → x k = if k = i then 1 else 0) :
    wht m x j = (-1) ^ popcount (j &&& i) := by
  unfold wht
  rw [Finset.sum_eq_single_of_mem i (Finset.mem_range.mpr hi)]
  · rw [hx i hi, if_pos rfl, mul_one]
  · intro k hk hne
    rw [hx k (Finset.mem_range.mp hk), if_neg hne, mul_zero]

/-! ## The bodies of the loops of `fht1` -/

theorem fht1_base_body_mem {α : Type} (A : CType α) {vin vout : Nat} (h : vin ≠ vout)
    (j : Nat) (s : State Nat α) (b n : Nat) :
    (fht1_base_body A vin vout j s).mem b n =
      if b = vout ∧ n = u32 (j + 1) then A.sub (s.mem vin j) (s.mem vin (u32 (j + 1)))
      else if b = vout ∧ n = j then A.add (s.mem vin j) (s.mem vin (u32 (j + 1)))
      else s.mem b n := by
  simp [fht1_base_body, load, store, arith, CType.apply, h]

theorem fht1_stage_body_mem {α : Type} (A : CType α) (vout bit j : Nat) (s : State Nat α)
    (b n : Nat) :
    (fht1_stage_body A vout bit j s).mem b n =
      if bit &&& j = 0 then
        if b = vout ∧ n = (j ||| bit) then
          A.sub (s.mem vout j)
            (if (j ||| bit) = j then A.add (s.mem vout j) (s.mem vout (j ||| bit))
             else s.mem vout (j ||| bit))
        else if b = vout ∧ n = j then A.add (s.mem vout j) (s.mem vout (j ||| bit))
        else s.mem b n
      else s.mem b n := by
  unfold fht1_stage_body
  by_cases hb : bit &&& j = 0
  · simp only [hb, if_true, load, store, arith, CType.apply]
    by_cases h1 : b = vout ∧ n = (j ||| bit)
    · simp [h1]
    · simp [h1]
  · simp [hb]

theorem fht1_base_body_log {α : Type} (A : CType α) (vin vout j : Nat) (s : State Nat α) :
    (fht1_base_body A vin vout j s).log = s.log ++
      [Access.read vin j, Access.read vin (u32 (j + 1)), Access.write vout j,
       Access.read vin j, Access.read vin (u32 (j + 1)), Access.write vout (u32 (j + 1))] := by
  simp [fht1_base_body, load, store, arith]

theorem fht1_stage_body_log {α : Type} (A : CType α) (vout bit j : Nat) (s : State Nat α) :
    (fht1_stage_body A vout bit j s).log = s.log ++
      (if bit &&& j = 0 then
        [Access.read vout j, Access.read vout j, Access.read vout (j ||| bit),
         Access.write vout j, Access.read vout (j ||| bit), Access.write vout (j ||| bit)]
       else []) := by
  unfold fht1_stage_body
  by_cases h : bit &&& j = 0
  · simp [h, load, store, arith]
  · simp [h]

theorem fht1_base_body_ops {α : Type} (A : CType α) (vin vout j : Nat) (s : State Nat α) :
    (fht1_base_body A vin vout j s).ops = s.ops ++ [ArithOp.add, ArithOp.sub] := by
  simp [fht1_base_body, load, store, arith]

theorem fht1_stage_body_ops {α : Type} (A : CType α) (vout bit j : Nat) (s : State Nat α) :
    (fht1_stage_body A vout bit j s).ops = s.ops ++
      (if bit &&& j = 0 then [ArithOp.add, ArithOp.sub] else []) := by
  unfold fht1_stage_body
  by_cases h : bit &&& j = 0
  · simp [h, load, store, arith]
  · simp [h]

/-- The body of the first loop makes six accesses and one addition and one subtraction. -/
theorem fht1_base_body_ran {α : Type} (A : CType α) (vin vout j : Nat) (s : State Nat α) :
    Ran s (fht1_base_body A vin vout j s)
      [Access.read vin j, Access.read vin (u32 (j + 1)), Access.write vout j,
       Access.read vin j, Access.read vin (u32 (j + 1)), Access.write vout (u32 (j + 1))]
      [ArithOp.add, ArithOp.sub] := by
  refine ⟨fht1_base_body_log A vin vout j s, fht1_base_body_ops A vin vout j s, ?_, ?_⟩
  · simp only [fht1_base_body, load, store, arith, List.any_cons, List.any_nil,
      Access.outside, Access.buffer, Access.index, Bool.or_false]
    cases s.ub <;> cases s.valid vin j <;> cases s.valid vin (u32 (j + 1)) <;>
      cases s.valid vout j <;> cases s.valid vout (u32 (j + 1)) <;> rfl
  · simp [fht1_base_body, load, store, arith]

/-- The body of the loop over `j` makes six accesses and one addition and one subtraction
when the stride bit of `j` is clear, and nothing otherwise. -/
theorem fht1_stage_body_ran {α : Type} (A : CType α) (vout bit j : Nat) (s : State Nat α) :
    Ran s (fht1_stage_body A vout bit j s)
      (if bit &&& j = 0 then
        [Access.read vout j, Access.read vout j, Access.read vout (j ||| bit),
         Access.write vout j, Access.read vout (j ||| bit), Access.write vout (j ||| bit)]
       else [])
      (if bit &&& j = 0 then [ArithOp.add, ArithOp.sub] else []) := by
  refine ⟨fht1_stage_body_log A vout bit j s, fht1_stage_body_ops A vout bit j s, ?_, ?_⟩
  · unfold fht1_stage_body
    by_cases h : bit &&& j = 0
    · simp only [h, if_true, load, store, arith, List.any_cons, List.any_nil,
        Access.outside, Access.buffer, Access.index, Bool.or_false]
      cases s.ub <;> cases s.valid vout j <;> cases s.valid vout (j ||| bit) <;> rfl
    · simp [h]
  · unfold fht1_stage_body
    by_cases h : bit &&& j = 0
    · simp [h, load, store, arith]
    · simp [h]

theorem ran_refl {ι α : Type} (s : State ι α) : Ran s s [] [] := by
  simp [Ran]

theorem ran_trans {ι α : Type} {s t u : State ι α} {l1 l2 : List (Access ι)}
    {o1 o2 : List ArithOp} (h1 : Ran s t l1 o1) (h2 : Ran t u l2 o2) :
    Ran s u (l1 ++ l2) (o1 ++ o2) := by
  obtain ⟨a1, b1, c1, d1⟩ := h1
  obtain ⟨a2, b2, c2, d2⟩ := h2
  refine ⟨by rw [a2, a1, List.append_assoc], by rw [b2, b1, List.append_assoc], ?_,
    d2.trans d1⟩
  rw [c2, c1, d1, List.any_append, Bool.or_assoc]

/-- A sequence of steps that each run some accesses and operations runs some accesses and
operations. -/
theorem runSeq_ran {ι α : Type} (f : Nat → State ι α → State ι α) (seq : Nat → Nat)
    (hstep : ∀ j s, ∃ l o, Ran s (f j s) l o) :
    ∀ (k t : Nat) (s : State ι α), ∃ l o, Ran s (runSeq f seq k t s) l o := by
  intro k
  induction k with
  | zero => intro t s; exact ⟨[], [], ran_refl s⟩
  | succ k ih =>
    intro t s
    obtain ⟨l1, o1, h1⟩ := hstep (seq t) s
    obtain ⟨l2, o2, h2⟩ := ih (t + 1) (f (seq t) s)
    exact ⟨l1 ++ l2, o1 ++ o2, ran_trans h1 h2⟩

/-- If every step of a sequence adds only accesses with the property `P`, so does the whole
sequence. -/
theorem runSeq_ran_forall {ι α : Type} (f : Nat → State ι α → State ι α) (seq : Nat → Nat)
    (K : Nat) (P : Access ι → Prop)
    (hstep : ∀ t s, t < K → ∃ l o, Ran s (f (seq t) s) l o ∧ ∀ acc, acc ∈ l → P acc)
    (s : State ι α) :
    ∃ l o, Ran s (runSeq f seq K 0 s) l o ∧ ∀ acc, acc ∈ l → P acc := by
  have inv := runSeq_inv f seq K
    (fun _ s' => ∃ l o, Ran s s' l o ∧ ∀ acc, acc ∈ l → P acc) ?_
    K 0 s (by omega) ⟨[], [], ran_refl s, fun _ h => absurd h (List.not_mem_nil _)⟩
  · simpa using inv
  · intro t s' ht ⟨l, o, hr, hP⟩
    obtain ⟨l2, o2, hr2, hP2⟩ := hstep t s' ht
    refine ⟨l ++ l2, o ++ o2, ran_trans hr hr2, ?_⟩
    intro acc hacc
    rcases List.mem_append.mp hacc with h | h
    · exact hP acc h
    · exact hP2 acc h

/-- A run whose accesses all stay inside the arrays leaves the flag `ub` as it was. -/
theorem ran_ub_of_inside {ι α : Type} {s t : State ι α} {l : List (Access ι)}
    {o : List ArithOp} (h : Ran s t l o)
    (hin : ∀ acc, acc ∈ l → s.valid acc.buffer acc.index = true) : t.ub = s.ub := by
  have : l.any (Access.outside s.valid) = false := by
    rw [List.any_eq_false]
    intro acc hacc
    simp [Access.outside, hin acc hacc]
  rw [h.2.2.1, this, Bool.or_false]

/-- A run that makes an access outside the arrays sets the flag `ub`. -/
theorem ran_ub_of_outside {ι α : Type} {s t : State ι α} {l : List (Access ι)}
    {o : List ArithOp} (h : Ran s t l o) (acc : Access ι) (hacc : acc ∈ l)
    (hout : s.valid acc.buffer acc.index = false) : t.ub = true := by
  have : l.any (Access.outside s.valid) = true := by
    rw [List.any_eq_true]
    exact ⟨acc, hacc, by simp [Access.outside, hout]⟩
  rw [h.2.2.1, this, Bool.or_true]

theorem one_and_two_mul (t : Nat) : 1 &&& (t * 2) = 0 := by
  rw [Nat.one_and_eq_mod_two]; omega

theorem two_pow_le_of_set {s i : Nat} (h : ¬ (2 ^ s &&& i = 0)) : 2 ^ s ≤ i := by
  rw [two_pow_and_eq_zero_iff] at h
  have := Nat.mod_le i (2 ^ (s + 1))
  omega

theorem clear_sub_of_set {s i : Nat} (h : ¬ (2 ^ s &&& i = 0)) : 2 ^ s &&& (i - 2 ^ s) = 0 := by
  have hle := two_pow_le_of_set h
  rw [two_pow_and_eq_zero_iff] at h ⊢
  have h2 : 2 ^ (s + 1) = 2 ^ s * 2 := pow_succ 2 s
  have hr := Nat.mod_lt i (Nat.two_pow_pos (s + 1))
  have hi := Nat.div_add_mod i (2 ^ (s + 1))
  have e : i - 2 ^ s = 2 ^ (s + 1) * (i / 2 ^ (s + 1)) + (i % 2 ^ (s + 1) - 2 ^ s) := by omega
  rw [(divmod_of_eq (by omega) e).2]
  omega

theorem set_add_of_clear {s j : Nat} (h : 2 ^ s &&& j = 0) : ¬ (2 ^ s &&& (j + 2 ^ s) = 0) := by
  rw [two_pow_and_eq_zero_iff] at h ⊢
  have h2 : 2 ^ (s + 1) = 2 ^ s * 2 := pow_succ 2 s
  have hi := Nat.div_add_mod j (2 ^ (s + 1))
  have e : j + 2 ^ s = 2 ^ (s + 1) * (j / 2 ^ (s + 1)) + (j % 2 ^ (s + 1) + 2 ^ s) := by omega
  rw [(divmod_of_eq (by omega) e).2]
  omega

theorem lowPartner_clear (s i : Nat) : 2 ^ s &&& lowPartner (2 ^ s) i = 0 := by
  unfold lowPartner
  by_cases h : 2 ^ s &&& i = 0
  · rw [if_pos h]; exact h
  · rw [if_neg h]; exact clear_sub_of_set h

theorem lowPartner_le (bit i : Nat) : lowPartner bit i ≤ i := by
  unfold lowPartner
  split <;> omega

theorem lowPartner_eq_iff {s j i : Nat} (hj : 2 ^ s &&& j = 0) :
    lowPartner (2 ^ s) i = j ↔ i = j ∨ i = j + 2 ^ s := by
  unfold lowPartner
  constructor
  · intro h
    by_cases hc : 2 ^ s &&& i = 0
    · rw [if_pos hc] at h; exact Or.inl h
    · rw [if_neg hc] at h
      have := two_pow_le_of_set hc
      exact Or.inr (by omega)
  · rintro (rfl | rfl)
    · rw [if_pos hj]
    · rw [if_neg (set_add_of_clear hj), Nat.add_sub_cancel]

/-! ## The loops of `fht1`, unrolled, on distinct buffers -/

theorem fht1_base_eq {α : Type} (A : CType α) (fuel vin vout m : Nat) (st : State Nat α)
    (hint : m < 2 ^ 31) (hf : m < fuel) :
    fht1_base A fuel vin vout m st = some (basePass A vin vout m st) :=
  forLoop_count (fun j s => fht1_base_body A vin vout j s) m 2 ((m + 1) / 2) fuel st
    (by omega) (by omega) (by omega) (by omega)

theorem fht1_stage_eq {α : Type} (A : CType α) (fuel vout m bit : Nat) (st : State Nat α)
    (hint : m < 2 ^ 31) (hf : m < fuel) :
    fht1_stage A fuel vout m bit st = some (stagePass A vout m bit st) :=
  forLoop_count (fun j s => fht1_stage_body A vout bit j s) m 1 m fuel st
    (by omega) (by omega) (by omega) hf

/-- The loops of `fht1`, unrolled: the first loop followed by one pass over `j` for each of
the strides `2, 4, ..., 2 ^ K`, where `2 ^ K < dim0 ≤ 2 ^ (K + 1)`. -/
theorem fht1_loops_eq_passes {α : Type} (A : CType α) (fuel vin vout m K : Nat)
    (st : State Nat α) (hint : m < 2 ^ 31) (hf : m < fuel)
    (hK : K ≤ 30) (hK1 : ∀ t, t < K → 2 ^ (t + 1) < m) (hK2 : m ≤ 2 ^ (K + 1)) :
    (fht1_base A fuel vin vout m st).bind (fht1_stages A fuel vout m) =
      some (runSeq (fun bit s => stagePass A vout m bit s) (fun t => 2 ^ (t + 1)) K 0
        (basePass A vin vout m st)) := by
  have hKm : K < fuel := by
    rcases Nat.eq_zero_or_pos K with h | h
    · omega
    · have := hK1 (K - 1) (by omega)
      have h2 : K - 1 + 1 = K := by omega
      rw [h2] at this
      exact lt_trans (lt_trans (Nat.lt_two_pow K) this) hf
  have hbody : (fun bit st => fht1_stage A fuel vout m bit st) =
      fun bit st => some (stagePass A vout m bit st) := by
    funext bit st
    exact fht1_stage_eq A fuel vout m bit st hint hf
  rw [fht1_base_eq A fuel vin vout m st hint hf, Option.some_bind]
  unfold fht1_stages
  rw [hbody]
  exact forLoop_doubling_count _ m K fuel _ hK1 hK2 hK hKm

/-- The entry point is its loops followed by the return. -/
theorem fht1_eq_loops {α : Type} (A : CType α) (fuel : Nat) (vin vout : PyArrayObject)
    (d : Nat) (rest : List Nat) (st : State Nat α) (hdims : vin.dimensions = d :: rest) :
    fht1 A fuel [PyObject.ndarray vin, PyObject.ndarray vout] st =
      ((fht1_base A fuel vin.data vout.data (u32 d) st).bind
        (fht1_stages A fuel vout.data (u32 d))).map finish := by
  simp only [fht1, PyArg_ParseTuple, hdims]
  cases fht1_base A fuel vin.data vout.data (u32 d) st with
  | none => rfl
  | some s1 =>
    simp only [Option.some_bind]
    cases fht1_stages A fuel vout.data (u32 d) s1 <;> rfl

/-- An array whose first dimension is positive has a first dimension. -/
theorem dims_of_getD {l : List Nat} {m : Nat} (h : l.getD 0 0 = m) (hm : 1 ≤ m) :
    ∃ rest, l = m :: rest := by
  cases l with
  | nil => simp at h; omega
  | cons d rest => simp at h; exact ⟨rest, by rw [h]⟩

/-- For a length that fits an `int`, `fht1` is its first loop followed by one pass over `j`
for each of the strides `2, 4, ..., 2 ^ K`, where `2 ^ K < dim0 ≤ 2 ^ (K + 1)`. -/
theorem fht1_eq_passes {α : Type} (A : CType α) (vin vout : PyArrayObject)
    (m K fuel : Nat) (rest : List Nat) (st : State Nat α)
    (hdims : vin.dimensions = m :: rest) (hint : m < 2 ^ 31) (hf : m < fuel)
    (hK : K ≤ 30) (hK1 : ∀ t, t < K → 2 ^ (t + 1) < m) (hK2 : m ≤ 2 ^ (K + 1)) :
    fht1 A fuel [PyObject.ndarray vin, PyObject.ndarray vout] st =
      some (finish
        (runSeq (fun bit s => stagePass A vout.data m bit s) (fun t => 2 ^ (t + 1)) K 0
          (basePass A vin.data vout.data m st))) := by
  have hu : u32 m = m := u32_of_lt (by omega)
  rw [fht1_eq_loops A fuel vin vout m rest st hdims, hu,
    fht1_loops_eq_passes A fuel vin.data vout.data m K st hint hf hK hK1 hK2]
  rfl

theorem stageOf_one_even {α : Type} (A : CType α) (x : Nat → α) (t : Nat) :
    stageOf A 1 x (t * 2) = A.add (x (t * 2)) (x (t * 2 + 1)) := by
  have h : 2 ^ 0 &&& (t * 2) = 0 := one_and_two_mul t
  have := or_two_pow_of_clear h
  simp only [pow_zero] at this h
  unfold stageOf
  rw [if_pos h, this]

theorem stageOf_one_odd {α : Type} (A : CType α) (x : Nat → α) (t : Nat) :
    stageOf A 1 x (t * 2 + 1) = A.sub (x (t * 2)) (x (t * 2 + 1)) := by
  have h : ¬ (1 &&& (t * 2 + 1) = 0) := by
    rw [Nat.one_and_eq_mod_two]; omega
  unfold stageOf
  rw [if_neg h, Nat.add_sub_cancel]

/-- The first loop of `fht1`, output distinct from input: every pair of the output is
set from the input, which stays as it was. -/
theorem basePass_mem {α : Type} (A : CType α) {vin vout : Nat} (hd : vin ≠ vout) (h : Nat)
    (s : State Nat α) (hm : 2 * h < 2 ^ 31) :
    (∀ b, b ≠ vout → (basePass A vin vout (2 * h) s).mem b = s.mem b) ∧
      (∀ i, i < 2 * h →
        (basePass A vin vout (2 * h) s).mem vout i = stageOf A 1 (s.mem vin) i) ∧
      (∀ i, 2 * h ≤ i → (basePass A vin vout (2 * h) s).mem vout i = s.mem vout i) := by
  have hh : (2 * h + 1) / 2 = h := by omega
  unfold basePass
  rw [hh]
  have inv := runSeq_inv (fun j s => fht1_base_body A vin vout j s) (fun t => t * 2) h
    (fun t s' => (∀ b, b ≠ vout → s'.mem b = s.mem b) ∧
      (∀ i, i < t * 2 → s'.mem vout i = stageOf A 1 (s.mem vin) i) ∧
      (∀ i, t * 2 ≤ i → s'.mem vout i = s.mem vout i)) ?_ h 0 s (by omega) ?_
  · simp only [Nat.zero_add] at inv
    rw [Nat.mul_comm 2 h]
    exact inv
  · intro t s' ht ⟨i1, i2, i3⟩
    have hu : u32 (t * 2 + 1) = t * 2 + 1 := u32_of_lt (by omega)
    have hx : s'.mem vin = s.mem vin := i1 vin hd
    refine ⟨?_, ?_, ?_⟩
    · intro b hb
      funext n
      rw [fht1_base_body_mem A hd]
      simp [hb, i1 b hb]
    · intro i hi
      rw [fht1_base_body_mem A hd, hu, hx]
      by_cases h1 : i = t * 2 + 1
      · subst h1; simp [stageOf_one_odd]
      · by_cases h2 : i = t * 2
        · subst h2; simp [stageOf_one_even]
        · simp [h1, h2]; exact i2 i (by omega)
    · intro i hi
      rw [fht1_base_body_mem A hd, hu]
      have h1 : i ≠ t * 2 + 1 := by omega
      have h2 : i ≠ t * 2 := by omega
      simp [h1, h2]; exact i3 i (by omega)
  · exact ⟨fun _ _ => rfl, fun i hi => by omega, fun _ _ => rfl⟩

/-- One pass over `j` for the stride `2 ^ s`: every index below `dim0` receives its
butterfly value, other buffers stay as they were. -/
theorem stagePass_mem {α : Type} (A : CType α) (vout s dim0 : Nat) (st : State Nat α) :
    (∀ b, b ≠ vout → (stagePass A vout dim0 (2 ^ s) st).mem b = st.mem b) ∧
      (∀ i, i < dim0 →
        (stagePass A vout dim0 (2 ^ s) st).mem vout i = stageOf A (2 ^ s) (st.mem vout) i) := by
  unfold stagePass
  have inv := runSeq_inv (fun j st => fht1_stage_body A vout (2 ^ s) j st) (fun t => t * 1)
    dim0
    (fun t st' => (∀ b, b ≠ vout → st'.mem b = st.mem b) ∧
      (∀ i, st'.mem vout i =
        if lowPartner (2 ^ s) i < t then stageOf A (2 ^ s) (st.mem vout) i
        else st.mem vout i))
    ?_ dim0 0 st (by omega) ?_
  · simp only [Nat.zero_add] at inv
    refine ⟨inv.1, fun i hi => ?_⟩
    rw [inv.2 i, if_pos (lt_of_le_of_lt (lowPartner_le _ i) hi)]
  · intro t st' _ ⟨i1, i2⟩
    simp only [Nat.mul_one]
    refine ⟨?_, ?_⟩
    · intro b hb
      funext n
      rw [fht1_stage_body_mem]
      simp [hb, i1 b hb]
    · intro i
      rw [fht1_stage_body_mem]
      by_cases hc : 2 ^ s &&& t = 0
      · have hor := or_two_pow_of_clear hc
        have hp : 0 < 2 ^ s := Nat.two_pow_pos s
        have hne : t + 2 ^ s ≠ t := by omega
        have ht1 : st'.mem vout t = st.mem vout t := by
          rw [i2 t, if_neg]
          rw [(lowPartner_eq_iff hc).mpr (Or.inl rfl)]; omega
        have ht2 : st'.mem vout (t + 2 ^ s) = st.mem vout (t + 2 ^ s) := by
          rw [i2 (t + 2 ^ s), if_neg]
          rw [(lowPartner_eq_iff hc).mpr (Or.inr rfl)]; omega
        rw [if_pos hc, hor, if_neg hne, ht1, ht2]
        by_cases h1 : i = t + 2 ^ s
        · subst h1
          have hl : lowPartner (2 ^ s) (t + 2 ^ s) = t := (lowPartner_eq_iff hc).mpr (Or.inr rfl)
          rw [hl]
          simp only [true_and, if_true, Nat.lt_succ_self]
          unfold stageOf
          rw [if_neg (set_add_of_clear hc), Nat.add_sub_cancel]
        · by_cases h2 : i = t
          · subst h2
            have hl : lowPartner (2 ^ s) i = i := (lowPartner_eq_iff hc).mpr (Or.inl rfl)
            rw [hl]
            simp only [true_and, if_true, Nat.lt_succ_self, if_neg h1]
            unfold stageOf
            rw [if_pos hc, hor]
          · have hl : lowPartner (2 ^ s) i ≠ t := fun h =>
              ((lowPartner_eq_iff hc).mp h).elim h2 h1
            simp only [h1, h2, and_false, if_false]
            rw [i2 i]
            by_cases h3 : lowPartner (2 ^ s) i < t
            · rw [if_pos h3, if_pos (by omega)]
            · rw [if_neg h3, if_neg (by omega)]
      · have hl : lowPartner (2 ^ s) i ≠ t := fun h => hc (h ▸ lowPartner_clear s i)
        rw [if_neg hc, i2 i]
        by_cases h3 : lowPartner (2 ^ s) i < t
        · rw [if_pos h3, if_pos (by omega)]
        · rw [if_neg h3, if_neg (by omega)]
  · exact ⟨fun _ _ => rfl, fun i => by simp⟩

theorem stageOf_congr {α : Type} (A : CType α) {s n i : Nat} (y z : Nat → α) (hs : s < n)
    (hi : i < 2 ^ n) (h : ∀ j, j < 2 ^ n → y j = z j) :
    stageOf A (2 ^ s) y i = stageOf A (2 ^ s) z i := by
  unfold stageOf
  by_cases hc : 2 ^ s &&& i = 0
  · rw [if_pos hc, if_pos hc, or_two_pow_of_clear hc, h i hi, h _ (add_two_pow_lt hs hi hc)]
  · rw [if_neg hc, if_neg hc, h i hi, h (i - 2 ^ s) (lt_of_le_of_lt (Nat.sub_le _ _) hi)]

/-- The loops of `fht1` on distinct buffers of power-of-two length `2 ^ n ≥ 2`: the output
holds the input after the `n` stages, in the arithmetic of the element type; every other
buffer is as it was. -/
theorem passes_mem {α : Type} (A : CType α) {vin vout : Nat} (hd : vin ≠ vout) (n : Nat)
    (st : State Nat α) (hn1 : 1 ≤ n) (hn : n ≤ 30) :
    (∀ b, b ≠ vout →
      (runSeq (fun bit s => stagePass A vout (2 ^ n) bit s) (fun t => 2 ^ (t + 1)) (n - 1) 0
        (basePass A vin vout (2 ^ n) st)).mem b = st.mem b) ∧
    (∀ i, i < 2 ^ n →
      (runSeq (fun bit s => stagePass A vout (2 ^ n) bit s) (fun t => 2 ^ (t + 1)) (n - 1) 0
        (basePass A vin vout (2 ^ n) st)).mem vout i = afterStages A n (st.mem vin) i) := by
  have hlt : 2 ^ n < 2 ^ 31 := Nat.pow_lt_pow_right (by norm_num) (by omega)
  obtain ⟨h, hh⟩ : ∃ h, 2 ^ n = 2 * h := by
    obtain ⟨k, rfl⟩ : ∃ k, n = k + 1 := ⟨n - 1, by omega⟩
    exact ⟨2 ^ k, by rw [pow_succ]; ring⟩
  have hb := basePass_mem A hd h st (by omega)
  rw [← hh] at hb
  obtain ⟨a1, a2, _⟩ := hb
  have inv := runSeq_inv (fun bit s => stagePass A vout (2 ^ n) bit s)
    (fun t => 2 ^ (t + 1)) (n - 1)
    (fun t st' => (∀ b, b ≠ vout → st'.mem b = st.mem b) ∧
      (∀ i, i < 2 ^ n → st'.mem vout i = afterStages A (t + 1) (st.mem vin) i))
    ?_ (n - 1) 0 (basePass A vin vout (2 ^ n) st) (by omega) ⟨a1, ?_⟩
  · simp only [Nat.zero_add, Nat.sub_add_cancel hn1] at inv
    exact inv
  · intro t st' ht ⟨i1, i2⟩
    obtain ⟨j1, j2⟩ := stagePass_mem A vout (t + 1) (2 ^ n) st'
    refine ⟨fun b hb => (j1 b hb).trans (i1 b hb), fun i hi => ?_⟩
    rw [j2 i hi]
    show _ = stageOf A (2 ^ (t + 1)) (afterStages A (t + 1) (st.mem vin)) i
    exact stageOf_congr A _ _ (by omega) hi i2
  · intro i hi
    rw [a2 i hi]
    show _ = stageOf A (2 ^ 0) (afterStages A 0 (st.mem vin)) i
    rw [pow_zero]
    rfl

/-! ## Exact arithmetic: when the sums do not leave the range of the element type -/

theorem block_index_lt {s n i j : Nat} (hs : s ≤ n) (hi : i < 2 ^ n) (hj : j < 2 ^ s) :
    i / 2 ^ s * 2 ^ s + j < 2 ^ n := by
  obtain ⟨d, rfl⟩ : ∃ d, n = s + d := ⟨n - s, by omega⟩
  rw [pow_add] at hi ⊢
  have hq : i / 2 ^ s < 2 ^ d := by
    rw [Nat.div_lt_iff_lt_mul (Nat.two_pow_pos _), Nat.mul_comm]; exact hi
  have h5 : (i / 2 ^ s + 1) * 2 ^ s ≤ 2 ^ d * 2 ^ s := Nat.mul_le_mul_right _ hq
  rw [Nat.add_mul, Nat.one_mul, Nat.mul_comm (2 ^ d)] at h5
  omega

theorem blockWht_congr {s n i : Nat} (x y : Nat → Int) (hs : s ≤ n) (hi : i < 2 ^ n)
    (h : ∀ j, j < 2 ^ n → x j = y j) : blockWht s x i = blockWht s y i := by
  unfold blockWht
  apply wht_congr
  intro j hj
  exact h _ (block_index_lt hs hi hj)

theorem wht_zero_fun (m : Nat) (x : Nat → Int) (i : Nat) (h : ∀ j, j < m → x j = 0) :
    wht m x i = 0 := by
  unfold wht
  apply Finset.sum_eq_zero
  intro j hj
  rw [h j (Finset.mem_range.mp hj), mul_zero]

theorem abs_sign (k : Nat) : |((-1 : Int)) ^ k| = 1 := by
  rw [abs_pow, abs_neg, abs_one, one_pow]

theorem abs_wht_le (m : Nat) (x : Nat → Int) (b : Int) (i : Nat)
    (h : ∀ j, j < m → |x j| ≤ b) : |wht m x i| ≤ m * b := by
  unfold wht
  refine le_trans (Finset.abs_sum_le_sum_abs _ _) ?_
  have : ∑ j in Finset.range m, |(-1 : Int) ^ popcount (i &&& j) * x j| ≤
      ∑ _j in Finset.range m, b := by
    apply Finset.sum_le_sum
    intro j hj
    rw [abs_mul, abs_sign, one_mul]
    exact h j (Finset.mem_range.mp hj)
  refine le_trans this ?_
  rw [Finset.sum_const, Finset.card_range, nsmul_eq_mul]

/-- With inputs of magnitude at most `b`, the values after `s ≤ n` exact stages have
magnitude at most `2 ^ n * b`. -/
theorem abs_blockWht_le {s n i : Nat} (x : Nat → Int) (b : Int) (hs : s ≤ n)
    (hi : i < 2 ^ n) (h : ∀ j, j < 2 ^ n → |x j| ≤ b) :
    |blockWht s x i| ≤ (2 ^ n : Nat) * b := by
  have hb : 0 ≤ b := le_trans (abs_nonneg _) (h 0 (Nat.two_pow_pos n))
  unfold blockWht
  refine le_trans (abs_wht_le (2 ^ s) _ b _ (fun j hj => h _ (block_index_lt hs hi hj))) ?_
  apply mul_le_mul_of_nonneg_right _ hb
  exact_mod_cast Nat.pow_le_pow_right (by norm_num) hs

theorem blockWht_shift {s n i : Nat} (y : Nat → Int) (hs : s ≤ n) :
    blockWht s y (2 ^ n + i) = blockWht s (fun j => y (2 ^ n + j)) i := by
  obtain ⟨d, rfl⟩ : ∃ d, n = s + d := ⟨n - s, by omega⟩
  have hp : 0 < 2 ^ s := Nat.two_pow_pos s
  unfold blockWht
  rw [pow_add, Nat.mul_add_mod, Nat.mul_add_div hp]
  apply wht_congr
  intro j _
  show y ((2 ^ d + i / 2 ^ s) * 2 ^ s + j) = y (2 ^ s * 2 ^ d + (i / 2 ^ s * 2 ^ s + j))
  congr 1
  ring

/-- With inputs of magnitude at most `b`, the values after `s ≤ n` exact stages of a second
transform have magnitude at most `2 ^ n * b`. -/
theorem abs_blockWht_wht_le : ∀ (n : Nat) (x : Nat → Int) (b : Int),
    (∀ j, j < 2 ^ n → |x j| ≤ b) → ∀ s, s ≤ n → ∀ i, i < 2 ^ n →
      |blockWht s (wht (2 ^ n) x) i| ≤ (2 ^ n : Nat) * b := by
  intro n
  induction n with
  | zero =>
    intro x b h s hs i hi
    have hs0 : s = 0 := by omega
    have hi0 : i = 0 := by simpa using hi
    subst hs0 hi0
    rw [blockWht_zero, pow_zero, wht_one]
    simpa using h 0 (by norm_num)
  | succ n ih =>
    intro x b h s hs i hi
    have hb : 0 ≤ b := le_trans (abs_nonneg _) (h 0 (Nat.two_pow_pos _))
    have hp : 2 ^ (n + 1) = 2 ^ n + 2 ^ n := by rw [pow_succ]; omega
    have hcast : ((2 ^ (n + 1) : Nat) : Int) * b = (2 ^ n : Nat) * (2 * b) := by
      rw [pow_succ]; push_cast; ring
    by_cases hsn : s = n + 1
    · subst hsn
      rw [blockWht_full _ _ i hi, wht_wht _ _ i hi, abs_mul]
      have h1 : |((2 : Int)) ^ (n + 1)| = ((2 ^ (n + 1) : Nat) : Int) := by
        rw [abs_of_nonneg (by positivity)]; push_cast; rfl
      rw [h1]
      exact mul_le_mul_of_nonneg_left (h i hi) (by positivity)
    · have hs' : s ≤ n := by omega
      have hlo : ∀ j, j < 2 ^ n → |x j + x (2 ^ n + j)| ≤ 2 * b := by
        intro j hj
        have h1 := h j (by omega)
        have h2 := h (2 ^ n + j) (by omega)
        have := abs_add (x j) (x (2 ^ n + j))
        omega
      have hhi : ∀ j, j < 2 ^ n → |x j - x (2 ^ n + j)| ≤ 2 * b := by
        intro j hj
        have h1 := h j (by omega)
        have h2 := h (2 ^ n + j) (by omega)
        have := abs_sub (x j) (x (2 ^ n + j))
        omega
      rw [hcast]
      by_cases hi' : i < 2 ^ n
      · have e : blockWht s (wht (2 ^ (n + 1)) x) i =
            blockWht s (wht (2 ^ n) (fun j => x j + x (2 ^ n + j))) i := by
          apply blockWht_congr _ _ hs' hi'
          intro j hj
          rw [wht_succ_lo n x j hj, ← wht_add]
        rw [e]
        exact ih _ _ hlo s hs' i hi'
      · obtain ⟨k, rfl⟩ : ∃ k, i = 2 ^ n + k := ⟨i - 2 ^ n, by omega⟩
        have hk : k < 2 ^ n := by omega
        have e : blockWht s (wht (2 ^ (n + 1)) x) (2 ^ n + k) =
            blockWht s (wht (2 ^ n) (fun j => x j - x (2 ^ n + j))) k := by
          rw [blockWht_shift _ hs']
          apply blockWht_congr _ _ hs' hk
          intro j hj
          rw [wht_succ_hi n x j hj, ← wht_sub]
        rw [e]
        exact ih _ _ hhi s hs' k hk

/-- The exact stages of the unit impulse hold only the values 0 and 1. -/
theorem abs_blockWht_impulse {s n i : Nat} (x : Nat → Int) (hs : s ≤ n) (hi : i < 2 ^ n)
    (h0 : x 0 = 1) (h1 : ∀ j, 0 < j → j < 2 ^ n → x j = 0) : |blockWht s x i| ≤ 1 := by
  unfold blockWht
  by_cases hq : i / 2 ^ s = 0
  · rw [hq, Nat.zero_mul]
    rw [wht_impulse (2 ^ s) _ _ (Nat.two_pow_pos s) (by simpa using h0)
      (fun j hj0 hj => by
        simp only [Nat.zero_add]
        exact h1 j hj0 (lt_of_lt_of_le hj (Nat.pow_le_pow_right (by norm_num) hs)))]
    simp
  · rw [wht_zero_fun]
    · simp
    · intro j hj
      have hpos : 0 < i / 2 ^ s * 2 ^ s :=
        Nat.mul_pos (Nat.pos_of_ne_zero hq) (Nat.two_pow_pos s)
      exact h1 _ (by omega) (block_index_lt hs hi hj)

/-- The exact stages of a unit vector hold only the values -1, 0 and 1. -/
theorem abs_blockWht_unit {s n i k : Nat} (x : Nat → Int) (hs : s ≤ n) (hi : i < 2 ^ n)
    (hx : ∀ j, j < 2 ^ n → x j = if j = k then 1 else 0) :
    |blockWht s x i| ≤ 1 := by
  unfold blockWht
  by_cases hk : i / 2 ^ s * 2 ^ s ≤ k ∧ k < i / 2 ^ s * 2 ^ s + 2 ^ s
  · rw [wht_unit (2 ^ s) (k - i / 2 ^ s * 2 ^ s) _ _ (by omega)
      (fun j hj => by
        rw [hx _ (block_index_lt hs hi hj)]
        by_cases hjk : j = k - i / 2 ^ s * 2 ^ s
        · rw [if_pos hjk, if_pos (by omega)]
        · rw [if_neg hjk, if_neg (by omega)])]
    rw [abs_sign]
  · rw [wht_zero_fun]
    · simp
    · intro j hj
      rw [hx _ (block_index_lt hs hi hj), if_neg (by omega)]

/-- When no sum or difference of the exact computation leaves the range in which the
arithmetic of the element type is exact, the vector after `s` stages stands for the exact
values. -/
theorem val_afterStages {α : Type} (A : CType α) (dom : α → Prop) (val : α → Int) (B : Int)
    (hex : ExactUpTo A dom val B) (n : Nat) (x : Nat → α)
    (hdom : ∀ j, j < 2 ^ n → dom (x j))
    (hB : ∀ s, 1 ≤ s → s ≤ n → ∀ i, i < 2 ^ n → |blockWht s (fun j => val (x j)) i| ≤ B) :
    ∀ s, s ≤ n → ∀ i, i < 2 ^ n →
      dom (afterStages A s x i) ∧
        val (afterStages A s x i) = blockWht s (fun j => val (x j)) i := by
  intro s
  induction s with
  | zero => intro _ i hi; rw [blockWht_zero]; exact ⟨hdom i hi, rfl⟩
  | succ s ih =>
    intro hs i hi
    have hbound := hB (s + 1) (by omega) hs i hi
    rw [blockWht_succ] at hbound ⊢
    obtain ⟨d1, e1⟩ := ih (by omega) i hi
    by_cases hc : 2 ^ s &&& i = 0
    · have hk := add_two_pow_lt (show s < n by omega) hi hc
      obtain ⟨d2, e2⟩ := ih (by omega) (i + 2 ^ s) hk
      have hl : afterStages A (s + 1) x i =
          A.add (afterStages A s x i) (afterStages A s x (i + 2 ^ s)) := by
        show stageOf A (2 ^ s) (afterStages A s x) i = _
        unfold stageOf
        rw [if_pos hc, or_two_pow_of_clear hc]
      have hr : stageFn (2 ^ s) (blockWht s (fun j => val (x j))) i =
          val (afterStages A s x i) + val (afterStages A s x (i + 2 ^ s)) := by
        unfold stageFn
        rw [if_pos hc, or_two_pow_of_clear hc, e1, e2]
      rw [hr] at hbound
      rw [hl, hr]
      exact hex.add _ _ d1 d2 hbound
    · obtain ⟨d2, e2⟩ := ih (by omega) (i - 2 ^ s) (lt_of_le_of_lt (Nat.sub_le _ _) hi)
      have hl : afterStages A (s + 1) x i =
          A.sub (afterStages A s x (i - 2 ^ s)) (afterStages A s x i) := by
        show stageOf A (2 ^ s) (afterStages A s x) i = _
        unfold stageOf
        rw [if_neg hc]
      have hr : stageFn (2 ^ s) (blockWht s (fun j => val (x j))) i =
          val (afterStages A s x (i - 2 ^ s)) - val (afterStages A s x i) := by
        unfold stageFn
        rw [if_neg hc, e1, e2]
      rw [hr] at hbound
      rw [hl, hr]
      exact hex.sub _ _ d2 d1 hbound

theorem bmod_two_pow_32 (v : Int) (h : |v| ≤ 2 ^ 31 - 1) : Int.bmod v (2 ^ 32) = v := by
  have h' := abs_le.mp h
  unfold Int.bmod
  simp only [Nat.cast_pow, Nat.cast_ofNat]
  split_ifs <;> omega

/-- The arithmetic of a wrapping 32 bit `int` is exact up to `2 ^ 31 - 1`, every element
standing for its value. -/
theorem int32_exact : ExactUpTo int32 (fun _ => True) id (2 ^ 31 - 1) := by
  constructor
  · intro a b _ _ h
    exact ⟨trivial, bmod_two_pow_32 (a + b) h⟩
  · intro a b _ _ h
    exact ⟨trivial, bmod_two_pow_32 (a - b) h⟩

/-- An arithmetic that is exact up to `B` is exact up to every smaller bound. -/
theorem ExactUpTo.mono {α : Type} {A : CType α} {dom : α → Prop} {val : α → Int} {B C : Int}
    (h : ExactUpTo A dom val B) (hCB : C ≤ B) : ExactUpTo A dom val C :=
  ⟨fun a b da db hab => h.add a b da db (le_trans hab hCB),
    fun a b da db hab => h.sub a b da db (le_trans hab hCB)⟩
/-! ## Which accesses the loops of `fht1` make, and when the run is defined -/

/-- For a power-of-two length `2 ^ n ≥ 2` the loops of `fht1` read the input and the output
and store to the output, at indices below the length, and make no other access. -/
theorem passes_ran_accesses {α : Type} (A : CType α) (vin vout n : Nat) (st : State Nat α)
    (hn1 : 1 ≤ n) (hn : n ≤ 30) :
    ∃ l o, Ran st
        (runSeq (fun bit s => stagePass A vout (2 ^ n) bit s) (fun t => 2 ^ (t + 1)) (n - 1) 0
          (basePass A vin vout (2 ^ n) st)) l o ∧
      ∀ acc, acc ∈ l → ∃ c, c < 2 ^ n ∧
        (acc = Access.read vin c ∨ acc = Access.read vout c ∨ acc = Access.write vout c) := by
  have hlt : 2 ^ n < 2 ^ 31 := Nat.pow_lt_pow_right (by norm_num) (by omega)
  have heven : 2 ^ n % 2 = 0 := by
    obtain ⟨k, rfl⟩ : ∃ k, n = k + 1 := ⟨n - 1, by omega⟩
    rw [pow_succ]; omega
  obtain ⟨l1, o1, r1, p1⟩ : ∃ l o, Ran st (basePass A vin vout (2 ^ n) st) l o ∧
      ∀ acc, acc ∈ l → ∃ c, c < 2 ^ n ∧
        (acc = Access.read vin c ∨ acc = Access.read vout c ∨ acc = Access.write vout c) := by
    refine runSeq_ran_forall _ _ _ _ ?_ st
    intro t s ht
    have hu : u32 (t * 2 + 1) = t * 2 + 1 := u32_of_lt (by omega)
    refine ⟨_, _, fht1_base_body_ran A vin vout (t * 2) s, ?_⟩
    intro acc h
    rw [hu] at h
    simp only [List.mem_cons, List.mem_singleton, List.not_mem_nil, or_false] at h
    rcases h with rfl | rfl | rfl | rfl | rfl | rfl
    · exact ⟨t * 2, by omega, Or.inl rfl⟩
    · exact ⟨t * 2 + 1, by omega, Or.inl rfl⟩
    · exact ⟨t * 2, by omega, Or.inr (Or.inr rfl)⟩
    · exact ⟨t * 2, by omega, Or.inl rfl⟩
    · exact ⟨t * 2 + 1, by omega, Or.inl rfl⟩
    · exact ⟨t * 2 + 1, by omega, Or.inr (Or.inr rfl)⟩
  obtain ⟨l2, o2, r2, p2⟩ : ∃ l o, Ran (basePass A vin vout (2 ^ n) st)
      (runSeq (fun bit s => stagePass A vout (2 ^ n) bit s) (fun t => 2 ^ (t + 1)) (n - 1) 0
        (basePass A vin vout (2 ^ n) st)) l o ∧
      ∀ acc, acc ∈ l → ∃ c, c < 2 ^ n ∧
        (acc = Access.read vin c ∨ acc = Access.read vout c ∨ acc = Access.write vout c) := by
    refine runSeq_ran_forall _ _ _ _ ?_ _
    intro t s ht
    refine runSeq_ran_forall _ _ _ _ ?_ s
    intro j s' hj
    simp only [Nat.mul_one]
    refine ⟨_, _, fht1_stage_body_ran A vout (2 ^ (t + 1)) j s', ?_⟩
    intro acc h
    by_cases hc : 2 ^ (t + 1) &&& j = 0
    · have hk := add_two_pow_lt (show t + 1 < n by omega) hj hc
      rw [if_pos hc, or_two_pow_of_clear hc] at h
      simp only [List.mem_cons, List.mem_singleton, List.not_mem_nil, or_false] at h
      rcases h with rfl | rfl | rfl | rfl | rfl | rfl
      · exact ⟨j, hj, Or.inr (Or.inl rfl)⟩
      · exact ⟨j, hj, Or.inr (Or.inl rfl)⟩
      · exact ⟨_, hk, Or.inr (Or.inl rfl)⟩
      · exact ⟨j, hj, Or.inr (Or.inr rfl)⟩
      · exact ⟨_, hk, Or.inr (Or.inl rfl)⟩
      · exact ⟨_, hk, Or.inr (Or.inr rfl)⟩
    · rw [if_neg hc] at h
      exact absurd h (List.not_mem_nil _)
  refine ⟨l1 ++ l2, o1 ++ o2, ran_trans r1 r2, ?_⟩
  intro acc h
  rcases List.mem_append.mp h with h | h
  · exact p1 acc h
  · exact p2 acc h

/-- For a power-of-two length `2 ^ n ≥ 2` and arrays that have the indices below the length,
the loops of `fht1` leave the flag `ub` as it was. -/
theorem passes_defined {α : Type} (A : CType α) (vin vout n : Nat) (st : State Nat α)
    (hn1 : 1 ≤ n) (hn : n ≤ 30)
    (hvin : ∀ i, i < 2 ^ n → st.valid vin i = true)
    (hvout : ∀ i, i < 2 ^ n → st.valid vout i = true) :
    (runSeq (fun bit s => stagePass A vout (2 ^ n) bit s) (fun t => 2 ^ (t + 1)) (n - 1) 0
        (basePass A vin vout (2 ^ n) st)).ub = st.ub ∧
    (runSeq (fun bit s => stagePass A vout (2 ^ n) bit s) (fun t => 2 ^ (t + 1)) (n - 1) 0
        (basePass A vin vout (2 ^ n) st)).valid = st.valid := by
  obtain ⟨l, o, hr, hp⟩ := passes_ran_accesses A vin vout n st hn1 hn
  refine ⟨ran_ub_of_inside hr ?_, hr.2.2.2⟩
  intro acc hacc
  obtain ⟨c, hc, h | h | h⟩ := hp acc hacc
  · rw [h]; exact hvin c hc
  · rw [h]; exact hvout c hc
  · rw [h]; exact hvout c hc

/-- The unrolled form of `fht1` for a power-of-two length `2 ^ n ≥ 2`. -/
theorem fht1_pow_eq_passes {α : Type} (A : CType α) (vin vout : PyArrayObject)
    (n fuel : Nat) (st : State Nat α) (hdim : vin.dimensions.getD 0 0 = 2 ^ n)
    (hn1 : 1 ≤ n) (hn : n ≤ 30) (hf : 2 ^ n < fuel) :
    fht1 A fuel [PyObject.ndarray vin, PyObject.ndarray vout] st =
      some (finish
        (runSeq (fun bit s => stagePass A vout.data (2 ^ n) bit s) (fun t => 2 ^ (t + 1))
          (n - 1) 0 (basePass A vin.data vout.data (2 ^ n) st))) := by
  have hlt : 2 ^ n < 2 ^ 31 := Nat.pow_lt_pow_right (by norm_num) (by omega)
  obtain ⟨rest, hdims⟩ := dims_of_getD hdim (Nat.two_pow_pos n)
  exact fht1_eq_passes A vin vout (2 ^ n) (n - 1) fuel rest st hdims hlt hf (by omega)
    (fun t ht => Nat.pow_lt_pow_right (by norm_num) (by omega))
    (by rw [Nat.sub_add_cancel hn1])

theorem pow_two_bounds30 {m n : Nat} (hm : m = 2 ^ n) (h2 : 2 ≤ m) (hint : m < 2 ^ 31) :
    1 ≤ n ∧ n ≤ 30 := by
  obtain ⟨h1, _⟩ := pow_two_bounds hm h2 hint
  subst hm
  have := (Nat.pow_lt_pow_iff_right (show 1 < 2 by norm_num)).mp hint
  exact ⟨h1, by omega⟩

/-- For a power-of-two length `2 ^ n ≥ 2` held in an `int` and arrays that have the indices
below the length, `fht1` returns the float `1.0`, and the run is defined. -/
theorem fht1_pow_returns {α : Type} (A : CType α) (vin vout : PyArrayObject)
    (n fuel : Nat) (st : State Nat α) (hdim : vin.dimensions.getD 0 0 = 2 ^ n)
    (hn1 : 1 ≤ n) (hn : n ≤ 30) (hf : 2 ^ n < fuel)
    (hvin : ∀ i, i < 2 ^ n → st.valid vin.data i = true)
    (hvout : ∀ i, i < 2 ^ n → st.valid vout.data i = true) (hub : st.ub = false) :
    fht1 A fuel [PyObject.ndarray vin, PyObject.ndarray vout] st =
      some (PyReturn.double 1,
        runSeq (fun bit s => stagePass A vout.data (2 ^ n) bit s) (fun t => 2 ^ (t + 1))
          (n - 1) 0 (basePass A vin.data vout.data (2 ^ n) st)) := by
  rw [fht1_pow_eq_passes A vin vout n fuel st hdim hn1 hn hf]
  have h := (passes_defined A vin.data vout.data n st hn1 hn hvin hvout).1
  unfold finish
  rw [h, hub]
  rfl

/-- Behaviour of `fht1` on distinct buffers of power-of-two length `2 ^ n ≥ 2`, in the
arithmetic of the element type. -/
theorem fht1_distinct_spec {α : Type} (A : CType α) (vin vout : PyArrayObject)
    (n fuel : Nat) (st : State Nat α) (hd : vin.data ≠ vout.data)
    (hdim : vin.dimensions.getD 0 0 = 2 ^ n) (hn1 : 1 ≤ n) (hn : n ≤ 30) (hf : 2 ^ n < fuel)
    (hvin : ∀ i, i < 2 ^ n → st.valid vin.data i = true)
    (hvout : ∀ i, i < 2 ^ n → st.valid vout.data i = true) (hub : st.ub = false) :
    ∃ st', fht1 A fuel [PyObject.ndarray vin, PyObject.ndarray vout] st
        = some (PyReturn.double 1, st') ∧
      (∀ b, b ≠ vout.data → st'.mem b = st.mem b) ∧
      (∀ i, i < 2 ^ n → st'.mem vout.data i = afterStages A n (st.mem vin.data) i) ∧
      st'.ub = false ∧ st'.valid = st.valid := by
  obtain ⟨m1, m2⟩ := passes_mem A hd n st hn1 hn
  obtain ⟨u1, u2⟩ := passes_defined A vin.data vout.data n st hn1 hn hvin hvout
  exact ⟨_, fht1_pow_returns A vin vout n fuel st hdim hn1 hn hf hvin hvout hub, m1, m2,
    u1.trans hub, u2⟩

/-- Behaviour of `fht1` on distinct buffers of power-of-two length `2 ^ n ≥ 2` when the
arithmetic of the element type is exact on all the sums and differences that the exact
computation makes: the output stands for the Walsh-Hadamard transform of the integers that
the input stands for. -/
theorem fht1_exact_spec {α : Type} (A : CType α) (dom : α → Prop) (val : α → Int) (B : Int)
    (vin vout : PyArrayObject) (n fuel : Nat) (st : State Nat α)
    (hex : ExactUpTo A dom val B) (hd : vin.data ≠ vout.data)
    (hdim : vin.dimensions.getD 0 0 = 2 ^ n) (hn1 : 1 ≤ n) (hn : n ≤ 30) (hf : 2 ^ n < fuel)
    (hvin : ∀ i, i < 2 ^ n → st.valid vin.data i = true)
    (hvout : ∀ i, i < 2 ^ n → st.valid vout.data i = true) (hub : st.ub = false)
    (hdom : ∀ j, j < 2 ^ n → dom (st.mem vin.data j))
    (hB : ∀ s, 1 ≤ s → s ≤ n → ∀ i, i < 2 ^ n →
      |blockWht s (fun j => val (st.mem vin.data j)) i| ≤ B) :
    ∃ st', fht1 A fuel [PyObject.ndarray vin, PyObject.ndarray vout] st
        = some (PyReturn.double 1, st') ∧
      (∀ b, b ≠ vout.data → st'.mem b = st.mem b) ∧
      (∀ i, i < 2 ^ n → dom (st'.mem vout.data i) ∧
        val (st'.mem vout.data i) = wht (2 ^ n) (fun j => val (st.mem vin.data j)) i) ∧
      st'.ub = false ∧ st'.valid = st.valid := by
  obtain ⟨st', e, a1, a2, a3, a4⟩ :=
    fht1_distinct_spec A vin vout n fuel st hd hdim hn1 hn hf hvin hvout hub
  refine ⟨st', e, a1, fun i hi => ?_, a3, a4⟩
  obtain ⟨d, v⟩ := val_afterStages A dom val B hex n _ hdom hB n (le_refl n) i hi
  rw [a2 i hi]
  exact ⟨d, by rw [v, blockWht_full _ _ i hi]⟩

/-- Inputs of magnitude at most `b` with `2 ^ n * b ≤ B` keep every exact intermediate value
within `B`. -/
theorem bound_of_input_bound {n : Nat} (x : Nat → Int) (b B : Int)
    (hb : ∀ j, j < 2 ^ n → |x j| ≤ b) (hB : (2 ^ n : Nat) * b ≤ B) :
    ∀ s, 1 ≤ s → s ≤ n → ∀ i, i < 2 ^ n → |blockWht s x i| ≤ B :=
  fun _ _ hs _ hi => le_trans (abs_blockWht_le x b hs hi hb) hB

/-! ## The access log of the loops of `fht1` -/

/-- A sequence of steps that only append to the log only appends to the log. -/
theorem runSeq_log_append {ι α : Type} (f : Nat → State ι α → State ι α) (seq : Nat → Nat)
    (happ : ∀ j s, ∃ l, (f j s).log = s.log ++ l) :
    ∀ (k t : Nat) (s : State ι α), ∃ l, (runSeq f seq k t s).log = s.log ++ l := by
  intro k
  induction k with
  | zero => intro t s; exact ⟨[], by simp [runSeq]⟩
  | succ k ih =>
    intro t s
    obtain ⟨l1, h1⟩ := happ (seq t) s
    obtain ⟨l2, h2⟩ := ih (t + 1) (f (seq t) s)
    exact ⟨l1 ++ l2, by simp only [runSeq]; rw [h2, h1, List.append_assoc]⟩

/-- An access made by the step number `t` is among the accesses added to the log. -/
theorem runSeq_log_mem {ι α : Type} (f : Nat → State ι α → State ι α) (seq : Nat → Nat)
    (happ : ∀ j s, ∃ l, (f j s).log = s.log ++ l) (a : Access ι) (t : Nat)
    (hat : ∀ s, ∃ l, (f (seq t) s).log = s.log ++ l ∧ a ∈ l) :
    ∀ (k t0 : Nat) (s : State ι α), t0 ≤ t → t < t0 + k →
      ∃ l, (runSeq f seq k t0 s).log = s.log ++ l ∧ a ∈ l := by
  intro k
  induction k with
  | zero => intro t0 s h1 h2; omega
  | succ k ih =>
    intro t0 s h1 h2
    simp only [runSeq]
    by_cases h : t = t0
    · subst h
      obtain ⟨l1, hl1, ha⟩ := hat s
      obtain ⟨l2, hl2⟩ := runSeq_log_append f seq happ k (t + 1) (f (seq t) s)
      exact ⟨l1 ++ l2, by rw [hl2, hl1, List.append_assoc], List.mem_append_left _ ha⟩
    · obtain ⟨l1, hl1⟩ := happ (seq t0) s
      obtain ⟨l2, hl2, ha⟩ := ih (t0 + 1) (f (seq t0) s) (by omega) (by omega)
      exact ⟨l1 ++ l2, by rw [hl2, hl1, List.append_assoc], List.mem_append_right _ ha⟩

theorem stagePass_log_append {α : Type} (A : CType α) (vout m bit : Nat) (s : State Nat α) :
    ∃ l, (stagePass A vout m bit s).log = s.log ++ l :=
  runSeq_log_append _ _ (fun j s => ⟨_, fht1_stage_body_log A vout bit j s⟩) m 0 s

theorem basePass_log_append {α : Type} (A : CType α) (vin vout m : Nat) (s : State Nat α) :
    ∃ l, (basePass A vin vout m s).log = s.log ++ l :=
  runSeq_log_append _ _ (fun j s => ⟨_, fht1_base_body_log A vin vout j s⟩) _ 0 s

theorem stages_log_append {α : Type} (A : CType α) (vout m K : Nat) (s : State Nat α) :
    ∃ l, (runSeq (fun bit s => stagePass A vout m bit s) (fun t => 2 ^ (t + 1)) K 0 s).log
      = s.log ++ l :=
  runSeq_log_append _ _ (fun bit s => stagePass_log_append A vout m bit s) K 0 s

/-- The first loop of `fht1` stores to every index below an even length. -/
theorem basePass_writes {α : Type} (A : CType α) (vin vout m i : Nat) (s : State Nat α)
    (hm : m % 2 = 0)
    (hint : m < 2 ^ 31) (hi : i < m) :
    ∃ l, (basePass A vin vout m s).log = s.log ++ l ∧ Access.write vout i ∈ l := by
  refine runSeq_log_mem _ _ (fun j s => ⟨_, fht1_base_body_log A vin vout j s⟩) _ (i / 2) ?_
    ((m + 1) / 2) 0 s (by omega) (by omega)
  intro s'
  refine ⟨_, fht1_base_body_log A vin vout _ s', ?_⟩
  have hu : u32 (i / 2 * 2 + 1) = i / 2 * 2 + 1 := u32_of_lt (by omega)
  rw [hu]
  rcases Nat.mod_two_eq_zero_or_one i with h | h
  · have : i / 2 * 2 = i := by omega
    rw [this]; simp
  · have : i / 2 * 2 + 1 = i := by omega
    rw [this]; simp


/-! ## Counting the stores -/

theorem countWrites_append {ι : Type} (l1 l2 : List (Access ι)) :
    countWrites (l1 ++ l2) = countWrites l1 + countWrites l2 := by
  induction l1 with
  | nil => simp [countWrites]
  | cons a l ih =>
    cases a with
    | read b i =>
      show countWrites (l ++ l2) = countWrites l + countWrites l2
      exact ih
    | write b i =>
      show countWrites (l ++ l2) + 1 = countWrites l + 1 + countWrites l2
      omega

theorem clearBelow_succ (P J : Nat) (hP : 0 < P) :
    clearBelow P (J + 1) = clearBelow P J + (if J % (2 * P) < P then 1 else 0) := by
  unfold clearBelow
  have hJ := Nat.div_add_mod J (2 * P)
  have hr := Nat.mod_lt J (show 0 < 2 * P by omega)
  generalize J / (2 * P) = q at hJ
  generalize J % (2 * P) = r at hJ hr
  by_cases h : r + 1 < 2 * P
  · have e : J + 1 = 2 * P * q + (r + 1) := by omega
    obtain ⟨d1, m1⟩ := divmod_of_eq h e
    rw [d1, m1]
    by_cases h' : r < P
    · rw [if_pos h', Nat.min_eq_left (by omega), Nat.min_eq_left (by omega)]; omega
    · rw [if_neg h', Nat.min_eq_right (by omega), Nat.min_eq_right (by omega)]; omega
  · have e : J + 1 = 2 * P * (q + 1) + 0 := by
      have : 2 * P * (q + 1) = 2 * P * q + 2 * P := by ring
      omega
    obtain ⟨d1, m1⟩ := divmod_of_eq (show 0 < 2 * P by omega) e
    have hnr : ¬ r < P := by omega
    have h1 : min r P = P := Nat.min_eq_right (by omega)
    rw [d1, m1, if_neg hnr, h1, Nat.zero_min]
    have : (q + 1) * P = q * P + P := by ring
    omega

theorem clearBelow_two_pow (s n : Nat) (hs : s < n) :
    2 * clearBelow (2 ^ s) (2 ^ n) = 2 ^ n := by
  obtain ⟨d, rfl⟩ : ∃ d, n = s + 1 + d := ⟨n - (s + 1), by omega⟩
  unfold clearBelow
  have e : 2 ^ (s + 1 + d) = 2 * 2 ^ s * 2 ^ d + 0 := by
    rw [pow_add, pow_succ]; ring
  obtain ⟨d1, m1⟩ := divmod_of_eq (show 0 < 2 * 2 ^ s by have := Nat.two_pow_pos s; omega) e
  rw [d1, m1, Nat.zero_min, pow_add, pow_succ]
  ring

theorem runSeq_succ_last {σ : Type} (f : Nat → σ → σ) (seq : Nat → Nat) :
    ∀ (k t : Nat) (s : σ),
      runSeq f seq (k + 1) t s = f (seq (t + k)) (runSeq f seq k t s) := by
  intro k
  induction k with
  | zero => intro t s; rfl
  | succ k ih =>
    intro t s
    have := ih (t + 1) (f (seq t) s)
    simp only [runSeq] at this ⊢
    rw [this, show t + 1 + k = t + (k + 1) by omega]

theorem basePass_countWrites {α : Type} (A : CType α) (vin vout m : Nat) (st : State Nat α) :
    countWrites (basePass A vin vout m st).log = countWrites st.log + 2 * ((m + 1) / 2) := by
  have inv := runSeq_inv (fun j s => fht1_base_body A vin vout j s) (fun t => t * 2)
    ((m + 1) / 2) (fun t s => countWrites s.log = countWrites st.log + 2 * t) ?_
    ((m + 1) / 2) 0 st (by omega) (by simp)
  · simpa using inv
  · intro t s _ h
    simp only [fht1_base_body_log, countWrites_append, countWrites, h]
    omega

/-- One pass at the stride `2 ^ s` makes two stores for each `j` below `m` with the stride
bit clear. -/
theorem stagePass_countWrites {α : Type} (A : CType α) (vout m s : Nat) (st : State Nat α) :
    countWrites (stagePass A vout m (2 ^ s) st).log =
      countWrites st.log + 2 * clearBelow (2 ^ s) m := by
  have inv := runSeq_inv (fun j st => fht1_stage_body A vout (2 ^ s) j st) (fun t => t * 1) m
    (fun t s' => countWrites s'.log = countWrites st.log + 2 * clearBelow (2 ^ s) t) ?_
    m 0 st (by omega) (by simp [clearBelow])
  · unfold stagePass
    simpa using inv
  · intro t s' _ h
    have hc := two_pow_and_eq_zero_iff s t
    rw [pow_succ, Nat.mul_comm] at hc
    simp only [Nat.mul_one, fht1_stage_body_log, countWrites_append, h,
      clearBelow_succ _ t (Nat.two_pow_pos s)]
    by_cases h0 : 2 ^ s &&& t = 0
    · rw [if_pos h0, if_pos (hc.mp h0)]
      simp only [countWrites]
      omega
    · rw [if_neg h0, if_neg (fun h' => h0 (hc.mpr h'))]
      simp only [countWrites]
      omega

/-! ## Every index is stored to once in each stage -/

theorem count_write_butterfly (vin vout a b i : Nat) (r1 r2 r3 r4 : Nat) :
    List.count (Access.write vout i)
      [Access.read vin r1, Access.read vin r2, Access.read vin r3, Access.write vout a,
       Access.read vin r4, Access.write vout b]
      = (if a = i then 1 else 0) + (if b = i then 1 else 0) := by
  simp only [List.count_cons, List.count_nil, beq_iff_eq, Access.write.injEq, true_and,
    reduceCtorEq, if_false, Nat.zero_add, Nat.add_zero]
  exact Nat.add_comm _ _

theorem count_write_base_butterfly (vin vout a b i : Nat) (r1 r2 r3 r4 : Nat) :
    List.count (Access.write vout i)
      [Access.read vin r1, Access.read vin r2, Access.write vout a, Access.read vin r3,
       Access.read vin r4, Access.write vout b]
      = (if a = i then 1 else 0) + (if b = i then 1 else 0) := by
  simp only [List.count_cons, List.count_nil, beq_iff_eq, Access.write.injEq, true_and,
    reduceCtorEq, if_false, Nat.zero_add, Nat.add_zero]
  exact Nat.add_comm _ _

/-- The first loop stores once to each index below `2 * ((m + 1) / 2)`. -/
theorem basePass_count_write {α : Type} (A : CType α) (vin vout m i : Nat)
    (st : State Nat α) (hint : m < 2 ^ 31) :
    (basePass A vin vout m st).log.count (Access.write vout i) =
      st.log.count (Access.write vout i) + (if i < (m + 1) / 2 * 2 then 1 else 0) := by
  have inv := runSeq_inv (fun j s => fht1_base_body A vin vout j s) (fun t => t * 2)
    ((m + 1) / 2) (fun t s => s.log.count (Access.write vout i) =
      st.log.count (Access.write vout i) + (if i < t * 2 then 1 else 0)) ?_
    ((m + 1) / 2) 0 st (by omega) (by simp)
  · simpa using inv
  · intro t s ht h
    have hu : u32 (t * 2 + 1) = t * 2 + 1 := u32_of_lt (by omega)
    simp only [fht1_base_body_log, List.count_append, hu, count_write_base_butterfly, h]
    split_ifs <;> omega

/-- One pass at the stride `2 ^ s` stores once to each index whose butterfly has its low
index below `m`. -/
theorem stagePass_count_write {α : Type} (A : CType α) (vout m s i : Nat) (st : State Nat α) :
    (stagePass A vout m (2 ^ s) st).log.count (Access.write vout i) =
      st.log.count (Access.write vout i) + (if lowPartner (2 ^ s) i < m then 1 else 0) := by
  have inv := runSeq_inv (fun j st => fht1_stage_body A vout (2 ^ s) j st) (fun t => t * 1) m
    (fun t s' => s'.log.count (Access.write vout i) =
      st.log.count (Access.write vout i) + (if lowPartner (2 ^ s) i < t then 1 else 0)) ?_
    m 0 st (by omega) (by simp)
  · unfold stagePass
    simpa using inv
  · intro t s' _ h
    simp only [Nat.mul_one, fht1_stage_body_log, List.count_append, h]
    by_cases hc : 2 ^ s &&& t = 0
    · rw [if_pos hc, count_write_butterfly, or_two_pow_of_clear hc]
      have hp : 0 < 2 ^ s := Nat.two_pow_pos s
      have hiff := @lowPartner_eq_iff s t i hc
      by_cases h1 : i = t
      · have hl : lowPartner (2 ^ s) i = t := hiff.mpr (Or.inl h1)
        rw [hl]
        split_ifs <;> omega
      · by_cases h2 : i = t + 2 ^ s
        · have hl : lowPartner (2 ^ s) i = t := hiff.mpr (Or.inr h2)
          rw [hl]
          split_ifs <;> omega
        · have hl : lowPartner (2 ^ s) i ≠ t := fun h => (hiff.mp h).elim h1 h2
          split_ifs <;> omega
    · have hl : lowPartner (2 ^ s) i ≠ t := fun h => hc (h ▸ lowPartner_clear s i)
      rw [if_neg hc, List.count_nil]
      split_ifs <;> omega


/-! ## Which indices `fht1` touches -/

/-- If every step adds only accesses with the property `P`, so does the whole sequence. -/
theorem runSeq_log_forall {ι α : Type} (f : Nat → State ι α → State ι α) (seq : Nat → Nat)
    (K : Nat) (P : Access ι → Prop)
    (hstep : ∀ t s, t < K → ∀ acc, acc ∈ (f (seq t) s).log → acc ∈ s.log ∨ P acc)
    (s : State ι α) :
    ∀ acc, acc ∈ (runSeq f seq K 0 s).log → acc ∈ s.log ∨ P acc := by
  have inv := runSeq_inv f seq K (fun _ s' => ∀ acc, acc ∈ s'.log → acc ∈ s.log ∨ P acc) ?_
    K 0 s (by omega) (fun acc h => Or.inl h)
  · simpa using inv
  · intro t s' ht h acc hacc
    rcases hstep t s' ht acc hacc with h1 | h1
    · exact h acc h1
    · exact Or.inr h1

/-- For a power-of-two length `2 ^ n ≥ 2` every access of the loops of `fht1` has its index
below the length. -/
theorem passes_in_bounds {α : Type} (A : CType α) (vin vout n : Nat) (st : State Nat α)
    (hn1 : 1 ≤ n) (hn : n ≤ 30) :
    ∀ acc, acc ∈ (runSeq (fun bit s => stagePass A vout (2 ^ n) bit s) (fun t => 2 ^ (t + 1))
        (n - 1) 0 (basePass A vin vout (2 ^ n) st)).log →
      acc ∈ st.log ∨ acc.index < 2 ^ n := by
  have hlt : 2 ^ n < 2 ^ 31 := Nat.pow_lt_pow_right (by norm_num) (by omega)
  have heven : 2 ^ n % 2 = 0 := by
    obtain ⟨k, rfl⟩ : ∃ k, n = k + 1 := ⟨n - 1, by omega⟩
    rw [pow_succ]; omega
  have hbase : ∀ acc, acc ∈ (basePass A vin vout (2 ^ n) st).log →
      acc ∈ st.log ∨ acc.index < 2 ^ n := by
    refine runSeq_log_forall _ _ _ (fun acc => acc.index < 2 ^ n) ?_ st
    intro t s ht acc hacc
    have hu : u32 (t * 2 + 1) = t * 2 + 1 := u32_of_lt (by omega)
    rw [fht1_base_body_log, hu, List.mem_append] at hacc
    rcases hacc with h | h
    · exact Or.inl h
    · right
      simp only [List.mem_cons, List.mem_singleton, List.not_mem_nil, or_false] at h
      rcases h with rfl | rfl | rfl | rfl | rfl | rfl <;> simp only [Access.index] <;> omega
  intro acc hacc
  have hstages := runSeq_log_forall (fun bit s => stagePass A vout (2 ^ n) bit s)
    (fun t => 2 ^ (t + 1)) (n - 1) (fun acc => acc.index < 2 ^ n) ?_
    (basePass A vin vout (2 ^ n) st) acc hacc
  · rcases hstages with h | h
    · exact hbase acc h
    · exact Or.inr h
  · intro t s ht
    refine runSeq_log_forall _ _ _ (fun acc => acc.index < 2 ^ n) ?_ s
    intro j s' hj acc hacc
    simp only [Nat.mul_one] at hacc
    rw [fht1_stage_body_log, List.mem_append] at hacc
    rcases hacc with h | h
    · exact Or.inl h
    · right
      by_cases hc : 2 ^ (t + 1) &&& j = 0
      · have hk := add_two_pow_lt (show t + 1 < n by omega) hj hc
        rw [if_pos hc, or_two_pow_of_clear hc] at h
        simp only [List.mem_cons, List.mem_singleton, List.not_mem_nil, or_false] at h
        rcases h with rfl | rfl | rfl | rfl | rfl | rfl <;> simp only [Access.index] <;> omega
      · rw [if_neg hc] at h
        exact absurd h (List.not_mem_nil _)

/-- For an odd length the last butterfly of the first loop reads `input[m]`. -/
theorem basePass_reads_past_end {α : Type} (A : CType α) (vin vout m : Nat)
    (st : State Nat α) (hodd : m % 2 = 1)
    (hint : m < 2 ^ 31) :
    ∃ l, (basePass A vin vout m st).log = st.log ++ l ∧ Access.read vin m ∈ l := by
  refine runSeq_log_mem _ _ (fun j s => ⟨_, fht1_base_body_log A vin vout j s⟩) _ (m / 2) ?_
    ((m + 1) / 2) 0 st (by omega) (by omega)
  intro s'
  refine ⟨_, fht1_base_body_log A vin vout _ s', ?_⟩
  have hu : u32 (m / 2 * 2 + 1) = m := by rw [u32_of_lt (by omega)]; omega
  rw [hu]
  simp

/-- For a length `m` with `2 ^ K < m < 2 ^ (K + 1)` the pass at the stride `2 ^ K` stores to
`output[m]`, at `j = m - 2 ^ K`. -/
theorem stagePass_writes_past_end {α : Type} (A : CType α) (vout m K : Nat) (st : State Nat α)
    (h1 : 2 ^ K < m) (h2 : m < 2 ^ (K + 1)) :
    ∃ l, (stagePass A vout m (2 ^ K) st).log = st.log ++ l ∧ Access.write vout m ∈ l := by
  have hp : 2 ^ (K + 1) = 2 ^ K * 2 := pow_succ 2 K
  have hj : m - 2 ^ K < 2 ^ K := by omega
  have hc : 2 ^ K &&& (m - 2 ^ K) = 0 := by
    rw [Nat.and_comm]; exact and_two_pow_of_lt hj
  refine runSeq_log_mem _ _ (fun j s => ⟨_, fht1_stage_body_log A vout (2 ^ K) j s⟩) _
    (m - 2 ^ K) ?_ m 0 st (by omega) (by have := Nat.two_pow_pos K; omega)
  intro s'
  refine ⟨_, fht1_stage_body_log A vout (2 ^ K) _ s', ?_⟩
  simp only [Nat.mul_one]
  rw [if_pos hc, or_two_pow_of_clear hc, Nat.sub_add_cancel (le_of_lt h1)]
  simp


/-! ## Counting the additions, subtractions and multiplications -/

/-- The first loop makes one addition and one subtraction for each `j`, and no other
operation of the element type. -/
theorem basePass_ops_count {α : Type} (A : CType α) (vin vout m : Nat) (st : State Nat α)
    (op : ArithOp) :
    List.count op (basePass A vin vout m st).ops =
      List.count op st.ops + (m + 1) / 2 * List.count op [ArithOp.add, ArithOp.sub] := by
  have inv := runSeq_inv (fun j s => fht1_base_body A vin vout j s) (fun t => t * 2)
    ((m + 1) / 2)
    (fun t s => List.count op s.ops =
      List.count op st.ops + t * List.count op [ArithOp.add, ArithOp.sub]) ?_
    ((m + 1) / 2) 0 st (by omega) (by simp)
  · simpa using inv
  · intro t s _ h
    rw [fht1_base_body_ops, List.count_append, h, Nat.add_mul, Nat.one_mul, Nat.add_assoc]

/-- One pass at the stride `2 ^ s` makes one addition and one subtraction for each `j` below
`m` with the stride bit clear, and no other operation of the element type. -/
theorem stagePass_ops_count {α : Type} (A : CType α) (vout m s : Nat) (st : State Nat α)
    (op : ArithOp) :
    List.count op (stagePass A vout m (2 ^ s) st).ops =
      List.count op st.ops + clearBelow (2 ^ s) m * List.count op [ArithOp.add, ArithOp.sub] := by
  have inv := runSeq_inv (fun j st => fht1_stage_body A vout (2 ^ s) j st) (fun t => t * 1) m
    (fun t s' => List.count op s'.ops =
      List.count op st.ops + clearBelow (2 ^ s) t * List.count op [ArithOp.add, ArithOp.sub]) ?_
    m 0 st (by omega) (by simp [clearBelow])
  · unfold stagePass
    simpa using inv
  · intro t s' _ h
    have hc := two_pow_and_eq_zero_iff s t
    rw [pow_succ, Nat.mul_comm] at hc
    simp only [Nat.mul_one]
    rw [fht1_stage_body_ops, List.count_append, h, clearBelow_succ _ t (Nat.two_pow_pos s)]
    by_cases h0 : 2 ^ s &&& t = 0
    · rw [if_pos h0, if_pos (hc.mp h0), Nat.add_mul, Nat.one_mul, Nat.add_assoc]
    · rw [if_neg h0, if_neg (fun h' => h0 (hc.mpr h'))]
      simp

theorem basePass_ops_length {α : Type} (A : CType α) (vin vout m : Nat) (st : State Nat α) :
    (basePass A vin vout m st).ops.length = st.ops.length + 2 * ((m + 1) / 2) := by
  have inv := runSeq_inv (fun j s => fht1_base_body A vin vout j s) (fun t => t * 2)
    ((m + 1) / 2) (fun t s => s.ops.length = st.ops.length + 2 * t) ?_
    ((m + 1) / 2) 0 st (by omega) (by simp)
  · simpa using inv
  · intro t s _ h
    rw [fht1_base_body_ops, List.length_append, h]
    simp only [List.length_cons, List.length_nil]
    omega

theorem stagePass_ops_length {α : Type} (A : CType α) (vout m s : Nat) (st : State Nat α) :
    (stagePass A vout m (2 ^ s) st).ops.length =
      st.ops.length + 2 * clearBelow (2 ^ s) m := by
  have inv := runSeq_inv (fun j st => fht1_stage_body A vout (2 ^ s) j st) (fun t => t * 1) m
    (fun t s' => s'.ops.length = st.ops.length + 2 * clearBelow (2 ^ s) t) ?_
    m 0 st (by omega) (by simp [clearBelow])
  · unfold stagePass
    simpa using inv
  · intro t s' _ h
    have hc := two_pow_and_eq_zero_iff s t
    rw [pow_succ, Nat.mul_comm] at hc
    simp only [Nat.mul_one]
    rw [fht1_stage_body_ops, List.length_append, h, clearBelow_succ _ t (Nat.two_pow_pos s)]
    by_cases h0 : 2 ^ s &&& t = 0
    · rw [if_pos h0, if_pos (hc.mp h0)]
      simp only [List.length_cons, List.length_nil]
      omega
    · rw [if_neg h0, if_neg (fun h' => h0 (hc.mpr h'))]
      simp

/-! ## Runs that leave the arrays -/

/-- The loops of `fht1` only append to the log and to the list of operations, and set `ub`
exactly when one of the accesses they make is outside the arrays. -/
theorem passes_ran {α : Type} (A : CType α) (vin vout m K : Nat) (st : State Nat α) :
    ∃ l o, Ran st
      (runSeq (fun bit s => stagePass A vout m bit s) (fun t => 2 ^ (t + 1)) K 0
        (basePass A vin vout m st)) l o := by
  obtain ⟨l1, o1, r1⟩ := runSeq_ran (fun j s => fht1_base_body A vin vout j s) (fun t => t * 2)
    (fun j s => ⟨_, _, fht1_base_body_ran A vin vout j s⟩) ((m + 1) / 2) 0 st
  obtain ⟨l2, o2, r2⟩ := runSeq_ran (fun bit s => stagePass A vout m bit s)
    (fun t => 2 ^ (t + 1))
    (fun bit s => runSeq_ran (fun j s => fht1_stage_body A vout bit j s) (fun t => t * 1)
      (fun j s => ⟨_, _, fht1_stage_body_ran A vout bit j s⟩) m 0 s)
    K 0 (basePass A vin vout m st)
  exact ⟨l1 ++ l2, o1 ++ o2, ran_trans r1 r2⟩

/-- An access that a run has added to the log is among the accesses of the run. -/
theorem ran_mem_of_log {ι α : Type} {s t : State ι α} {l l' : List (Access ι)}
    {o : List ArithOp} (h : Ran s t l o) (hl : t.log = s.log ++ l') (acc : Access ι)
    (hacc : acc ∈ l') : acc ∈ l := by
  have : l' = l := List.append_cancel_left (hl.symm.trans h.1)
  exact this ▸ hacc

/-- For an even length the loops of `fht1` store to every index below the length. -/
theorem passes_write_all {α : Type} (A : CType α) (vin vout m K i : Nat) (st : State Nat α)
    (hm : m % 2 = 0) (hint : m < 2 ^ 31) (hi : i < m) :
    ∃ l, (runSeq (fun bit s => stagePass A vout m bit s) (fun t => 2 ^ (t + 1)) K 0
        (basePass A vin vout m st)).log = st.log ++ l ∧ Access.write vout i ∈ l := by
  obtain ⟨l1, hl1, hmem⟩ := basePass_writes A vin vout m i st hm hint hi
  obtain ⟨l2, hl2⟩ := stages_log_append A vout m K (basePass A vin vout m st)
  exact ⟨l1 ++ l2, by rw [hl2, hl1, List.append_assoc], List.mem_append_left _ hmem⟩

/-- For a length `m ≥ 1` that is not a power of two `≥ 2`, the loops of `fht1` read
`input[m]` (odd `m`) or store to `output[m]` (even `m`). -/
theorem passes_leave {α : Type} (A : CType α) (vin vout m K : Nat) (st : State Nat α)
    (hint : m < 2 ^ 31) (hK1 : ∀ t, t < K → 2 ^ (t + 1) < m) (hK2 : m ≤ 2 ^ (K + 1))
    (hm1 : 1 ≤ m) (hnp : ¬ ∃ n, m = 2 ^ n ∧ 2 ≤ m) :
    ∃ l, (runSeq (fun bit s => stagePass A vout m bit s) (fun t => 2 ^ (t + 1)) K 0
        (basePass A vin vout m st)).log = st.log ++ l ∧
      (Access.read vin m ∈ l ∨ Access.write vout m ∈ l) := by
  obtain ⟨lb, hlb⟩ := basePass_log_append A vin vout m st
  obtain ⟨ls, hls⟩ := stages_log_append A vout m K (basePass A vin vout m st)
  rcases Nat.mod_two_eq_zero_or_one m with h | h
  · have hK0 : 1 ≤ K := by
      rcases Nat.eq_zero_or_pos K with h0 | h0
      · subst h0
        have : m = 2 := by simp at hK2; omega
        exact absurd ⟨1, by simpa using this, by omega⟩ hnp
      · exact h0
    have h1 : 2 ^ K < m := by
      have := hK1 (K - 1) (by omega)
      rwa [Nat.sub_add_cancel hK0] at this
    have h2 : m < 2 ^ (K + 1) := lt_of_le_of_ne hK2 (fun h' => hnp ⟨K + 1, h', by omega⟩)
    obtain ⟨l, hl, hmem⟩ := runSeq_log_mem (fun bit s => stagePass A vout m bit s)
      (fun t => 2 ^ (t + 1)) (fun bit s => stagePass_log_append A vout m bit s)
      (Access.write vout m) (K - 1)
      (fun s => by
        simp only [Nat.sub_add_cancel hK0]
        exact stagePass_writes_past_end A vout m K s h1 h2)
      K 0 (basePass A vin vout m st) (by omega) (by omega)
    exact ⟨lb ++ l, by rw [hl, hlb, List.append_assoc],
      Or.inr (List.mem_append_right _ hmem)⟩
  · obtain ⟨l, hl, hmem⟩ := basePass_reads_past_end A vin vout m st h hint
    exact ⟨l ++ ls, by rw [hls, hl, List.append_assoc], Or.inl (List.mem_append_left _ hmem)⟩

/-- For a length `m ≥ 1` that is not a power of two `≥ 2` and arrays that have no element
`m`, the loops of `fht1` leave the arrays. -/
theorem passes_undefined {α : Type} (A : CType α) (vin vout m K : Nat) (st : State Nat α)
    (hint : m < 2 ^ 31) (hK1 : ∀ t, t < K → 2 ^ (t + 1) < m) (hK2 : m ≤ 2 ^ (K + 1))
    (hm1 : 1 ≤ m) (hnp : ¬ ∃ n, m = 2 ^ n ∧ 2 ≤ m)
    (hvin : st.valid vin m = false) (hvout : st.valid vout m = false) :
    (runSeq (fun bit s => stagePass A vout m bit s) (fun t => 2 ^ (t + 1)) K 0
        (basePass A vin vout m st)).ub = true := by
  obtain ⟨l, o, hr⟩ := passes_ran A vin vout m K st
  obtain ⟨l', hl', hmem⟩ := passes_leave A vin vout m K st hint hK1 hK2 hm1 hnp
  rcases hmem with h | h
  · exact ran_ub_of_outside hr _ (ran_mem_of_log hr hl' _ h) hvin
  · exact ran_ub_of_outside hr _ (ran_mem_of_log hr hl' _ h) hvout

/-! ## The stages of `fht1`, one by one -/

theorem stagesOf_one {α : Type} (A : CType α) (vin vout m : Nat) (st : State Nat α) :
    stagesOf A vin vout m st 1 = basePass A vin vout m st := rfl

theorem stagesOf_succ {α : Type} (A : CType α) (vin vout m : Nat) (st : State Nat α)
    (t : Nat) (ht : 1 ≤ t) :
    stagesOf A vin vout m st (t + 1) =
      stagePass A vout m (2 ^ t) (stagesOf A vin vout m st t) := by
  obtain ⟨k, rfl⟩ : ∃ k, t = k + 1 := ⟨t - 1, by omega⟩
  unfold stagesOf
  rw [if_neg (by omega), if_neg (by omega), Nat.add_sub_cancel, Nat.add_sub_cancel,
    runSeq_succ_last, Nat.zero_add]

/-- For a power-of-two length `2 ^ n`, each of the `n` stages of `fht1` makes `2 ^ n` stores
and `2 ^ n / 2` times the operations of one butterfly, an addition and a subtraction. -/
theorem stagesOf_counts {α : Type} (A : CType α) (vin vout n : Nat) (st : State Nat α)
    (t : Nat) (ht : t < n) (op : ArithOp) :
    countWrites (stagesOf A vin vout (2 ^ n) st (t + 1)).log =
      countWrites (stagesOf A vin vout (2 ^ n) st t).log + 2 * (2 ^ n / 2) ∧
    List.count op (stagesOf A vin vout (2 ^ n) st (t + 1)).ops =
      List.count op (stagesOf A vin vout (2 ^ n) st t).ops +
        2 ^ n / 2 * List.count op [ArithOp.add, ArithOp.sub] ∧
    (stagesOf A vin vout (2 ^ n) st (t + 1)).ops.length =
      (stagesOf A vin vout (2 ^ n) st t).ops.length + 2 * (2 ^ n / 2) := by
  have heven : 2 ^ n % 2 = 0 := by
    obtain ⟨k, rfl⟩ : ∃ k, n = k + 1 := ⟨n - 1, by omega⟩
    rw [pow_succ]; omega
  rcases Nat.eq_zero_or_pos t with h0 | h0
  · subst h0
    have hh : (2 ^ n + 1) / 2 = 2 ^ n / 2 := by omega
    rw [stagesOf_one]
    refine ⟨?_, ?_, ?_⟩
    · rw [basePass_countWrites, hh]; rfl
    · rw [basePass_ops_count, hh]; rfl
    · rw [basePass_ops_length, hh]; rfl
  · have hc := clearBelow_two_pow t n ht
    have hc2 : clearBelow (2 ^ t) (2 ^ n) = 2 ^ n / 2 := by omega
    rw [stagesOf_succ A vin vout (2 ^ n) st t h0]
    refine ⟨?_, ?_, ?_⟩
    · rw [stagePass_countWrites, hc2]
    · rw [stagePass_ops_count, hc2]
    · rw [stagePass_ops_length, hc2]

/-- Totals of the stores and of the operations of the first `t` stages. -/
theorem stagesOf_totals {α : Type} (A : CType α) (vin vout n : Nat) (st : State Nat α)
    (op : ArithOp) (t : Nat) (ht : t ≤ n) :
    countWrites (stagesOf A vin vout (2 ^ n) st t).log =
      countWrites st.log + 2 * (2 ^ n / 2) * t ∧
    List.count op (stagesOf A vin vout (2 ^ n) st t).ops =
      List.count op st.ops + 2 ^ n / 2 * List.count op [ArithOp.add, ArithOp.sub] * t ∧
    (stagesOf A vin vout (2 ^ n) st t).ops.length = st.ops.length + 2 * (2 ^ n / 2) * t := by
  induction t with
  | zero => exact ⟨rfl, rfl, rfl⟩
  | succ t ih =>
    obtain ⟨a1, a2, a3⟩ := ih (by omega)
    obtain ⟨b1, b2, b3⟩ := stagesOf_counts A vin vout n st t (by omega) op
    refine ⟨?_, ?_, ?_⟩
    · rw [b1, a1, Nat.mul_succ, Nat.add_assoc]
    · rw [b2, a2, Nat.mul_succ, Nat.add_assoc]
    · rw [b3, a3, Nat.mul_succ, Nat.add_assoc]

/-- What each stage leaves in the output: the sums and the differences, in the arithmetic of
the elements, of the pairs at distance `stride` of what it found (in the input for the first
loop). -/
theorem stagesOf_mem {α : Type} (A : CType α) (vin vout n : Nat) (st : State Nat α)
    (hn : n ≤ 30) :
    (vin ≠ vout → ∀ i, i < 2 ^ n →
      (stagesOf A vin vout (2 ^ n) st 1).mem vout i = stageOf A 1 (st.mem vin) i) ∧
    (∀ t, 1 ≤ t → ∀ i, i < 2 ^ n →
      (stagesOf A vin vout (2 ^ n) st (t + 1)).mem vout i =
        stageOf A (2 ^ t) ((stagesOf A vin vout (2 ^ n) st t).mem vout) i) := by
  have hlt : 2 ^ n < 2 ^ 31 := Nat.pow_lt_pow_right (by norm_num) (by omega)
  refine ⟨?_, ?_⟩
  · intro hd i hi
    rw [stagesOf_one]
    rcases Nat.eq_zero_or_pos n with h0 | h0
    · subst h0
      simp at hi
      subst hi
      have := fht1_base_body_mem A hd 0 st vout 0
      simp only [basePass, runSeq]
      rw [Nat.zero_mul, this]
      simp [stageOf, u32]
    · obtain ⟨k, rfl⟩ : ∃ k, n = k + 1 := ⟨n - 1, by omega⟩
      have h2 : 2 ^ (k + 1) = 2 * 2 ^ k := by rw [pow_succ]; ring
      rw [h2] at hi hlt ⊢
      exact (basePass_mem A hd (2 ^ k) st hlt).2.1 i hi
  · intro t ht i hi
    rw [stagesOf_succ A vin vout (2 ^ n) st t ht]
    exact (stagePass_mem A vout t (2 ^ n) _).2 i hi

/-! ## `fht2` row by row -/

theorem optRel_bind {σ τ σ' τ' : Type} (R : σ → τ → Prop) (Q : σ' → τ' → Prop)
    (x : Option σ) (y : Option τ) (F : σ → Option σ') (G : τ → Option τ')
    (hxy : optRel R x y) (hFG : ∀ s t, R s t → optRel Q (F s) (G t)) :
    optRel Q (x.bind F) (y.bind G) := by
  cases x <;> cases y <;> simp_all [optRel]

theorem forLoop_rel {σ τ : Type} (R : σ → τ → Prop) (cond : Nat → Bool) (next : Nat → Nat)
    (f : Nat → σ → Option σ) (g : Nat → τ → Option τ)
    (hbody : ∀ j s t, R s t → optRel R (f j s) (g j t)) :
    ∀ (fuel j : Nat) (s : σ) (t : τ), R s t →
      optRel R (forLoop cond next f fuel j s) (forLoop cond next g fuel j t) := by
  intro fuel
  induction fuel with
  | zero => intro j s t _; simp [forLoop, optRel]
  | succ fuel ih =>
    intro j s t h
    unfold forLoop
    by_cases hc : cond j = true
    · rw [if_pos hc, if_pos hc]
      exact optRel_bind R R _ _ _ _ (hbody j s t h) (fun s' t' h' => ih (next j) s' t' h')
    · rw [if_neg hc, if_neg hc]
      exact h

theorem forLoop_pres {σ : Type} (P : σ → Prop) (cond : Nat → Bool) (next : Nat → Nat)
    (f : Nat → σ → Option σ) (hbody : ∀ j s s', P s → f j s = some s' → P s') :
    ∀ (fuel j : Nat) (s s' : σ), P s → forLoop cond next f fuel j s = some s' → P s' := by
  intro fuel
  induction fuel with
  | zero => intro j s s' _ h; simp [forLoop] at h
  | succ fuel ih =>
    intro j s s' hP h
    unfold forLoop at h
    by_cases hc : cond j = true
    · rw [if_pos hc] at h
      cases hb : f j s with
      | none => rw [hb] at h; simp at h
      | some s1 =>
        rw [hb, Option.some_bind] at h
        exact ih (next j) s1 s' (hbody j s s1 hP hb) h
    · rw [if_neg hc] at h
      exact Option.some.inj h ▸ hP

theorem fht2_base_body_sim {α : Type} (A : CType α) (arr1 oarr i j : Nat)
    (pre : List (Access (Nat × Nat))) (u0 : Bool)
    (s2 : State (Nat × Nat) α) (s1 : State Nat α) (h : rowSim i pre u0 s2 s1) :
    rowSim i pre u0 (fht2_base_body A arr1 oarr i j s2) (fht1_base_body A arr1 oarr j s1) := by
  obtain ⟨h1, h2, h3, h4⟩ := h
  refine ⟨?_, ?_, ?_, ?_⟩
  · intro a c
    simp only [fht2_base_body, fht1_base_body, load, store, arith, Prod.mk.injEq, true_and,
      h1 _ _]
  · simp [fht2_base_body, fht1_base_body, load, store, arith, h2, Access.inRow]
  · simp [fht2_base_body, fht1_base_body, load, store, arith, h3, h4, Bool.or_assoc]
  · intro a c
    simp [fht2_base_body, fht1_base_body, load, store, arith, h4]

theorem fht2_stage_body_sim {α : Type} (A : CType α) (oarr i bit j : Nat)
    (pre : List (Access (Nat × Nat))) (u0 : Bool)
    (s2 : State (Nat × Nat) α) (s1 : State Nat α) (h : rowSim i pre u0 s2 s1) :
    rowSim i pre u0 (fht2_stage_body A oarr i bit j s2) (fht1_stage_body A oarr bit j s1) := by
  obtain ⟨h1, h2, h3, h4⟩ := h
  unfold fht2_stage_body fht1_stage_body
  by_cases hb : bit &&& j = 0
  · refine ⟨?_, ?_, ?_, ?_⟩
    · intro a c
      simp only [hb, if_true, load, store, arith, Prod.mk.injEq, true_and, h1 _ _]
    · simp [hb, load, store, arith, h2, Access.inRow]
    · simp [hb, load, store, arith, h3, h4, Bool.or_assoc]
    · intro a c
      simp [hb, load, store, arith, h4]
  · simp only [hb, if_false]
    exact ⟨h1, h2, h3, h4⟩

theorem fht2_base_body_frame {α : Type} (A : CType α) (arr1 oarr i j : Nat)
    (s2 : State (Nat × Nat) α) (r : Nat) (hr : r ≠ i) (b c : Nat) :
    (fht2_base_body A arr1 oarr i j s2).mem b (r, c) = s2.mem b (r, c) := by
  simp [fht2_base_body, load, store, arith, hr]

theorem fht2_stage_body_frame {α : Type} (A : CType α) (oarr i bit j : Nat)
    (s2 : State (Nat × Nat) α) (r : Nat) (hr : r ≠ i) (b c : Nat) :
    (fht2_stage_body A oarr i bit j s2).mem b (r, c) = s2.mem b (r, c) := by
  unfold fht2_stage_body
  by_cases hb : bit &&& j = 0
  · simp [hb, load, store, arith, hr]
  · simp [hb]

theorem fht2_base_body_valid {α : Type} (A : CType α) (arr1 oarr i j : Nat)
    (s2 : State (Nat × Nat) α) : (fht2_base_body A arr1 oarr i j s2).valid = s2.valid := by
  simp [fht2_base_body, load, store, arith]

theorem fht2_stage_body_valid {α : Type} (A : CType α) (oarr i bit j : Nat)
    (s2 : State (Nat × Nat) α) : (fht2_stage_body A oarr i bit j s2).valid = s2.valid := by
  unfold fht2_stage_body
  by_cases hb : bit &&& j = 0
  · simp [hb, load, store, arith]
  · simp [hb]

/-- The transform of row `i` by `fht2` goes step by step as the loops of `fht1` on that
row: same values, same accesses in the same order, same definedness. -/
theorem fht2_row_sim {α : Type} (A : CType α) (fuel arr1 oarr dim2 i : Nat)
    (pre : List (Access (Nat × Nat))) (u0 : Bool)
    (s2 : State (Nat × Nat) α) (s1 : State Nat α) (h : rowSim i pre u0 s2 s1) :
    optRel (rowSim i pre u0) (fht2_row A fuel arr1 oarr dim2 i s2)
      ((fht1_base A fuel arr1 oarr dim2 s1).bind (fht1_stages A fuel oarr dim2)) := by
  unfold fht2_row fht1_base fht1_stages fht1_stage
  apply optRel_bind (rowSim i pre u0) (rowSim i pre u0)
  · apply forLoop_rel (rowSim i pre u0)
    · intro j s t hst
      exact fht2_base_body_sim A arr1 oarr i j pre u0 s t hst
    · exact h
  · intro s t hst
    apply forLoop_rel (rowSim i pre u0)
    · intro bit s t hst
      apply forLoop_rel (rowSim i pre u0)
      · intro j s t hst
        exact fht2_stage_body_sim A oarr i bit j pre u0 s t hst
      · exact hst
    · exact hst

/-- A state and its row `i` at the start of the transform of that row. -/
theorem rowSim_rowState {α : Type} (i : Nat) (s : State (Nat × Nat) α) :
    rowSim i s.log s.ub s (rowState i s) :=
  ⟨fun _ _ => rfl, by simp [rowState], by simp [rowState], fun _ _ => rfl⟩

/-- The transform of row `i` by `fht2` changes no element of another row. -/
theorem fht2_row_frame {α : Type} (A : CType α) (fuel arr1 oarr dim2 i : Nat)
    (s2 s2' : State (Nat × Nat) α)
    (h : fht2_row A fuel arr1 oarr dim2 i s2 = some s2') (r : Nat) (hr : r ≠ i) (b c : Nat) :
    s2'.mem b (r, c) = s2.mem b (r, c) := by
  unfold fht2_row at h
  cases hb : forLoop (fun j => decide (j < dim2)) (fun j => u32 (j + 2))
      (fun j s => some (fht2_base_body A arr1 oarr i j s)) fuel 0 s2 with
  | none => rw [hb] at h; simp at h
  | some s3 =>
    rw [hb, Option.some_bind] at h
    have p1 : ∀ b c, s3.mem b (r, c) = s2.mem b (r, c) := by
      refine forLoop_pres (fun s => ∀ b c, s.mem b (r, c) = s2.mem b (r, c)) _ _ _ ?_
        fuel 0 s2 s3 (fun _ _ => rfl) hb
      intro j s s' hP hs b c
      rw [← Option.some.inj hs, fht2_base_body_frame _ _ _ _ _ _ r hr, hP]
    have p2 : ∀ b c, s2'.mem b (r, c) = s2.mem b (r, c) := by
      refine forLoop_pres (fun s => ∀ b c, s.mem b (r, c) = s2.mem b (r, c)) _ _ _ ?_
        fuel 2 s3 s2' p1 h
      intro bit s s' hP hs
      refine forLoop_pres (fun s => ∀ b c, s.mem b (r, c) = s2.mem b (r, c)) _ _ _ ?_
        fuel 0 s s' hP hs
      intro j s s' hP hs b c
      rw [← Option.some.inj hs, fht2_stage_body_frame _ _ _ _ _ _ r hr, hP]
    exact p2 b c

/-- The transform of a row by `fht2` leaves the arrays what they are. -/
theorem fht2_row_valid {α : Type} (A : CType α) (fuel arr1 oarr dim2 i : Nat)
    (s2 s2' : State (Nat × Nat) α)
    (h : fht2_row A fuel arr1 oarr dim2 i s2 = some s2') : s2'.valid = s2.valid := by
  unfold fht2_row at h
  cases hb : forLoop (fun j => decide (j < dim2)) (fun j => u32 (j + 2))
      (fun j s => some (fht2_base_body A arr1 oarr i j s)) fuel 0 s2 with
  | none => rw [hb] at h; simp at h
  | some s3 =>
    rw [hb, Option.some_bind] at h
    have p1 : s3.valid = s2.valid := by
      refine forLoop_pres (fun s => s.valid = s2.valid) _ _ _ ?_ fuel 0 s2 s3 rfl hb
      intro j s s' hP hs
      rw [← Option.some.inj hs, fht2_base_body_valid, hP]
    refine forLoop_pres (fun s => s.valid = s2.valid) _ _ _ ?_ fuel 2 s3 s2' p1 h
    intro bit s s' hP hs
    refine forLoop_pres (fun s => s.valid = s2.valid) _ _ _ ?_ fuel 0 s s' hP hs
    intro j s s' hP hs
    rw [← Option.some.inj hs, fht2_stage_body_valid, hP]

/-- The loops of `fht1` return for every length that fits an `int`. -/
theorem fht1_loops_return {α : Type} (A : CType α) (fuel vin vout m : Nat) (st : State Nat α)
    (hint : m < 2 ^ 31) (hf : m < fuel) :
    ∃ st', (fht1_base A fuel vin vout m st).bind (fht1_stages A fuel vout m) = some st' := by
  obtain ⟨K, hK, hK1, hK2, _⟩ := exists_stride_count m (by omega)
  exact ⟨_, fht1_loops_eq_passes A fuel vin vout m K st hint hf hK hK1 hK2⟩

/-- The transform of one row returns, for every row length that fits an `int`. -/
theorem fht2_row_returns {α : Type} (A : CType α) (fuel arr1 oarr dim2 i : Nat)
    (s : State (Nat × Nat) α) (h2 : dim2 < 2 ^ 31) (hf2 : dim2 < fuel) :
    ∃ s', fht2_row A fuel arr1 oarr dim2 i s = some s' := by
  obtain ⟨t, ht⟩ := fht1_loops_return A fuel arr1 oarr dim2 (rowState i s) h2 hf2
  have hs := fht2_row_sim A fuel arr1 oarr dim2 i s.log s.ub s (rowState i s)
    (rowSim_rowState i s)
  rw [ht] at hs
  cases hr : fht2_row A fuel arr1 oarr dim2 i s with
  | none => rw [hr] at hs; exact absurd hs (by simp [optRel])
  | some s' => exact ⟨s', rfl⟩

/-- For a power-of-two row length `2 ^ n ≥ 2`, the transform of row `i` reads row `i` of the
input and of the output and stores to row `i` of the output, at columns below the row
length, and makes no other access; when the matrices have these elements the run stays
defined. -/
theorem fht2_row_accesses {α : Type} (A : CType α) (fuel arr1 oarr n i : Nat)
    (s : State (Nat × Nat) α) (hn1 : 1 ≤ n) (hn : n ≤ 30) (hf : 2 ^ n < fuel) :
    ∃ s1 l, fht2_row A fuel arr1 oarr (2 ^ n) i s = some s1 ∧ s1.log = s.log ++ l ∧
      (∀ acc, acc ∈ l → ∃ c, c < 2 ^ n ∧
        (acc = Access.read arr1 (i, c) ∨ acc = Access.read oarr (i, c) ∨
          acc = Access.write oarr (i, c))) ∧
      ((∀ c, c < 2 ^ n → s.valid arr1 (i, c) = true) →
        (∀ c, c < 2 ^ n → s.valid oarr (i, c) = true) → s1.ub = s.ub) := by
  have hlt : 2 ^ n < 2 ^ 31 := Nat.pow_lt_pow_right (by norm_num) (by omega)
  have e := fht1_loops_eq_passes A fuel arr1 oarr (2 ^ n) (n - 1) (rowState i s) hlt hf
    (by omega) (fun t ht => Nat.pow_lt_pow_right (by norm_num) (by omega))
    (by rw [Nat.sub_add_cancel hn1])
  have hs := fht2_row_sim A fuel arr1 oarr (2 ^ n) i s.log s.ub s (rowState i s)
    (rowSim_rowState i s)
  rw [e] at hs
  obtain ⟨l, o, hran, hacc⟩ := passes_ran_accesses A arr1 oarr n (rowState i s) hn1 hn
  cases hr : fht2_row A fuel arr1 oarr (2 ^ n) i s with
  | none => rw [hr] at hs; exact absurd hs (by simp [optRel])
  | some s1 =>
    rw [hr] at hs
    obtain ⟨_, hlog, hub, _⟩ := hs
    refine ⟨s1, l.map (Access.inRow i), rfl, ?_, ?_, ?_⟩
    · rw [hlog, hran.1]
      simp [rowState]
    · intro acc hmem
      obtain ⟨a, ha, rfl⟩ := List.mem_map.mp hmem
      obtain ⟨c, hc, h⟩ := hacc a ha
      refine ⟨c, hc, ?_⟩
      rcases h with rfl | rfl | rfl
      · exact Or.inl rfl
      · exact Or.inr (Or.inl rfl)
      · exact Or.inr (Or.inr rfl)
    · intro hv1 hv2
      have hd := (passes_defined A arr1 oarr n (rowState i s) hn1 hn hv1 hv2).1
      rw [hub, hd]
      simp [rowState]

/-- Rows taken in the order of a list without repetition: every row of the list ends as the
loops of `fht1` leave it when run on that row of the initial matrices, the other rows stay
as they were. -/
theorem fht2_rows_in_spec {α : Type} (A : CType α) (fuel arr1 oarr dim2 : Nat)
    (h2 : dim2 < 2 ^ 31) (hf2 : dim2 < fuel) :
    ∀ (rows : List Nat) (s : State (Nat × Nat) α), rows.Nodup →
      ∃ s', fht2_rows_in A fuel arr1 oarr dim2 rows s = some s' ∧
        (∀ i, i ∈ rows → ∀ s1,
          (fht1_base A fuel arr1 oarr dim2 (rowState i s)).bind (fht1_stages A fuel oarr dim2)
            = some s1 → rowRel i s' s1) ∧
        (∀ i, i ∉ rows → ∀ a c, s'.mem a (i, c) = s.mem a (i, c)) ∧
        s'.valid = s.valid := by
  intro rows
  induction rows with
  | nil =>
    intro s _
    exact ⟨s, rfl, fun i hi => absurd hi (List.not_mem_nil i), fun _ _ _ _ => rfl, rfl⟩
  | cons r rows ih =>
    intro s hnd
    obtain ⟨hr, hnd'⟩ := List.nodup_cons.mp hnd
    obtain ⟨s3, hs3⟩ := fht2_row_returns A fuel arr1 oarr dim2 r s h2 hf2
    obtain ⟨s', e, p1, p2, p3⟩ := ih s3 hnd'
    have hv3 := fht2_row_valid A fuel arr1 oarr dim2 r s s3 hs3
    have hframe : ∀ i, i ≠ r → rowState i s3 = rowState i s := by
      intro i hi
      unfold rowState
      rw [hv3]
      congr 1
      funext a c
      exact fht2_row_frame A fuel arr1 oarr dim2 r s s3 hs3 i hi a c
    refine ⟨s', ?_, ?_, ?_, p3.trans hv3⟩
    · simp only [fht2_rows_in, hs3, Option.some_bind, e]
    · intro i hi s1 hs1
      rcases List.mem_cons.mp hi with rfl | hi'
      · have hs := fht2_row_sim A fuel arr1 oarr dim2 i s.log s.ub s (rowState i s)
          (rowSim_rowState i s)
        rw [hs3, hs1] at hs
        intro a c
        rw [p2 i hr a c]
        exact hs.1 a c
      · have hne : i ≠ r := fun h => hr (h ▸ hi')
        exact p1 i hi' s1 (by rw [hframe i hne]; exact hs1)
    · intro i hi a c
      have hne : i ≠ r := fun h => hi (h ▸ List.mem_cons_self _ _)
      have hni : i ∉ rows := fun h => hi (List.mem_cons_of_mem _ h)
      rw [p2 i hni a c]
      exact fht2_row_frame A fuel arr1 oarr dim2 r s s3 hs3 i hne a c

/-- Rows of power-of-two length `2 ^ n ≥ 2` that the matrices have: taking them in the order
of a list keeps the run defined. -/
theorem fht2_rows_in_defined {α : Type} (A : CType α) (fuel arr1 oarr n : Nat)
    (hn1 : 1 ≤ n) (hn : n ≤ 30) (hf : 2 ^ n < fuel) :
    ∀ (rows : List Nat) (s s' : State (Nat × Nat) α),
      (∀ i, i ∈ rows → ∀ c, c < 2 ^ n → s.valid arr1 (i, c) = true) →
      (∀ i, i ∈ rows → ∀ c, c < 2 ^ n → s.valid oarr (i, c) = true) →
      fht2_rows_in A fuel arr1 oarr (2 ^ n) rows s = some s' → s'.ub = s.ub := by
  intro rows
  induction rows with
  | nil =>
    intro s s' _ _ h
    simp only [fht2_rows_in, Option.some.injEq] at h
    rw [h]
  | cons r rows ih =>
    intro s s' hv1 hv2 h
    obtain ⟨s3, l, hs3, _, _, hub⟩ := fht2_row_accesses A fuel arr1 oarr n r s hn1 hn hf
    have hv3 := fht2_row_valid A fuel arr1 oarr (2 ^ n) r s s3 hs3
    simp only [fht2_rows_in, hs3, Option.some_bind] at h
    rw [ih s3 s' (fun i hi c hc => by rw [hv3]; exact hv1 i (List.mem_cons_of_mem _ hi) c hc)
      (fun i hi c hc => by rw [hv3]; exact hv2 i (List.mem_cons_of_mem _ hi) c hc) h]
    exact hub (hv1 r (List.mem_cons_self _ _)) (hv2 r (List.mem_cons_self _ _))

/-- A matrix with a second dimension has a first one. -/
theorem dims2_of_getD {l : List Nat} {m : Nat} (h : l.getD 1 0 = m) (hm : 1 ≤ m) :
    ∃ rest, l = l.getD 0 0 :: m :: rest := by
  cases l with
  | nil => simp at h; omega
  | cons d rest =>
    cases rest with
    | nil => simp at h; omega
    | cons d2 rest => simp at h; exact ⟨rest, by simp [h]⟩

/-- The loop over rows of `fht2` takes the rows `0, 1, ..., dim1 - 1` in this order. -/
theorem fht2_eq_rows_in {α : Type} (A : CType α) (arr1 oarr : PyArrayObject)
    (dim1 dim2 fuel : Nat) (rest : List Nat) (s : State (Nat × Nat) α)
    (hdims : arr1.dimensions = dim1 :: dim2 :: rest)
    (h1 : dim1 < 2 ^ 31) (h2 : dim2 < 2 ^ 31) (hf1 : dim1 < fuel) (hf2 : dim2 < fuel) :
    fht2 A fuel [PyObject.ndarray arr1, PyObject.ndarray oarr] s =
      (fht2_rows_in A fuel arr1.data oarr.data dim2 (List.range dim1) s).map finish := by
  have hu1 : u32 dim1 = dim1 := u32_of_lt (by omega)
  have hu2 : u32 dim2 = dim2 := u32_of_lt (by omega)
  simp only [fht2, PyArg_ParseTuple, hdims, hu1, hu2]
  have hbody : (fun i s => fht2_row A fuel arr1.data oarr.data dim2 i s) =
      fun i s => some ((fht2_row A fuel arr1.data oarr.data dim2 i s).getD s) := by
    funext i s
    obtain ⟨s', hs'⟩ := fht2_row_returns A fuel arr1.data oarr.data dim2 i s h2 hf2
    rw [hs']; rfl
  have hrun : ∀ (k t0 : Nat) (s : State (Nat × Nat) α),
      fht2_rows_in A fuel arr1.data oarr.data dim2 (List.range' t0 k) s =
        some (runSeq (fun i s => (fht2_row A fuel arr1.data oarr.data dim2 i s).getD s)
          (fun t => t * 1) k t0 s) := by
    intro k
    induction k with
    | zero => intro t0 s; rfl
    | succ k ih =>
      intro t0 s
      obtain ⟨s', hs'⟩ := fht2_row_returns A fuel arr1.data oarr.data dim2 t0 s h2 hf2
      simp only [List.range'_succ, fht2_rows_in, hs', Option.some_bind, runSeq]
      rw [Nat.mul_one t0, hs', Option.getD_some]
      exact ih (t0 + 1) s'
  rw [hbody, forLoop_count _ dim1 1 dim1 fuel s (by omega) (by omega) (by omega) hf1,
    Option.some_bind, List.range_eq_range', hrun dim1 0 s]
  rfl

/-- For matrices that have `rowCount` rows of power-of-two length `2 ^ n ≥ 2`, `fht2` returns
the float `1.0`, the run is defined, and what it leaves is what the rows taken in the order
`0, 1, ..., rowCount - 1` leave. -/
theorem fht2_pow_returns {α : Type} (A : CType α) (arr1 oarr : PyArrayObject)
    (rowCount n fuel : Nat) (s : State (Nat × Nat) α)
    (hd1 : arr1.dimensions.getD 0 0 = rowCount) (hd2 : arr1.dimensions.getD 1 0 = 2 ^ n)
    (hn1 : 1 ≤ n) (hn : n ≤ 30) (hrows : rowCount < 2 ^ 31)
    (hf1 : rowCount < fuel) (hf2 : 2 ^ n < fuel)
    (hv1 : ∀ i, i < rowCount → ∀ c, c < 2 ^ n → s.valid arr1.data (i, c) = true)
    (hv2 : ∀ i, i < rowCount → ∀ c, c < 2 ^ n → s.valid oarr.data (i, c) = true)
    (hub : s.ub = false) :
    ∃ s', fht2 A fuel [PyObject.ndarray arr1, PyObject.ndarray oarr] s
        = some (PyReturn.double 1, s') ∧
      fht2_rows_in A fuel arr1.data oarr.data (2 ^ n) (List.range rowCount) s = some s' ∧
      s'.ub = false := by
  have hlt : 2 ^ n < 2 ^ 31 := Nat.pow_lt_pow_right (by norm_num) (by omega)
  obtain ⟨rest, hdims⟩ := dims2_of_getD hd2 (Nat.two_pow_pos n)
  rw [hd1] at hdims
  obtain ⟨s', es, _⟩ := fht2_rows_in_spec A fuel arr1.data oarr.data (2 ^ n) hlt hf2
    (List.range rowCount) s (List.nodup_range _)
  have hu : s'.ub = false := by
    rw [fht2_rows_in_defined A fuel arr1.data oarr.data n hn1 hn hf2 (List.range rowCount) s s'
      (fun i hi => hv1 i (List.mem_range.mp hi)) (fun i hi => hv2 i (List.mem_range.mp hi)) es]
    exact hub
  refine ⟨s', ?_, es, hu⟩
  rw [fht2_eq_rows_in A arr1 oarr rowCount (2 ^ n) fuel rest s hdims hrows hlt hf1 hf2, es]
  simp [finish, hu]

/-! ## `fht1` where the arithmetic of the elements is exact -/

/-- Behaviour of `fht1` on distinct arrays of power-of-two length `m ≥ 2` whose elements
stand for integers of magnitude at most `b`, in an arithmetic that is exact up to `m * b`:
the call returns the float `1.0`, the run is defined, and the output stands for the
Walsh-Hadamard transform of the input. -/
theorem fht1_bounded_spec {α : Type} (A : CType α) (dom : α → Prop) (val : α → Int)
    (B b : Int) (vin vout : PyArrayObject) (m n fuel : Nat) (st : State Nat α)
    (hex : ExactUpTo A dom val B) (hd : vin.data ≠ vout.data)
    (hdim : vin.dimensions.getD 0 0 = m) (hm : m = 2 ^ n) (h2 : 2 ≤ m) (hint : m < 2 ^ 31)
    (hf : m < fuel)
    (hvin : ∀ i, i < m → st.valid vin.data i = true)
    (hvout : ∀ i, i < m → st.valid vout.data i = true) (hub : st.ub = false)
    (hb : ∀ j, j < m → dom (st.mem vin.data j) ∧ |val (st.mem vin.data j)| ≤ b)
    (hB : (m : Int) * b ≤ B) :
    ∃ st', fht1 A fuel [PyObject.ndarray vin, PyObject.ndarray vout] st
        = some (PyReturn.double 1, st') ∧
      (∀ a, a ≠ vout.data → st'.mem a = st.mem a) ∧
      (∀ i, i < m → dom (st'.mem vout.data i) ∧
        val (st'.mem vout.data i) = wht m (fun j => val (st.mem vin.data j)) i) ∧
      st'.ub = false ∧ st'.valid = st.valid := by
  obtain ⟨hn1, hn⟩ := pow_two_bounds30 hm h2 hint
  subst hm
  exact fht1_exact_spec A dom val B vin vout n fuel st hex hd hdim hn1 hn hf hvin hvout hub
    (fun j hj => (hb j hj).1) (bound_of_input_bound _ b B (fun j hj => (hb j hj).2) hB)

/-! ## The claims -/

/-- C1: for a power-of-two length `m ≥ 2` (a length that an `int` holds), distinct input and
output arrays of at least `m` elements, and an element type whose arithmetic is exact on
integers of magnitude up to `B`, with inputs that stand for integers (`val`) of magnitude
at most `b` where `m * b ≤ B`: `fht1` returns the float `1.0` and leaves in `output` the
natural-order Walsh-Hadamard transform of the input,
`output[i] = Σ_{j < m} (-1)^popcount(i AND j) * x[j]`. -/
theorem fht1_computes_walsh_hadamard {α : Type} (A : CType α) (dom : α → Prop)
    (val : α → Int) (B b : Int)
    (vin vout : PyArrayObject) (m n fuel : Nat) (st : State Nat α)
    (hex : ExactUpTo A dom val B) (hd : vin.data ≠ vout.data)
    (hdim : vin.dimensions.getD 0 0 = m) (hm : m = 2 ^ n) (h2 : 2 ≤ m) (hint : m < 2 ^ 31)
    (hf : m < fuel)
    (hvin : ∀ i, i < m → st.valid vin.data i = true)
    (hvout : ∀ i, i < m → st.valid vout.data i = true) (hub : st.ub = false)
    (hb : ∀ j, j < m → dom (st.mem vin.data j) ∧ |val (st.mem vin.data j)| ≤ b)
    (hB : (m : Int) * b ≤ B) :
    ∃ st', fht1 A fuel [PyObject.ndarray vin, PyObject.ndarray vout] st
        = some (PyReturn.double 1, st') ∧
      ∀ i, i < m → dom (st'.mem vout.data i) ∧
        val (st'.mem vout.data i) =
          ∑ j in Finset.range m, (-1) ^ popcount (i &&& j) * val (st.mem vin.data j) := by
  obtain ⟨st', e, _, h, _⟩ := fht1_bounded_spec A dom val B b vin vout m n fuel st hex hd hdim
    hm h2 hint hf hvin hvout hub hb hB
  exact ⟨st', e, h⟩

theorem fht1_computes_walsh_hadamard_witness :
    ∃ st', fht1 int32 5 [PyObject.ndarray ⟨0, [4]⟩, PyObject.ndarray ⟨1, [4]⟩]
        (initState (memOf [1, 2, 3, 4] [0, 0, 0, 0]) (extents 4 4))
        = some (PyReturn.double 1, st') ∧
      ∀ i, i < 4 → True ∧ id (st'.mem 1 i) =
        ∑ j in Finset.range 4,
          (-1) ^ popcount (i &&& j) * id (memOf [1, 2, 3, 4] [0, 0, 0, 0] 0 j) :=
  fht1_computes_walsh_hadamard int32 (fun _ => True) id (2 ^ 31 - 1) 4 ⟨0, [4]⟩ ⟨1, [4]⟩ 4 2 5
    (initState (memOf [1, 2, 3, 4] [0, 0, 0, 0]) (extents 4 4)) int32_exact
    (by decide) rfl (by norm_num) (by norm_num) (by norm_num) (by norm_num)
    (by decide) (by decide) rfl (by decide) (by norm_num)

/-- C2: self-inverse law. For a power-of-two length `m ≥ 2` and elements that stand for
integers of magnitude at most `b` in an arithmetic that is exact up to `B ≥ m * b`: running
`fht1` from `x` into a second array and then from that array into any other array `w`
leaves `m * x` in `w`, element by element, so that dividing each element by `m` gives `x`
back. -/
theorem fht1_twice_scales_by_length {α : Type} (A : CType α) (dom : α → Prop)
    (val : α → Int) (B b : Int)
    (vin vout w : PyArrayObject) (m n fuel : Nat) (st : State Nat α)
    (hex : ExactUpTo A dom val B) (hd : vin.data ≠ vout.data) (hd2 : vout.data ≠ w.data)
    (hdim : vin.dimensions.getD 0 0 = m) (hdim2 : vout.dimensions.getD 0 0 = m)
    (hm : m = 2 ^ n) (h2 : 2 ≤ m) (hint : m < 2 ^ 31) (hf : m < fuel)
    (hvin : ∀ i, i < m → st.valid vin.data i = true)
    (hvout : ∀ i, i < m → st.valid vout.data i = true)
    (hw : ∀ i, i < m → st.valid w.data i = true) (hub : st.ub = false)
    (hb : ∀ j, j < m → dom (st.mem vin.data j) ∧ |val (st.mem vin.data j)| ≤ b)
    (hB : (m : Int) * b ≤ B) :
    ∃ st' st2, fht1 A fuel [PyObject.ndarray vin, PyObject.ndarray vout] st
        = some (PyReturn.double 1, st') ∧
      fht1 A fuel [PyObject.ndarray vout, PyObject.ndarray w] st'
        = some (PyReturn.double 1, st2) ∧
      ∀ i, i < m → dom (st2.mem w.data i) ∧
        val (st2.mem w.data i) = (m : Int) * val (st.mem vin.data i) ∧
        val (st2.mem w.data i) / (m : Int) = val (st.mem vin.data i) := by
  obtain ⟨hn1, hn⟩ := pow_two_bounds30 hm h2 hint
  obtain ⟨st', e, _, h, hub', hv'⟩ := fht1_bounded_spec A dom val B b vin vout m n fuel st hex
    hd hdim hm h2 hint hf hvin hvout hub hb hB
  subst hm
  have hval : ∀ j, j < 2 ^ n →
      val (st'.mem vout.data j) = wht (2 ^ n) (fun j => val (st.mem vin.data j)) j :=
    fun j hj => (h j hj).2
  have hB2 : ∀ s, 1 ≤ s → s ≤ n → ∀ i, i < 2 ^ n →
      |blockWht s (fun j => val (st'.mem vout.data j)) i| ≤ B := by
    intro s _ hs i hi
    rw [blockWht_congr _ (wht (2 ^ n) (fun j => val (st.mem vin.data j))) hs hi hval]
    exact le_trans (abs_blockWht_wht_le n _ b (fun j hj => (hb j hj).2) s hs i hi) hB
  obtain ⟨st2, e', _, h', _⟩ := fht1_exact_spec A dom val B vout w n fuel st' hex hd2 hdim2
    hn1 hn hf (by rw [hv']; exact hvout) (by rw [hv']; exact hw) hub'
    (fun j hj => (h j hj).1) hB2
  refine ⟨st', st2, e, e', fun i hi => ?_⟩
  have key : val (st2.mem w.data i) = ((2 ^ n : Nat) : Int) * val (st.mem vin.data i) := by
    rw [(h' i hi).2, wht_congr _ _ _ hval i, wht_wht n _ i hi]
    push_cast; rfl
  refine ⟨(h' i hi).1, key, ?_⟩
  rw [key]
  have hpos : ((2 ^ n : Nat) : Int) ≠ 0 := by
    have := Nat.two_pow_pos n
    omega
  exact Int.mul_ediv_cancel_left _ hpos

theorem fht1_twice_scales_by_length_witness :
    ∃ st' st2, fht1 int32 5 [PyObject.ndarray ⟨0, [4]⟩, PyObject.ndarray ⟨1, [4]⟩]
        (initState (memOf [1, 2, 3, 4] [0, 0, 0, 0]) (extents 4 4))
        = some (PyReturn.double 1, st') ∧
      fht1 int32 5 [PyObject.ndarray ⟨1, [4]⟩, PyObject.ndarray ⟨0, [4]⟩] st'
        = some (PyReturn.double 1, st2) ∧
      ∀ i, i < 4 → True ∧
        id (st2.mem 0 i) = ((4 : Nat) : Int) * id (memOf [1, 2, 3, 4] [0, 0, 0, 0] 0 i) ∧
        id (st2.mem 0 i) / ((4 : Nat) : Int) = id (memOf [1, 2, 3, 4] [0, 0, 0, 0] 0 i) :=
  fht1_twice_scales_by_length int32 (fun _ => True) id (2 ^ 31 - 1) 4 ⟨0, [4]⟩ ⟨1, [4]⟩
    ⟨0, [4]⟩ 4 2 5
    (initState (memOf [1, 2, 3, 4] [0, 0, 0, 0]) (extents 4 4)) int32_exact
    (by decide) (by decide) rfl rfl (by norm_num) (by norm_num) (by norm_num) (by norm_num)
    (by decide) (by decide) (by decide) rfl (by decide) (by norm_num)

/-- C3: row equivalence. For every row count and every power-of-two row length `≥ 2` (both
held in an `int`) and matrices that have these rows, `fht2` returns the float `1.0`, and
every row `i` of the matrix it leaves holds exactly what `fht1` leaves when it is run on
row `i` of the initial matrices alone, whatever the arithmetic of the elements. -/
theorem fht2_rows_equal_fht1 {α : Type} (A : CType α) (arr1 oarr : PyArrayObject)
    (rowCount rowLength n fuel : Nat) (s2 : State (Nat × Nat) α)
    (hd1 : arr1.dimensions.getD 0 0 = rowCount) (hd2 : arr1.dimensions.getD 1 0 = rowLength)
    (hm : rowLength = 2 ^ n) (hlen : 2 ≤ rowLength) (hint : rowLength < 2 ^ 31)
    (hrows : rowCount < 2 ^ 31) (hf1 : rowCount < fuel) (hf2 : rowLength < fuel)
    (hv1 : ∀ i, i < rowCount → ∀ c, c < rowLength → s2.valid arr1.data (i, c) = true)
    (hv2 : ∀ i, i < rowCount → ∀ c, c < rowLength → s2.valid oarr.data (i, c) = true)
    (hub : s2.ub = false) :
    ∃ s2', fht2 A fuel [PyObject.ndarray arr1, PyObject.ndarray oarr] s2
        = some (PyReturn.double 1, s2') ∧
      ∀ i, i < rowCount →
        ∃ s1, fht1 A fuel [PyObject.ndarray ⟨arr1.data, [rowLength]⟩,
            PyObject.ndarray ⟨oarr.data, [rowLength]⟩] (rowState i s2)
            = some (PyReturn.double 1, s1) ∧
          ∀ c, c < rowLength → s2'.mem oarr.data (i, c) = s1.mem oarr.data c := by
  obtain ⟨hn1, hn⟩ := pow_two_bounds30 hm hlen hint
  subst hm
  obtain ⟨s2', e, er, _⟩ := fht2_pow_returns A arr1 oarr rowCount n fuel s2 hd1 hd2 hn1 hn
    hrows hf1 hf2 hv1 hv2 hub
  obtain ⟨s3, er3, p1, _⟩ := fht2_rows_in_spec A fuel arr1.data oarr.data (2 ^ n) hint hf2
    (List.range rowCount) s2 (List.nodup_range _)
  have hs3 : s3 = s2' := Option.some.inj (er3.symm.trans er)
  subst hs3
  refine ⟨s3, e, fun i hi => ?_⟩
  have e1 := fht1_pow_returns A ⟨arr1.data, [2 ^ n]⟩ ⟨oarr.data, [2 ^ n]⟩ n fuel
    (rowState i s2) rfl hn1 hn hf2 (fun c hc => hv1 i hi c hc) (fun c hc => hv2 i hi c hc) rfl
  have e2 := fht1_loops_eq_passes A fuel arr1.data oarr.data (2 ^ n) (n - 1) (rowState i s2)
    hint hf2 (by omega) (fun t ht => Nat.pow_lt_pow_right (by norm_num) (by omega))
    (by rw [Nat.sub_add_cancel hn1])
  exact ⟨_, e1, fun c _ => p1 i (List.mem_range.mpr hi) _ e2 oarr.data c⟩

theorem fht2_rows_equal_fht1_witness :
    ∃ s2', fht2 int32 5 [PyObject.ndarray ⟨0, [2, 4]⟩, PyObject.ndarray ⟨1, [2, 4]⟩]
        (initState (memOf2 [[1, 2, 3, 4], [5, 6, 7, 8]] [[0, 0, 0, 0], [0, 0, 0, 0]])
          (extents2 2 4))
        = some (PyReturn.double 1, s2') ∧
      ∀ i, i < 2 →
        ∃ s1, fht1 int32 5 [PyObject.ndarray ⟨0, [4]⟩, PyObject.ndarray ⟨1, [4]⟩]
            (rowState i
              (initState (memOf2 [[1, 2, 3, 4], [5, 6, 7, 8]] [[0, 0, 0, 0], [0, 0, 0, 0]])
                (extents2 2 4)))
            = some (PyReturn.double 1, s1) ∧
          ∀ c, c < 4 → s2'.mem 1 (i, c) = s1.mem 1 c :=
  fht2_rows_equal_fht1 int32 ⟨0, [2, 4]⟩ ⟨1, [2, 4]⟩ 2 4 2 5
    (initState (memOf2 [[1, 2, 3, 4], [5, 6, 7, 8]] [[0, 0, 0, 0], [0, 0, 0, 0]])
      (extents2 2 4))
    rfl rfl (by norm_num) (by norm_num) (by norm_num) (by norm_num) (by norm_num) (by norm_num)
    (by decide) (by decide) rfl

/-- C4: energy preservation (Parseval). For a power-of-two length `m ≥ 2` and elements that
stand for integers of magnitude at most `b` in an arithmetic that is exact up to
`B ≥ m * b`, the squares of the elements that `fht1` leaves in `output` sum to `m` times
the sum of the squares of the input. -/
theorem fht1_parseval {α : Type} (A : CType α) (dom : α → Prop) (val : α → Int) (B b : Int)
    (vin vout : PyArrayObject) (m n fuel : Nat) (st : State Nat α)
    (hex : ExactUpTo A dom val B) (hd : vin.data ≠ vout.data)
    (hdim : vin.dimensions.getD 0 0 = m) (hm : m = 2 ^ n) (h2 : 2 ≤ m) (hint : m < 2 ^ 31)
    (hf : m < fuel)
    (hvin : ∀ i, i < m → st.valid vin.data i = true)
    (hvout : ∀ i, i < m → st.valid vout.data i = true) (hub : st.ub = false)
    (hb : ∀ j, j < m → dom (st.mem vin.data j) ∧ |val (st.mem vin.data j)| ≤ b)
    (hB : (m : Int) * b ≤ B) :
    ∃ st', fht1 A fuel [PyObject.ndarray vin, PyObject.ndarray vout] st
        = some (PyReturn.double 1, st') ∧
      ∑ i in Finset.range m, val (st'.mem vout.data i) ^ 2 =
        (m : Int) * ∑ i in Finset.range m, val (st.mem vin.data i) ^ 2 := by
  obtain ⟨st', e, _, h, _⟩ := fht1_bounded_spec A dom val B b vin vout m n fuel st hex hd hdim
    hm h2 hint hf hvin hvout hub hb hB
  subst hm
  refine ⟨st', e, ?_⟩
  rw [Finset.sum_congr rfl (fun i hi => by rw [(h i (Finset.mem_range.mp hi)).2]),
    wht_parseval n (fun j => val (st.mem vin.data j))]
  push_cast; rfl

theorem fht1_parseval_witness :
    ∃ st', fht1 int32 5 [PyObject.ndarray ⟨0, [4]⟩, PyObject.ndarray ⟨1, [4]⟩]
        (initState (memOf [1, 2, 3, 4] [0, 0, 0, 0]) (extents 4 4))
        = some (PyReturn.double 1, st') ∧
      ∑ i in Finset.range 4, id (st'.mem 1 i) ^ 2 =
        ((4 : Nat) : Int) *
          ∑ i in Finset.range 4, id (memOf [1, 2, 3, 4] [0, 0, 0, 0] 0 i) ^ 2 :=
  fht1_parseval int32 (fun _ => True) id (2 ^ 31 - 1) 4 ⟨0, [4]⟩ ⟨1, [4]⟩ 4 2 5
    (initState (memOf [1, 2, 3, 4] [0, 0, 0, 0]) (extents 4 4)) int32_exact
    (by decide) rfl (by norm_num) (by norm_num) (by norm_num) (by norm_num)
    (by decide) (by decide) rfl (by decide) (by norm_num)

/-- C5: `fht1` with input and output the same array of 32 bit integers, length 2, contents
`[1, 2]`: the first loop stores `output[0] = 1 + 2` and then reads it back as `input[0]`, so
the array ends as `[3, 1]`, while the call with a distinct output array leaves `[3, -1]`.
Both runs stay inside the arrays and return the float `1.0`. -/
theorem fht1_in_place_differs :
    (fht1 int32 3 [PyObject.ndarray ⟨0, [2]⟩, PyObject.ndarray ⟨0, [2]⟩]
        (initState (memOf [1, 2] []) (extents 2 0))).map
        (fun r => (r.1, [r.2.mem 0 0, r.2.mem 0 1]))
      = some (PyReturn.double 1, [3, 1]) ∧
    (fht1 int32 3 [PyObject.ndarray ⟨0, [2]⟩, PyObject.ndarray ⟨1, [2]⟩]
        (initState (memOf [1, 2] [0, 0]) (extents 2 2))).map
        (fun r => (r.1, [r.2.mem 1 0, r.2.mem 1 1]))
      = some (PyReturn.double 1, [3, -1]) := by
  decide

/-- C6: base case. For length 2 and all elements `a`, `b` of any element type, `fht1` on the
input `[a, b]` with a distinct output array of two elements returns the float `1.0` and
leaves `[a + b, a - b]` in `output`, the sum and the difference being those of the element
type. -/
theorem fht1_length_two {α : Type} (A : CType α) (vin vout : PyArrayObject) (a b : α)
    (fuel : Nat) (st : State Nat α)
    (hd : vin.data ≠ vout.data) (hdim : vin.dimensions.getD 0 0 = 2)
    (ha : st.mem vin.data 0 = a) (hb : st.mem vin.data 1 = b) (hf : 2 < fuel)
    (hvin : ∀ i, i < 2 → st.valid vin.data i = true)
    (hvout : ∀ i, i < 2 → st.valid vout.data i = true) (hub : st.ub = false) :
    ∃ st', fht1 A fuel [PyObject.ndarray vin, PyObject.ndarray vout] st
        = some (PyReturn.double 1, st') ∧
      st'.mem vout.data 0 = A.add a b ∧ st'.mem vout.data 1 = A.sub a b := by
  obtain ⟨st', e, _, h, _⟩ := fht1_distinct_spec A vin vout 1 fuel st hd hdim (by omega)
    (by omega) (by simpa using hf) (by simpa using hvin) (by simpa using hvout) hub
  refine ⟨st', e, ?_, ?_⟩
  · rw [h 0 (by norm_num), ← ha, ← hb]; rfl
  · rw [h 1 (by norm_num), ← ha, ← hb]; rfl

theorem fht1_length_two_witness :
    ∃ st', fht1 int32 3 [PyObject.ndarray ⟨0, [2]⟩, PyObject.ndarray ⟨1, [2]⟩]
        (initState (memOf [5, 3] [0, 0]) (extents 2 2)) = some (PyReturn.double 1, st') ∧
      st'.mem 1 0 = int32.add 5 3 ∧ st'.mem 1 1 = int32.sub 5 3 :=
  fht1_length_two int32 ⟨0, [2]⟩ ⟨1, [2]⟩ 5 3 3 (initState (memOf [5, 3] [0, 0]) (extents 2 2))
    (by decide) rfl rfl rfl (by norm_num) (by decide) (by decide) rfl

/-- C7: known small case, generalised. For a power-of-two length `m ≥ 2` and an arithmetic
that is exact on the integers of magnitude at most 1, `fht1` applied to the unit impulse (1
at index 0, 0 at the other indices below `m`) returns the float `1.0` and leaves 1 at every
index of `output` below `m`; so the input `[1, 0, 0, 0]` gives `[1, 1, 1, 1]`. -/
theorem fht1_impulse {α : Type} (A : CType α) (dom : α → Prop) (val : α → Int)
    (vin vout : PyArrayObject) (m n fuel : Nat) (st : State Nat α)
    (hex : ExactUpTo A dom val 1) (hd : vin.data ≠ vout.data)
    (hdim : vin.dimensions.getD 0 0 = m) (hm : m = 2 ^ n) (h2 : 2 ≤ m) (hint : m < 2 ^ 31)
    (hf : m < fuel)
    (hvin : ∀ i, i < m → st.valid vin.data i = true)
    (hvout : ∀ i, i < m → st.valid vout.data i = true) (hub : st.ub = false)
    (hdom : ∀ j, j < m → dom (st.mem vin.data j))
    (h0 : val (st.mem vin.data 0) = 1)
    (h1 : ∀ j, 0 < j → j < m → val (st.mem vin.data j) = 0) :
    ∃ st', fht1 A fuel [PyObject.ndarray vin, PyObject.ndarray vout] st
        = some (PyReturn.double 1, st') ∧
      ∀ i, i < m → dom (st'.mem vout.data i) ∧ val (st'.mem vout.data i) = 1 := by
  obtain ⟨hn1, hn⟩ := pow_two_bounds30 hm h2 hint
  subst hm
  obtain ⟨st', e, _, h, _⟩ := fht1_exact_spec A dom val 1 vin vout n fuel st hex hd hdim hn1
    hn hf hvin hvout hub hdom
    (fun s _ hs i hi => abs_blockWht_impulse (fun j => val (st.mem vin.data j)) hs hi h0 h1)
  refine ⟨st', e, fun i hi => ⟨(h i hi).1, ?_⟩⟩
  rw [(h i hi).2]
  exact wht_impulse _ _ i (by omega) h0 h1

theorem fht1_impulse_witness :
    ∃ st', fht1 int32 5 [PyObject.ndarray ⟨0, [4]⟩, PyObject.ndarray ⟨1, [4]⟩]
        (initState (memOf [1, 0, 0, 0] [7, 7, 7, 7]) (extents 4 4))
        = some (PyReturn.double 1, st') ∧
      (List.range 4).map (st'.mem 1) = [1, 1, 1, 1] := by
  obtain ⟨st', e, h⟩ := fht1_impulse int32 (fun _ => True) id ⟨0, [4]⟩ ⟨1, [4]⟩ 4 2 5
    (initState (memOf [1, 0, 0, 0] [7, 7, 7, 7]) (extents 4 4))
    (int32_exact.mono (by norm_num))
    (by decide) rfl (by norm_num) (by norm_num) (by norm_num) (by norm_num)
    (by decide) (by decide) rfl (fun _ _ => trivial) rfl (by
      intro j hj0 hj4
      have : j = 1 ∨ j = 2 ∨ j = 3 := by omega
      rcases this with rfl | rfl | rfl <;> rfl)
  refine ⟨st', e, ?_⟩
  have e0 := (h 0 (by norm_num)).2
  have e1 := (h 1 (by norm_num)).2
  have e2 := (h 2 (by norm_num)).2
  have e3 := (h 3 (by norm_num)).2
  simp only [PyArrayObject.data, id] at e0 e1 e2 e3
  simp [List.range_succ, e0, e1, e2, e3]

/-- C8: `fht1` with length 1 on 32 bit integers, input `[5]` followed in memory by the value
3: the first loop runs once with `j = 0`, `k = 1`, reads index 1 of the input and writes
index 1 of the output. On arrays whose buffers hold that one element the two accesses are
outside them and the call has undefined behaviour; on arrays that are the first element of
buffers of two elements the call returns the float `1.0` and leaves `output[0] = 5 + 3`,
not 5, and `output[1] = 5 - 3`. -/
theorem fht1_length_one_runs_butterfly :
    (fht1 int32 2 [PyObject.ndarray ⟨0, [1]⟩, PyObject.ndarray ⟨1, [1]⟩]
        (initState (memOf [5, 3] [0, 0]) (extents 1 1))).map (fun r => (r.1, r.2.log))
      = some (PyReturn.undefined,
          [Access.read 0 0, Access.read 0 1, Access.write 1 0,
           Access.read 0 0, Access.read 0 1, Access.write 1 1]) ∧
    (fht1 int32 2 [PyObject.ndarray ⟨0, [1]⟩, PyObject.ndarray ⟨1, [1]⟩]
        (initState (memOf [5, 3] [0, 0]) (extents 2 2))).map
        (fun r => (r.1, r.2.log, r.2.mem 1 0, r.2.mem 1 1))
      = some (PyReturn.double 1,
          [Access.read 0 0, Access.read 0 1, Access.write 1 0,
           Access.read 0 0, Access.read 0 1, Access.write 1 1], 8, 2) := by
  decide

/-- C10, as stated, fails: with an input of length 2 and an output of length 4 `fht1` reports
no error, it returns the float `1.0` after writing `output[0] = 1 + 2` and
`output[1] = 1 - 2`; every access is inside the arrays. -/
theorem fht1_size_mismatch_no_error :
    (fht1 int32 3 [PyObject.ndarray ⟨0, [2]⟩, PyObject.ndarray ⟨1, [4]⟩]
        (initState (memOf [1, 2] [0, 0, 0, 0]) (extents 2 4))).map
        (fun r => (r.1, r.2.log, (List.range 4).map (r.2.mem 1)))
      = some (PyReturn.double 1,
          [Access.read 0 0, Access.read 0 1, Access.write 1 0,
           Access.read 0 0, Access.read 0 1, Access.write 1 1], [3, -1, 0, 0]) := by
  decide

/-- C10, amended: `fht1` does not compare the lengths of its two arrays. For an input vector
of power-of-two length `m ≥ 2` and an output vector of another length `k`, it gives no
error and stores to `output[i]` for every `i < m`: when the output is longer (`m < k`) the
call returns the float `1.0`, and when it is shorter (`k < m`) the stores at the indices
from `k` on are outside the output and the call has undefined behaviour. -/
theorem fht1_ignores_output_shape {α : Type} (A : CType α) (vin vout : PyArrayObject)
    (m n k fuel : Nat) (st : State Nat α)
    (hin : IsVector st vin m) (hout : IsVector st vout k)
    (hm : m = 2 ^ n) (h2 : 2 ≤ m) (hint : m < 2 ^ 31) (hf : m < fuel) (hub : st.ub = false) :
    ∃ st' l, st'.log = st.log ++ l ∧ (∀ i, i < m → Access.write vout.data i ∈ l) ∧
      (m < k → fht1 A fuel [PyObject.ndarray vin, PyObject.ndarray vout] st
        = some (PyReturn.double 1, st')) ∧
      (k < m → fht1 A fuel [PyObject.ndarray vin, PyObject.ndarray vout] st
        = some (PyReturn.undefined, st')) := by
  obtain ⟨hn1, hn⟩ := pow_two_bounds30 hm h2 hint
  obtain ⟨hdin, hvin⟩ := hin
  obtain ⟨_, hvout⟩ := hout
  subst hm
  have heven : 2 ^ n % 2 = 0 := by
    obtain ⟨j, rfl⟩ : ∃ j, n = j + 1 := ⟨n - 1, by omega⟩
    rw [pow_succ]; omega
  have e := fht1_pow_eq_passes A vin vout n fuel st (by rw [hdin]; rfl) hn1 hn hf
  obtain ⟨l, o, hr⟩ := passes_ran A vin.data vout.data (2 ^ n) (n - 1) st
  have hw : ∀ i, i < 2 ^ n → Access.write vout.data i ∈ l := by
    intro i hi
    obtain ⟨l', hl', hmem⟩ := passes_write_all A vin.data vout.data (2 ^ n) (n - 1) i st heven
      hint hi
    exact ran_mem_of_log hr hl' _ hmem
  refine ⟨_, l, hr.1, hw, ?_, ?_⟩
  · intro hk
    have hd := (passes_defined A vin.data vout.data n st hn1 hn
      (fun i hi => by rw [hvin]; exact decide_eq_true hi)
      (fun i hi => by rw [hvout]; exact decide_eq_true (by omega))).1
    rw [e]
    simp [finish, hd, hub]
  · intro hk
    have hu := ran_ub_of_outside hr _ (hw k hk)
      (by simp only [Access.buffer, Access.index]; rw [hvout]; simp)
    rw [e]
    simp [finish, hu]

theorem fht1_ignores_output_shape_witness :
    ∃ st' l,
      st'.log = (initState (memOf [1, 2, 3, 4] [0, 0]) (extents 4 2)).log ++ l ∧
      (∀ i, i < 4 → Access.write 1 i ∈ l) ∧
      (4 < 2 → fht1 int32 5 [PyObject.ndarray ⟨0, [4]⟩, PyObject.ndarray ⟨1, [2]⟩]
        (initState (memOf [1, 2, 3, 4] [0, 0]) (extents 4 2))
        = some (PyReturn.double 1, st')) ∧
      (2 < 4 → fht1 int32 5 [PyObject.ndarray ⟨0, [4]⟩, PyObject.ndarray ⟨1, [2]⟩]
        (initState (memOf [1, 2, 3, 4] [0, 0]) (extents 4 2))
        = some (PyReturn.undefined, st')) :=
  fht1_ignores_output_shape int32 ⟨0, [4]⟩ ⟨1, [2]⟩ 4 2 2 5
    (initState (memOf [1, 2, 3, 4] [0, 0]) (extents 4 2))
    ⟨rfl, fun i => by simp [initState, extents]⟩ ⟨rfl, fun i => by simp [initState, extents]⟩
    (by norm_num) (by norm_num) (by norm_num) (by norm_num) rfl

/-- C11: output fully written, input untouched. For a power-of-two length `m ≥ 2` and
distinct arrays of at least `m` elements, the call stores to every index of `output` below
`m`, the elements it leaves there are the same for any two initial contents of the output
buffer (and of any other memory than the input), and the input buffer is unchanged,
whatever the arithmetic of the elements. -/
theorem fht1_writes_all_output {α : Type} (A : CType α) (vin vout : PyArrayObject)
    (m n fuel : Nat) (st st2 : State Nat α) (hd : vin.data ≠ vout.data)
    (hdim : vin.dimensions.getD 0 0 = m)
    (hm : m = 2 ^ n) (h2 : 2 ≤ m) (hint : m < 2 ^ 31) (hf : m < fuel)
    (hvin : ∀ i, i < m → st.valid vin.data i = true)
    (hvout : ∀ i, i < m → st.valid vout.data i = true) (hub : st.ub = false)
    (hvin2 : ∀ i, i < m → st2.valid vin.data i = true)
    (hvout2 : ∀ i, i < m → st2.valid vout.data i = true) (hub2 : st2.ub = false)
    (hsame : st2.mem vin.data = st.mem vin.data) :
    ∃ st' st2' l,
      fht1 A fuel [PyObject.ndarray vin, PyObject.ndarray vout] st
        = some (PyReturn.double 1, st') ∧
      fht1 A fuel [PyObject.ndarray vin, PyObject.ndarray vout] st2
        = some (PyReturn.double 1, st2') ∧
      st'.log = st.log ++ l ∧ (∀ i, i < m → Access.write vout.data i ∈ l) ∧
      (∀ i, i < m → st'.mem vout.data i = st2'.mem vout.data i) ∧
      st'.mem vin.data = st.mem vin.data := by
  obtain ⟨hn1, hn⟩ := pow_two_bounds30 hm h2 hint
  subst hm
  have heven : 2 ^ n % 2 = 0 := by
    obtain ⟨k, rfl⟩ : ∃ k, n = k + 1 := ⟨n - 1, by omega⟩
    rw [pow_succ]; omega
  have e1 := fht1_pow_returns A vin vout n fuel st hdim hn1 hn hf hvin hvout hub
  have e2 := fht1_pow_returns A vin vout n fuel st2 hdim hn1 hn hf hvin2 hvout2 hub2
  obtain ⟨a1, a2⟩ := passes_mem A hd n st hn1 hn
  obtain ⟨_, b2⟩ := passes_mem A hd n st2 hn1 hn
  obtain ⟨l, o, hr⟩ := passes_ran A vin.data vout.data (2 ^ n) (n - 1) st
  refine ⟨_, _, l, e1, e2, hr.1, ?_, ?_, a1 vin.data hd⟩
  · intro i hi
    obtain ⟨l', hl', hmem⟩ := passes_write_all A vin.data vout.data (2 ^ n) (n - 1) i st heven
      hint hi
    exact ran_mem_of_log hr hl' _ hmem
  · intro i hi
    rw [a2 i hi, b2 i hi, hsame]

theorem fht1_writes_all_output_witness :
    ∃ st' st2' l,
      fht1 int32 5 [PyObject.ndarray ⟨0, [4]⟩, PyObject.ndarray ⟨1, [4]⟩]
        (initState (memOf [1, 2, 3, 4] [0, 0, 0, 0]) (extents 4 4))
        = some (PyReturn.double 1, st') ∧
      fht1 int32 5 [PyObject.ndarray ⟨0, [4]⟩, PyObject.ndarray ⟨1, [4]⟩]
        (initState (memOf [1, 2, 3, 4] [9, 8, 7, 6]) (extents 4 4))
        = some (PyReturn.double 1, st2') ∧
      st'.log = (initState (memOf [1, 2, 3, 4] [0, 0, 0, 0]) (extents 4 4)).log ++ l ∧
      (∀ i, i < 4 → Access.write 1 i ∈ l) ∧
      (∀ i, i < 4 → st'.mem 1 i = st2'.mem 1 i) ∧
      st'.mem 0 = (initState (memOf [1, 2, 3, 4] [0, 0, 0, 0]) (extents 4 4)).mem 0 :=
  fht1_writes_all_output int32 ⟨0, [4]⟩ ⟨1, [4]⟩ 4 2 5
    (initState (memOf [1, 2, 3, 4] [0, 0, 0, 0]) (extents 4 4))
    (initState (memOf [1, 2, 3, 4] [9, 8, 7, 6]) (extents 4 4)) (by decide) rfl (by norm_num)
    (by norm_num) (by norm_num) (by norm_num) (by decide) (by decide) rfl (by decide)
    (by decide) rfl rfl

/-- C12: operation count. For a power-of-two length `m = 2 ^ n ≥ 2`, `fht1` runs exactly `n`
stages: the first loop, then one pass over `j` for each stride `2, 4, ..., m / 2`
(`stages t` is the state after `t` of them). Every stage makes `m / 2` additions, `m / 2`
subtractions and no multiplication of elements (`m` operations), it makes `m` stores, and
what it stores at the two indices of each butterfly is the sum and the difference of the
pair that it found there (for the first loop, with distinct arrays, of the pair of the
input). The call makes `m * n` operations on elements in all, `m / 2 * n` additions and
`m / 2 * n` subtractions, and no multiplication. -/
theorem fht1_operation_count {α : Type} (A : CType α) (vin vout : PyArrayObject)
    (m n fuel : Nat) (st : State Nat α)
    (hdim : vin.dimensions.getD 0 0 = m) (hm : m = 2 ^ n) (h2 : 2 ≤ m) (hint : m < 2 ^ 31)
    (hf : m < fuel)
    (hvin : ∀ i, i < m → st.valid vin.data i = true)
    (hvout : ∀ i, i < m → st.valid vout.data i = true) (hub : st.ub = false) :
    ∃ stages : Nat → State Nat α,
      stages 0 = st ∧
      fht1_base A fuel vin.data vout.data m st = some (stages 1) ∧
      (∀ t, 1 ≤ t → t < n →
        fht1_stage A fuel vout.data m (2 ^ t) (stages t) = some (stages (t + 1))) ∧
      fht1 A fuel [PyObject.ndarray vin, PyObject.ndarray vout] st
        = some (PyReturn.double 1, stages n) ∧
      (∀ t, t < n →
        countWrites (stages (t + 1)).log = countWrites (stages t).log + 2 * (m / 2) ∧
        (stages (t + 1)).ops.length = (stages t).ops.length + 2 * (m / 2) ∧
        List.count ArithOp.add (stages (t + 1)).ops
          = List.count ArithOp.add (stages t).ops + m / 2 ∧
        List.count ArithOp.sub (stages (t + 1)).ops
          = List.count ArithOp.sub (stages t).ops + m / 2 ∧
        List.count ArithOp.mul (stages (t + 1)).ops
          = List.count ArithOp.mul (stages t).ops) ∧
      (vin.data ≠ vout.data → ∀ i, i < m →
        (stages 1).mem vout.data i =
          if 1 &&& i = 0 then A.add (st.mem vin.data i) (st.mem vin.data (i ||| 1))
          else A.sub (st.mem vin.data (i - 1)) (st.mem vin.data i)) ∧
      (∀ t, 1 ≤ t → t < n → ∀ i, i < m →
        (stages (t + 1)).mem vout.data i =
          if 2 ^ t &&& i = 0
          then A.add ((stages t).mem vout.data i) ((stages t).mem vout.data (i ||| 2 ^ t))
          else A.sub ((stages t).mem vout.data (i - 2 ^ t)) ((stages t).mem vout.data i)) ∧
      countWrites (stages n).log = countWrites st.log + m * n ∧
      (stages n).ops.length = st.ops.length + m * n ∧
      List.count ArithOp.add (stages n).ops = List.count ArithOp.add st.ops + m / 2 * n ∧
      List.count ArithOp.sub (stages n).ops = List.count ArithOp.sub st.ops + m / 2 * n ∧
      List.count ArithOp.mul (stages n).ops = List.count ArithOp.mul st.ops := by
  obtain ⟨hn1, hn⟩ := pow_two_bounds30 hm h2 hint
  subst hm
  have heven : 2 ^ n % 2 = 0 := by
    obtain ⟨k, rfl⟩ : ∃ k, n = k + 1 := ⟨n - 1, by omega⟩
    rw [pow_succ]; omega
  have h22 : 2 * (2 ^ n / 2) = 2 ^ n := by omega
  have cadd : List.count ArithOp.add [ArithOp.add, ArithOp.sub] = 1 := by decide
  have csub : List.count ArithOp.sub [ArithOp.add, ArithOp.sub] = 1 := by decide
  have cmul : List.count ArithOp.mul [ArithOp.add, ArithOp.sub] = 0 := by decide
  obtain ⟨v1, v2⟩ := stagesOf_mem A vin.data vout.data n st hn
  refine ⟨stagesOf A vin.data vout.data (2 ^ n) st, rfl, ?_, ?_, ?_, ?_, ?_, ?_, ?_, ?_, ?_,
    ?_, ?_⟩
  · rw [stagesOf_one]
    exact fht1_base_eq A fuel vin.data vout.data (2 ^ n) st hint hf
  · intro t ht1 _
    rw [stagesOf_succ A vin.data vout.data (2 ^ n) st t ht1]
    exact fht1_stage_eq A fuel vout.data (2 ^ n) _ _ hint hf
  · have e := fht1_pow_returns A vin vout n fuel st hdim hn1 hn hf hvin hvout hub
    rw [e]
    unfold stagesOf
    rw [if_neg (by omega)]
  · intro t ht
    obtain ⟨b1, _, b3⟩ := stagesOf_counts A vin.data vout.data n st t ht ArithOp.add
    obtain ⟨_, c2, _⟩ := stagesOf_counts A vin.data vout.data n st t ht ArithOp.add
    obtain ⟨_, d2, _⟩ := stagesOf_counts A vin.data vout.data n st t ht ArithOp.sub
    obtain ⟨_, e2, _⟩ := stagesOf_counts A vin.data vout.data n st t ht ArithOp.mul
    rw [cadd, Nat.mul_one] at c2
    rw [csub, Nat.mul_one] at d2
    rw [cmul, Nat.mul_zero, Nat.add_zero] at e2
    exact ⟨b1, b3, c2, d2, e2⟩
  · intro hd i hi
    exact v1 hd i hi
  · intro t ht1 _ i hi
    exact v2 t ht1 i hi
  · rw [(stagesOf_totals A vin.data vout.data n st ArithOp.add n (le_refl n)).1, h22]
  · rw [(stagesOf_totals A vin.data vout.data n st ArithOp.add n (le_refl n)).2.2, h22]
  · rw [(stagesOf_totals A vin.data vout.data n st ArithOp.add n (le_refl n)).2.1, cadd,
      Nat.mul_one]
  · rw [(stagesOf_totals A vin.data vout.data n st ArithOp.sub n (le_refl n)).2.1, csub,
      Nat.mul_one]
  · rw [(stagesOf_totals A vin.data vout.data n st ArithOp.mul n (le_refl n)).2.1, cmul,
      Nat.mul_zero, Nat.zero_mul, Nat.add_zero]

theorem fht1_operation_count_witness :
    ∃ stages : Nat → State Nat Int,
      stages 0 = initState (memOf [1, 2, 3, 4] [0, 0, 0, 0]) (extents 4 4) ∧
      fht1_base int32 5 0 1 4 (initState (memOf [1, 2, 3, 4] [0, 0, 0, 0]) (extents 4 4))
        = some (stages 1) ∧
      (∀ t, 1 ≤ t → t < 2 →
        fht1_stage int32 5 1 4 (2 ^ t) (stages t) = some (stages (t + 1))) ∧
      fht1 int32 5 [PyObject.ndarray ⟨0, [4]⟩, PyObject.ndarray ⟨1, [4]⟩]
        (initState (memOf [1, 2, 3, 4] [0, 0, 0, 0]) (extents 4 4))
        = some (PyReturn.double 1, stages 2) ∧
      (∀ t, t < 2 →
        countWrites (stages (t + 1)).log = countWrites (stages t).log + 2 * (4 / 2) ∧
        (stages (t + 1)).ops.length = (stages t).ops.length + 2 * (4 / 2) ∧
        List.count ArithOp.add (stages (t + 1)).ops
          = List.count ArithOp.add (stages t).ops + 4 / 2 ∧
        List.count ArithOp.sub (stages (t + 1)).ops
          = List.count ArithOp.sub (stages t).ops + 4 / 2 ∧
        List.count ArithOp.mul (stages (t + 1)).ops
          = List.count ArithOp.mul (stages t).ops) ∧
      ((0 : Nat) ≠ 1 → ∀ i, i < 4 →
        (stages 1).mem 1 i =
          if 1 &&& i = 0
          then int32.add ((initState (memOf [1, 2, 3, 4] [0, 0, 0, 0]) (extents 4 4)).mem 0 i)
            ((initState (memOf [1, 2, 3, 4] [0, 0, 0, 0]) (extents 4 4)).mem 0 (i ||| 1))
          else int32.sub
            ((initState (memOf [1, 2, 3, 4] [0, 0, 0, 0]) (extents 4 4)).mem 0 (i - 1))
            ((initState (memOf [1, 2, 3, 4] [0, 0, 0, 0]) (extents 4 4)).mem 0 i)) ∧
      (∀ t, 1 ≤ t → t < 2 → ∀ i, i < 4 →
        (stages (t + 1)).mem 1 i =
          if 2 ^ t &&& i = 0
          then int32.add ((stages t).mem 1 i) ((stages t).mem 1 (i ||| 2 ^ t))
          else int32.sub ((stages t).mem 1 (i - 2 ^ t)) ((stages t).mem 1 i)) ∧
      countWrites (stages 2).log
        = countWrites (initState (memOf [1, 2, 3, 4] [0, 0, 0, 0]) (extents 4 4)).log + 4 * 2 ∧
      (stages 2).ops.length
        = (initState (memOf [1, 2, 3, 4] [0, 0, 0, 0]) (extents 4 4)).ops.length + 4 * 2 ∧
      List.count ArithOp.add (stages 2).ops
        = List.count ArithOp.add
            (initState (memOf [1, 2, 3, 4] [0, 0, 0, 0]) (extents 4 4)).ops + 4 / 2 * 2 ∧
      List.count ArithOp.sub (stages 2).ops
        = List.count ArithOp.sub
            (initState (memOf [1, 2, 3, 4] [0, 0, 0, 0]) (extents 4 4)).ops + 4 / 2 * 2 ∧
      List.count ArithOp.mul (stages 2).ops
        = List.count ArithOp.mul
            (initState (memOf [1, 2, 3, 4] [0, 0, 0, 0]) (extents 4 4)).ops :=
  fht1_operation_count int32 ⟨0, [4]⟩ ⟨1, [4]⟩ 4 2 5
    (initState (memOf [1, 2, 3, 4] [0, 0, 0, 0]) (extents 4 4))
    rfl (by norm_num) (by norm_num) (by norm_num) (by norm_num) (by decide) (by decide) rfl

/-- C13: pairing arithmetic. For a power-of-two length `m`, a power-of-two stride with
`2 ≤ stride < m` and an index `j < m` with `(j AND stride) = 0`, the partner
`k = j OR stride` is `j + stride` and lies below `m`; the accesses of the butterfly that
`fht1` runs at `j` are those of the indices `j` and `j + stride`, all below `m`, so that on
an output of at least `m` elements the butterfly stays inside the array. -/
theorem fht1_stage_partner_in_bounds {α : Type} (A : CType α) (vout m n stride s j : Nat)
    (st : State Nat α)
    (hm : m = 2 ^ n) (hs : stride = 2 ^ s) (h2 : 2 ≤ stride) (hlt : stride < m)
    (hj : j < m) (hc : j &&& stride = 0) :
    j ||| stride = j + stride ∧ j ||| stride < m ∧
      (fht1_stage_body A vout stride j st).log = st.log ++
        [Access.read vout j, Access.read vout j, Access.read vout (j + stride),
         Access.write vout j, Access.read vout (j + stride),
         Access.write vout (j + stride)] ∧
      (∀ acc, acc ∈ (fht1_stage_body A vout stride j st).log →
        acc ∈ st.log ∨ acc.index < m) ∧
      ((∀ i, i < m → st.valid vout i = true) →
        (fht1_stage_body A vout stride j st).ub = st.ub) := by
  subst hm hs
  have hsn : s < n := (Nat.pow_lt_pow_iff_right (by norm_num)).mp hlt
  have hc' : 2 ^ s &&& j = 0 := by rw [Nat.and_comm]; exact hc
  have hor := or_two_pow_of_clear hc'
  have hk := add_two_pow_lt hsn hj hc'
  have hlog : (fht1_stage_body A vout (2 ^ s) j st).log = st.log ++
      [Access.read vout j, Access.read vout j, Access.read vout (j + 2 ^ s),
       Access.write vout j, Access.read vout (j + 2 ^ s), Access.write vout (j + 2 ^ s)] := by
    rw [fht1_stage_body_log, if_pos hc', hor]
  refine ⟨hor, hor ▸ hk, hlog, ?_, ?_⟩
  · intro acc hacc
    rw [hlog, List.mem_append] at hacc
    rcases hacc with h | h
    · exact Or.inl h
    · right
      simp only [List.mem_cons, List.mem_singleton, List.not_mem_nil, or_false] at h
      rcases h with rfl | rfl | rfl | rfl | rfl | rfl <;> simp only [Access.index] <;> omega
  · intro hv
    have hr := fht1_stage_body_ran A vout (2 ^ s) j st
    rw [if_pos hc', if_pos hc', hor] at hr
    refine ran_ub_of_inside hr ?_
    intro acc h
    simp only [List.mem_cons, List.mem_singleton, List.not_mem_nil, or_false] at h
    rcases h with rfl | rfl | rfl | rfl | rfl | rfl <;>
      simp only [Access.index, Access.buffer] <;> apply hv <;> omega

theorem fht1_stage_partner_in_bounds_witness :
    5 ||| 2 = 5 + 2 ∧ 5 ||| 2 < 8 ∧
      (fht1_stage_body int32 1 2 5
          (initState (memOf [] [1, 2, 3, 4, 5, 6, 7, 8]) (extents 0 8))).log =
        (initState (memOf [] [1, 2, 3, 4, 5, 6, 7, 8]) (extents 0 8)).log ++
        [Access.read 1 5, Access.read 1 5, Access.read 1 (5 + 2),
         Access.write 1 5, Access.read 1 (5 + 2), Access.write 1 (5 + 2)] ∧
      (∀ acc, acc ∈ (fht1_stage_body int32 1 2 5
          (initState (memOf [] [1, 2, 3, 4, 5, 6, 7, 8]) (extents 0 8))).log →
        acc ∈ (initState (memOf [] [1, 2, 3, 4, 5, 6, 7, 8]) (extents 0 8)).log ∨
          acc.index < 8) ∧
      ((∀ i, i < 8 →
          (initState (memOf [] [1, 2, 3, 4, 5, 6, 7, 8]) (extents 0 8)).valid 1 i = true) →
        (fht1_stage_body int32 1 2 5
          (initState (memOf [] [1, 2, 3, 4, 5, 6, 7, 8]) (extents 0 8))).ub =
          (initState (memOf [] [1, 2, 3, 4, 5, 6, 7, 8]) (extents 0 8)).ub) :=
  fht1_stage_partner_in_bounds int32 1 8 3 2 1 5
    (initState (memOf [] [1, 2, 3, 4, 5, 6, 7, 8]) (extents 0 8))
    (by norm_num) (by norm_num) (by norm_num) (by norm_num) (by norm_num) (by decide)

/-- C14: stage partition. For a power-of-two length `m = 2 ^ n ≥ 2` and each stage of `fht1`
(stride `2 ^ s` with `s < n`; the first loop is the stage of stride 1), every index below `m`
belongs to exactly one butterfly `(j, j + stride)` with `j < m` and the stride bit of `j`
clear, `j ↦ j OR stride` is a bijection from the indices below `m` with the stride bit clear
onto those with it set, and the stage stores to every index below `m` exactly once. -/
theorem fht1_stage_partition {α : Type} (A : CType α) (vin vout m n s fuel : Nat)
    (st : State Nat α)
    (hm : m = 2 ^ n) (_h2 : 2 ≤ m) (hint : m < 2 ^ 31) (hs : s < n) (hf : m < fuel) :
    (∀ i, i < m → ∃! j, j < m ∧ 2 ^ s &&& j = 0 ∧ (i = j ∨ i = j + 2 ^ s)) ∧
    Set.BijOn (fun j => j ||| 2 ^ s) {j | j < m ∧ 2 ^ s &&& j = 0}
      {k | k < m ∧ 2 ^ s &&& k ≠ 0} ∧
    ∃ st', (if s = 0 then fht1_base A fuel vin vout m st
        else fht1_stage A fuel vout m (2 ^ s) st) = some st' ∧
      ∀ i, i < m →
        st'.log.count (Access.write vout i) = st.log.count (Access.write vout i) + 1 := by
  have heven : m % 2 = 0 := by
    obtain ⟨k, rfl⟩ : ∃ k, n = k + 1 := ⟨n - 1, by omega⟩
    rw [hm, pow_succ]; omega
  refine ⟨?_, ⟨?_, ?_, ?_⟩, ?_⟩
  · intro i hi
    refine ⟨lowPartner (2 ^ s) i,
      ⟨lt_of_le_of_lt (lowPartner_le _ i) hi, lowPartner_clear s i,
        (lowPartner_eq_iff (lowPartner_clear s i)).mp rfl⟩, ?_⟩
    rintro j ⟨_, hj, hij⟩
    exact ((lowPartner_eq_iff hj).mpr hij).symm
  · rintro j ⟨hj, hc⟩
    have hor := or_two_pow_of_clear hc
    have hk : j + 2 ^ s < m := by rw [hm] at hj ⊢; exact add_two_pow_lt hs hj hc
    show j ||| 2 ^ s < m ∧ 2 ^ s &&& (j ||| 2 ^ s) ≠ 0
    rw [hor]
    exact ⟨hk, set_add_of_clear hc⟩
  · rintro j1 ⟨_, hc1⟩ j2 ⟨_, hc2⟩ h
    have h' : j1 ||| 2 ^ s = j2 ||| 2 ^ s := h
    rw [or_two_pow_of_clear hc1, or_two_pow_of_clear hc2] at h'
    omega
  · rintro k ⟨hk, hset⟩
    have hle := two_pow_le_of_set hset
    have hc := clear_sub_of_set hset
    refine ⟨k - 2 ^ s, ⟨lt_of_le_of_lt (Nat.sub_le _ _) hk, hc⟩, ?_⟩
    show (k - 2 ^ s) ||| 2 ^ s = k
    rw [or_two_pow_of_clear hc, Nat.sub_add_cancel hle]
  · by_cases h0 : s = 0
    · rw [if_pos h0]
      refine ⟨_, fht1_base_eq A fuel vin vout m st hint hf, fun i hi => ?_⟩
      rw [basePass_count_write A vin vout m i st hint, if_pos (by omega)]
    · rw [if_neg h0]
      refine ⟨_, fht1_stage_eq A fuel vout m (2 ^ s) st hint hf, fun i hi => ?_⟩
      rw [stagePass_count_write, if_pos (lt_of_le_of_lt (lowPartner_le _ i) hi)]

theorem fht1_stage_partition_witness :
    (∀ i, i < 8 → ∃! j, j < 8 ∧ 2 ^ 1 &&& j = 0 ∧ (i = j ∨ i = j + 2 ^ 1)) ∧
    Set.BijOn (fun j => j ||| 2 ^ 1) {j | j < 8 ∧ 2 ^ 1 &&& j = 0}
      {k | k < 8 ∧ 2 ^ 1 &&& k ≠ 0} ∧
    ∃ st', (if 1 = 0 then fht1_base int32 9 0 1 8
          (initState (memOf [] [1, 2, 3, 4, 5, 6, 7, 8]) (extents 0 8))
        else fht1_stage int32 9 1 8 (2 ^ 1)
          (initState (memOf [] [1, 2, 3, 4, 5, 6, 7, 8]) (extents 0 8)))
        = some st' ∧
      ∀ i, i < 8 →
        st'.log.count (Access.write 1 i) =
          (initState (memOf [] [1, 2, 3, 4, 5, 6, 7, 8]) (extents 0 8)).log.count
            (Access.write 1 i) + 1 :=
  fht1_stage_partition int32 0 1 8 3 1 9
    (initState (memOf [] [1, 2, 3, 4, 5, 6, 7, 8]) (extents 0 8))
    (by norm_num) (by norm_num) (by norm_num) (by norm_num) (by norm_num)

/-- C15: row independence and order independence of `fht2`. For a power-of-two row length
`≥ 2` and matrices that have these rows: the transform of row `i` reads only row `i` of the
input and of the output and stores only to row `i` of the output, at columns below the row
length; row `i` of what `fht2` leaves is the same for two initial states that agree on row
`i`, whatever the other rows hold; and taking the rows in the order of any permutation of
`0, ..., rowCount - 1` leaves the same memory as `fht2`. -/
theorem fht2_rows_independent {α : Type} (A : CType α) (arr1 oarr : PyArrayObject)
    (rowCount rowLength n fuel i : Nat) (s t : State (Nat × Nat) α) (rows : List Nat)
    (hd1 : arr1.dimensions.getD 0 0 = rowCount) (hd2 : arr1.dimensions.getD 1 0 = rowLength)
    (hm : rowLength = 2 ^ n) (hlen : 2 ≤ rowLength) (hint : rowLength < 2 ^ 31)
    (hrows : rowCount < 2 ^ 31) (hf1 : rowCount < fuel) (hf2 : rowLength < fuel)
    (hv1 : ∀ r, r < rowCount → ∀ c, c < rowLength → s.valid arr1.data (r, c) = true)
    (hv2 : ∀ r, r < rowCount → ∀ c, c < rowLength → s.valid oarr.data (r, c) = true)
    (hub : s.ub = false) (hvt : t.valid = s.valid) (hubt : t.ub = false)
    (hi : i < rowCount) (hagree : ∀ a c, t.mem a (i, c) = s.mem a (i, c))
    (hperm : rows.Perm (List.range rowCount)) :
    (∃ s1 l, fht2_row A fuel arr1.data oarr.data rowLength i s = some s1 ∧
      s1.log = s.log ++ l ∧
      (∀ acc, acc ∈ l → ∃ c, c < rowLength ∧
        (acc = Access.read arr1.data (i, c) ∨ acc = Access.read oarr.data (i, c) ∨
          acc = Access.write oarr.data (i, c))) ∧
      s1.ub = false) ∧
    ∃ s' t' s'',
      fht2 A fuel [PyObject.ndarray arr1, PyObject.ndarray oarr] s
        = some (PyReturn.double 1, s') ∧
      fht2 A fuel [PyObject.ndarray arr1, PyObject.ndarray oarr] t
        = some (PyReturn.double 1, t') ∧
      fht2_rows_in A fuel arr1.data oarr.data rowLength rows s = some s'' ∧
      (∀ a c, t'.mem a (i, c) = s'.mem a (i, c)) ∧
      s''.mem = s'.mem := by
  obtain ⟨hn1, hn⟩ := pow_two_bounds30 hm hlen hint
  subst hm
  refine ⟨?_, ?_⟩
  · obtain ⟨s1, l, e, hl, hacc, hu⟩ :=
      fht2_row_accesses A fuel arr1.data oarr.data n i s hn1 hn hf2
    exact ⟨s1, l, e, hl, hacc, (hu (hv1 i hi) (hv2 i hi)).trans hub⟩
  · have hnd : (List.range rowCount).Nodup := List.nodup_range _
    obtain ⟨s', es, ers, _⟩ := fht2_pow_returns A arr1 oarr rowCount n fuel s hd1 hd2 hn1 hn
      hrows hf1 hf2 hv1 hv2 hub
    obtain ⟨t', et, ert, _⟩ := fht2_pow_returns A arr1 oarr rowCount n fuel t hd1 hd2 hn1 hn
      hrows hf1 hf2 (by rw [hvt]; exact hv1) (by rw [hvt]; exact hv2) hubt
    obtain ⟨s3, es3, ps1, ps2, _⟩ := fht2_rows_in_spec A fuel arr1.data oarr.data (2 ^ n) hint
      hf2 (List.range rowCount) s hnd
    obtain ⟨t3, et3, pt1, _⟩ := fht2_rows_in_spec A fuel arr1.data oarr.data (2 ^ n) hint
      hf2 (List.range rowCount) t hnd
    obtain ⟨s'', ep, pp1, pp2, _⟩ := fht2_rows_in_spec A fuel arr1.data oarr.data (2 ^ n) hint
      hf2 rows s (hperm.nodup_iff.mpr hnd)
    have h1 : s3 = s' := Option.some.inj (es3.symm.trans ers)
    have h2 : t3 = t' := Option.some.inj (et3.symm.trans ert)
    subst h1 h2
    refine ⟨s3, t3, s'', es, et, ep, ?_, ?_⟩
    · intro a c
      obtain ⟨s1, hs1⟩ := fht1_loops_return A fuel arr1.data oarr.data (2 ^ n) (rowState i s)
        hint hf2
      have hst : rowState i t = rowState i s := by
        unfold rowState
        rw [hvt]
        congr 1
        funext a c
        exact hagree a c
      rw [ps1 i (List.mem_range.mpr hi) s1 hs1 a c,
        pt1 i (List.mem_range.mpr hi) s1 (by rw [hst]; exact hs1) a c]
    · funext a p
      obtain ⟨r, c⟩ := p
      by_cases hr : r < rowCount
      · obtain ⟨s1, hs1⟩ := fht1_loops_return A fuel arr1.data oarr.data (2 ^ n)
          (rowState r s) hint hf2
        rw [ps1 r (List.mem_range.mpr hr) s1 hs1 a c,
          pp1 r (hperm.mem_iff.mpr (List.mem_range.mpr hr)) s1 hs1 a c]
      · rw [ps2 r (fun h => hr (List.mem_range.mp h)) a c,
          pp2 r (fun h => hr (List.mem_range.mp (hperm.mem_iff.mp h))) a c]

theorem fht2_rows_independent_witness :
    (∃ s1 l, fht2_row int32 5 0 1 4 1
        (initState (memOf2 [[1, 2, 3, 4], [5, 6, 7, 8], [9, 10, 11, 12]] []) (extents2 3 4))
        = some s1 ∧
      s1.log = (initState (memOf2 [[1, 2, 3, 4], [5, 6, 7, 8], [9, 10, 11, 12]] [])
        (extents2 3 4)).log ++ l ∧
      (∀ acc, acc ∈ l → ∃ c, c < 4 ∧
        (acc = Access.read 0 (1, c) ∨ acc = Access.read 1 (1, c) ∨
          acc = Access.write 1 (1, c))) ∧
      s1.ub = false) ∧
    ∃ s' t' s'',
      fht2 int32 5 [PyObject.ndarray ⟨0, [3, 4]⟩, PyObject.ndarray ⟨1, [3, 4]⟩]
        (initState (memOf2 [[1, 2, 3, 4], [5, 6, 7, 8], [9, 10, 11, 12]] []) (extents2 3 4))
        = some (PyReturn.double 1, s') ∧
      fht2 int32 5 [PyObject.ndarray ⟨0, [3, 4]⟩, PyObject.ndarray ⟨1, [3, 4]⟩]
        (initState (memOf2 [[0, 0, 0, 0], [5, 6, 7, 8], [7, 7, 7, 7]] []) (extents2 3 4))
        = some (PyReturn.double 1, t') ∧
      fht2_rows_in int32 5 0 1 4 [2, 0, 1]
        (initState (memOf2 [[1, 2, 3, 4], [5, 6, 7, 8], [9, 10, 11, 12]] []) (extents2 3 4))
        = some s'' ∧
      (∀ a c, t'.mem a (1, c) = s'.mem a (1, c)) ∧
      s''.mem = s'.mem :=
  fht2_rows_independent int32 ⟨0, [3, 4]⟩ ⟨1, [3, 4]⟩ 3 4 2 5 1
    (initState (memOf2 [[1, 2, 3, 4], [5, 6, 7, 8], [9, 10, 11, 12]] []) (extents2 3 4))
    (initState (memOf2 [[0, 0, 0, 0], [5, 6, 7, 8], [7, 7, 7, 7]] []) (extents2 3 4))
    [2, 0, 1]
    rfl rfl (by norm_num) (by norm_num) (by norm_num) (by norm_num) (by norm_num)
    (by norm_num) (by decide) (by decide) rfl rfl rfl (by norm_num)
    (by intro a c; simp [initState, memOf2]) (by decide)

/-- C16: linearity. For a power-of-two length `m ≥ 2` and elements that stand for integers of
magnitude at most `b` in an arithmetic that is exact up to `B ≥ m * b`, for vectors `x`, `y`
and an integer `c` such that `x`, `y`, `x + y` and `c * x` are within that magnitude: the
output of `fht1` for the input `x + y` is the sum of its outputs for `x` and for `y`, and
its output for `c * x` is `c` times its output for `x`, element by element. -/
theorem fht1_linear {α : Type} (A : CType α) (dom : α → Prop) (val : α → Int) (B b : Int)
    (vin vout : PyArrayObject) (m n fuel : Nat) (c : Int)
    (sx sy sz sc : State Nat α) (hex : ExactUpTo A dom val B) (hd : vin.data ≠ vout.data)
    (hdim : vin.dimensions.getD 0 0 = m) (hm : m = 2 ^ n) (h2 : 2 ≤ m) (hint : m < 2 ^ 31)
    (hf : m < fuel)
    (hrx : Ready sx vin vout m) (hry : Ready sy vin vout m) (hrz : Ready sz vin vout m)
    (hrc : Ready sc vin vout m)
    (hbx : ∀ j, j < m → dom (sx.mem vin.data j) ∧ |val (sx.mem vin.data j)| ≤ b)
    (hby : ∀ j, j < m → dom (sy.mem vin.data j) ∧ |val (sy.mem vin.data j)| ≤ b)
    (hbz : ∀ j, j < m → dom (sz.mem vin.data j) ∧ |val (sz.mem vin.data j)| ≤ b)
    (hbc : ∀ j, j < m → dom (sc.mem vin.data j) ∧ |val (sc.mem vin.data j)| ≤ b)
    (hB : (m : Int) * b ≤ B)
    (hadd : ∀ j, j < m →
      val (sz.mem vin.data j) = val (sx.mem vin.data j) + val (sy.mem vin.data j))
    (hsmul : ∀ j, j < m → val (sc.mem vin.data j) = c * val (sx.mem vin.data j)) :
    ∃ sx' sy' sz' sc',
      fht1 A fuel [PyObject.ndarray vin, PyObject.ndarray vout] sx
        = some (PyReturn.double 1, sx') ∧
      fht1 A fuel [PyObject.ndarray vin, PyObject.ndarray vout] sy
        = some (PyReturn.double 1, sy') ∧
      fht1 A fuel [PyObject.ndarray vin, PyObject.ndarray vout] sz
        = some (PyReturn.double 1, sz') ∧
      fht1 A fuel [PyObject.ndarray vin, PyObject.ndarray vout] sc
        = some (PyReturn.double 1, sc') ∧
      ∀ i, i < m →
        val (sz'.mem vout.data i) = val (sx'.mem vout.data i) + val (sy'.mem vout.data i) ∧
        val (sc'.mem vout.data i) = c * val (sx'.mem vout.data i) := by
  obtain ⟨sx', ex, _, hx, _⟩ := fht1_bounded_spec A dom val B b vin vout m n fuel sx hex
    hd hdim hm h2 hint hf hrx.1 hrx.2.1 hrx.2.2 hbx hB
  obtain ⟨sy', ey, _, hy, _⟩ := fht1_bounded_spec A dom val B b vin vout m n fuel sy hex
    hd hdim hm h2 hint hf hry.1 hry.2.1 hry.2.2 hby hB
  obtain ⟨sz', ez, _, hz, _⟩ := fht1_bounded_spec A dom val B b vin vout m n fuel sz hex
    hd hdim hm h2 hint hf hrz.1 hrz.2.1 hrz.2.2 hbz hB
  obtain ⟨sc', ec, _, hc, _⟩ := fht1_bounded_spec A dom val B b vin vout m n fuel sc hex
    hd hdim hm h2 hint hf hrc.1 hrc.2.1 hrc.2.2 hbc hB
  refine ⟨sx', sy', sz', sc', ex, ey, ez, ec, fun i hi => ⟨?_, ?_⟩⟩
  · rw [(hz i hi).2, (hx i hi).2, (hy i hi).2, ← wht_add]
    exact wht_congr _ _ _ hadd i
  · rw [(hc i hi).2, (hx i hi).2, ← wht_smul]
    exact wht_congr _ _ _ hsmul i

theorem fht1_linear_witness :
    ∃ sx' sy' sz' sc',
      fht1 int32 5 [PyObject.ndarray ⟨0, [4]⟩, PyObject.ndarray ⟨1, [4]⟩]
        (initState (memOf [1, 2, 3, 4] []) (extents 4 4)) = some (PyReturn.double 1, sx') ∧
      fht1 int32 5 [PyObject.ndarray ⟨0, [4]⟩, PyObject.ndarray ⟨1, [4]⟩]
        (initState (memOf [5, 0, -1, 2] []) (extents 4 4)) = some (PyReturn.double 1, sy') ∧
      fht1 int32 5 [PyObject.ndarray ⟨0, [4]⟩, PyObject.ndarray ⟨1, [4]⟩]
        (initState (memOf [6, 2, 2, 6] []) (extents 4 4)) = some (PyReturn.double 1, sz') ∧
      fht1 int32 5 [PyObject.ndarray ⟨0, [4]⟩, PyObject.ndarray ⟨1, [4]⟩]
        (initState (memOf [3, 6, 9, 12] []) (extents 4 4)) = some (PyReturn.double 1, sc') ∧
      ∀ i, i < 4 → id (sz'.mem 1 i) = id (sx'.mem 1 i) + id (sy'.mem 1 i) ∧
        id (sc'.mem 1 i) = 3 * id (sx'.mem 1 i) :=
  fht1_linear int32 (fun _ => True) id (2 ^ 31 - 1) 12 ⟨0, [4]⟩ ⟨1, [4]⟩ 4 2 5 3
    (initState (memOf [1, 2, 3, 4] []) (extents 4 4))
    (initState (memOf [5, 0, -1, 2] []) (extents 4 4))
    (initState (memOf [6, 2, 2, 6] []) (extents 4 4))
    (initState (memOf [3, 6, 9, 12] []) (extents 4 4)) int32_exact (by decide) rfl
    (by norm_num) (by norm_num) (by norm_num) (by norm_num)
    ⟨by decide, by decide, rfl⟩ ⟨by decide, by decide, rfl⟩ ⟨by decide, by decide, rfl⟩
    ⟨by decide, by decide, rfl⟩ (by decide) (by decide) (by decide) (by decide) (by norm_num)
    (by decide) (by decide)

/-- C17: symmetry. For a power-of-two length `m ≥ 2`, an arithmetic that is exact on the
integers of magnitude at most 1, and indices `i`, `j` below `m`, element `j` of the output
of `fht1` for the unit vector `e_i` equals element `i` of its output for the unit vector
`e_j`. -/
theorem fht1_symmetric {α : Type} (A : CType α) (dom : α → Prop) (val : α → Int)
    (vin vout : PyArrayObject) (m n fuel i j : Nat)
    (si sj : State Nat α) (hex : ExactUpTo A dom val 1) (hd : vin.data ≠ vout.data)
    (hdim : vin.dimensions.getD 0 0 = m) (hm : m = 2 ^ n) (h2 : 2 ≤ m) (hint : m < 2 ^ 31)
    (hf : m < fuel) (hi : i < m) (hj : j < m)
    (hri : Ready si vin vout m) (hrj : Ready sj vin vout m)
    (hdi : ∀ k, k < m → dom (si.mem vin.data k))
    (hdj : ∀ k, k < m → dom (sj.mem vin.data k))
    (hei : ∀ k, k < m → val (si.mem vin.data k) = if k = i then 1 else 0)
    (hej : ∀ k, k < m → val (sj.mem vin.data k) = if k = j then 1 else 0) :
    ∃ si' sj',
      fht1 A fuel [PyObject.ndarray vin, PyObject.ndarray vout] si
        = some (PyReturn.double 1, si') ∧
      fht1 A fuel [PyObject.ndarray vin, PyObject.ndarray vout] sj
        = some (PyReturn.double 1, sj') ∧
      val (si'.mem vout.data j) = val (sj'.mem vout.data i) := by
  obtain ⟨hn1, hn⟩ := pow_two_bounds30 hm h2 hint
  subst hm
  obtain ⟨si', e1, _, h1, _⟩ := fht1_exact_spec A dom val 1 vin vout n fuel si hex hd hdim hn1
    hn hf hri.1 hri.2.1 hri.2.2 hdi
    (fun s _ hs k hk => abs_blockWht_unit (fun j => val (si.mem vin.data j)) hs hk hei)
  obtain ⟨sj', e2, _, h2', _⟩ := fht1_exact_spec A dom val 1 vin vout n fuel sj hex hd hdim hn1
    hn hf hrj.1 hrj.2.1 hrj.2.2 hdj
    (fun s _ hs k hk => abs_blockWht_unit (fun j => val (sj.mem vin.data j)) hs hk hej)
  refine ⟨si', sj', e1, e2, ?_⟩
  rw [(h1 j hj).2, (h2' i hi).2, wht_unit _ i j _ hi hei, wht_unit _ j i _ hj hej,
    Nat.and_comm]

theorem fht1_symmetric_witness :
    ∃ si' sj',
      fht1 int32 5 [PyObject.ndarray ⟨0, [4]⟩, PyObject.ndarray ⟨1, [4]⟩]
        (initState (unitMem 0 1) (extents 4 4)) = some (PyReturn.double 1, si') ∧
      fht1 int32 5 [PyObject.ndarray ⟨0, [4]⟩, PyObject.ndarray ⟨1, [4]⟩]
        (initState (unitMem 0 3) (extents 4 4)) = some (PyReturn.double 1, sj') ∧
      id (si'.mem 1 3) = id (sj'.mem 1 1) :=
  fht1_symmetric int32 (fun _ => True) id ⟨0, [4]⟩ ⟨1, [4]⟩ 4 2 5 1 3
    (initState (unitMem 0 1) (extents 4 4)) (initState (unitMem 0 3) (extents 4 4))
    (int32_exact.mono (by norm_num))
    (by decide) rfl (by norm_num) (by norm_num) (by norm_num) (by norm_num) (by norm_num)
    (by norm_num) ⟨by decide, by decide, rfl⟩ ⟨by decide, by decide, rfl⟩
    (fun _ _ => trivial) (fun _ _ => trivial)
    (by intro k _; simp [initState, unitMem]) (by intro k _; simp [initState, unitMem])

/-- C18: bounds characterisation. For a length `1 ≤ m < 2 ^ 31` and a call that starts with
an empty access log, every index that `fht1` reads or writes lies below `m` if and only if
`m` is a power of two with `m ≥ 2`. For odd `m` (so for `m = 1`) the first loop reads
`input[m]`; for even `m` that is not a power of two a pass at a stride `2 ^ s` with
`2 ≤ 2 ^ s < m` runs the butterfly of some `j < m` with the stride bit clear whose partner
`k = j OR stride` is not below `m`, and stores to `output[k]`. The call gives no error: its
result is the float `1.0` unless an access has left the buffers; on arrays whose buffers
hold exactly `m` elements the result is the float `1.0` if and only if `m` is a power of two
with `m ≥ 2`, and the behaviour is undefined otherwise. -/
theorem fht1_in_bounds_iff {α : Type} (A : CType α) (vin vout : PyArrayObject)
    (m fuel : Nat) (st : State Nat α)
    (hdim : vin.dimensions.getD 0 0 = m) (hm1 : 1 ≤ m) (hint : m < 2 ^ 31) (hf : m < fuel)
    (hlog : st.log = []) :
    ∃ st', fht1 A fuel [PyObject.ndarray vin, PyObject.ndarray vout] st
        = some (if st'.ub = true then PyReturn.undefined else PyReturn.double 1, st') ∧
      ((∀ acc, acc ∈ st'.log → acc.index < m) ↔ (∃ n, m = 2 ^ n ∧ 2 ≤ m)) ∧
      (m % 2 = 1 → Access.read vin.data m ∈ st'.log) ∧
      (m % 2 = 0 → (¬ ∃ n, m = 2 ^ n) →
        ∃ s j, 2 ≤ 2 ^ s ∧ 2 ^ s < m ∧ j < m ∧ 2 ^ s &&& j = 0 ∧ m ≤ j ||| 2 ^ s ∧
          Access.write vout.data (j ||| 2 ^ s) ∈ st'.log) ∧
      ((∀ i, st.valid vin.data i = decide (i < m)) →
        (∀ i, st.valid vout.data i = decide (i < m)) → st.ub = false →
        (st'.ub = false ↔ (∃ n, m = 2 ^ n ∧ 2 ≤ m))) := by
  obtain ⟨K, hK, hK1, hK2, _⟩ := exists_stride_count m (by omega)
  obtain ⟨rest, hdims⟩ := dims_of_getD hdim hm1
  have e := fht1_eq_passes A vin vout m K fuel rest st hdims hint hf hK hK1 hK2
  obtain ⟨lb, hlb⟩ := basePass_log_append A vin.data vout.data m st
  obtain ⟨ls, hls⟩ := stages_log_append A vout.data m K (basePass A vin.data vout.data m st)
  have hodd : m % 2 = 1 → Access.read vin.data m ∈
      (runSeq (fun bit s => stagePass A vout.data m bit s) (fun t => 2 ^ (t + 1)) K 0
        (basePass A vin.data vout.data m st)).log := by
    intro h
    obtain ⟨l, hl, hmem⟩ := basePass_reads_past_end A vin.data vout.data m st h hint
    rw [hls, hl]
    exact List.mem_append_left _ (List.mem_append_right _ hmem)
  have heven : m % 2 = 0 → (¬ ∃ n, m = 2 ^ n) →
      ∃ s j, 2 ≤ 2 ^ s ∧ 2 ^ s < m ∧ j < m ∧ 2 ^ s &&& j = 0 ∧ m ≤ j ||| 2 ^ s ∧
        Access.write vout.data (j ||| 2 ^ s) ∈
          (runSeq (fun bit s => stagePass A vout.data m bit s) (fun t => 2 ^ (t + 1)) K 0
            (basePass A vin.data vout.data m st)).log := by
    intro h hnp
    have hK0 : 1 ≤ K := by
      rcases Nat.eq_zero_or_pos K with h0 | h0
      · subst h0
        have : m = 2 := by simp at hK2; omega
        exact absurd ⟨1, by simpa using this⟩ hnp
      · exact h0
    have h1 : 2 ^ K < m := by
      have := hK1 (K - 1) (by omega)
      rwa [Nat.sub_add_cancel hK0] at this
    have h2 : m < 2 ^ (K + 1) := lt_of_le_of_ne hK2 (fun h' => hnp ⟨K + 1, h'⟩)
    have hp : 2 ^ (K + 1) = 2 ^ K * 2 := pow_succ 2 K
    have hj : m - 2 ^ K < 2 ^ K := by omega
    have hc : 2 ^ K &&& (m - 2 ^ K) = 0 := by
      rw [Nat.and_comm]; exact and_two_pow_of_lt hj
    have hor : (m - 2 ^ K) ||| 2 ^ K = m := by
      rw [or_two_pow_of_clear hc, Nat.sub_add_cancel (le_of_lt h1)]
    have h2K : 2 ≤ 2 ^ K := by
      have := Nat.pow_le_pow_right (show 0 < 2 by norm_num) hK0
      simpa using this
    refine ⟨K, m - 2 ^ K, h2K, h1, by omega, hc, by rw [hor], ?_⟩
    rw [hor]
    obtain ⟨l, hl, hmem⟩ := runSeq_log_mem (fun bit s => stagePass A vout.data m bit s)
      (fun t => 2 ^ (t + 1)) (fun bit s => stagePass_log_append A vout.data m bit s)
      (Access.write vout.data m) (K - 1)
      (fun s => by
        simp only [Nat.sub_add_cancel hK0]
        exact stagePass_writes_past_end A vout.data m K s h1 h2)
      K 0 (basePass A vin.data vout.data m st) (by omega) (by omega)
    rw [hl]
    exact List.mem_append_right _ hmem
  refine ⟨_, e, ⟨?_, ?_⟩, hodd, heven, ?_⟩
  · intro hall
    have hev : m % 2 = 0 := by
      rcases Nat.mod_two_eq_zero_or_one m with h | h
      · exact h
      · have := hall _ (hodd h)
        simp only [Access.index] at this
        omega
    by_cases hp : ∃ n, m = 2 ^ n
    · obtain ⟨n, hn⟩ := hp
      exact ⟨n, hn, by omega⟩
    · obtain ⟨s, j, _, _, _, _, hge, hmem⟩ := heven hev hp
      have := hall _ hmem
      simp only [Access.index] at this
      omega
  · rintro ⟨n, hn, h2⟩ acc hacc
    obtain ⟨hn1, hn30⟩ := pow_two_bounds30 hn h2 hint
    subst hn
    have e2 := fht1_eq_passes A vin vout (2 ^ n) (n - 1) fuel rest st hdims hint hf (by omega)
      (fun t ht => Nat.pow_lt_pow_right (by norm_num) (by omega))
      (by rw [Nat.sub_add_cancel hn1])
    rw [e] at e2
    have e3 := (Prod.mk.inj (Option.some.inj e2)).2
    rw [e3] at hacc
    rcases passes_in_bounds A vin.data vout.data n st hn1 hn30 acc hacc with h | h
    · rw [hlog] at h
      exact absurd h (List.not_mem_nil _)
    · exact h
  · intro hv1 hv2 hub
    constructor
    · intro hdef
      by_contra hnp
      have := passes_undefined A vin.data vout.data m K st hint hK1 hK2 hm1 hnp
        (by rw [hv1]; simp) (by rw [hv2]; simp)
      rw [this] at hdef
      exact absurd hdef (by simp)
    · rintro ⟨n, hn, h2⟩
      obtain ⟨hn1, hn30⟩ := pow_two_bounds30 hn h2 hint
      subst hn
      have e2 := fht1_eq_passes A vin vout (2 ^ n) (n - 1) fuel rest st hdims hint hf
        (by omega) (fun t ht => Nat.pow_lt_pow_right (by norm_num) (by omega))
        (by rw [Nat.sub_add_cancel hn1])
      rw [e] at e2
      have e3 := (Prod.mk.inj (Option.some.inj e2)).2
      rw [e3]
      rw [(passes_defined A vin.data vout.data n st hn1 hn30
        (fun i hi => by rw [hv1]; exact decide_eq_true hi)
        (fun i hi => by rw [hv2]; exact decide_eq_true hi)).1]
      exact hub

theorem fht1_in_bounds_iff_witness :
    ∃ st', fht1 int32 7 [PyObject.ndarray ⟨0, [6]⟩, PyObject.ndarray ⟨1, [6]⟩]
        (initState (memOf [1, 2, 3, 4, 5, 6] []) (extents 6 6))
        = some (if st'.ub = true then PyReturn.undefined else PyReturn.double 1, st') ∧
      ((∀ acc, acc ∈ st'.log → acc.index < 6) ↔ (∃ n, 6 = 2 ^ n ∧ 2 ≤ 6)) ∧
      (6 % 2 = 1 → Access.read 0 6 ∈ st'.log) ∧
      (6 % 2 = 0 → (¬ ∃ n, 6 = 2 ^ n) →
        ∃ s j, 2 ≤ 2 ^ s ∧ 2 ^ s < 6 ∧ j < 6 ∧ 2 ^ s &&& j = 0 ∧ 6 ≤ j ||| 2 ^ s ∧
          Access.write 1 (j ||| 2 ^ s) ∈ st'.log) ∧
      ((∀ i, (initState (memOf [1, 2, 3, 4, 5, 6] []) (extents 6 6)).valid 0 i
          = decide (i < 6)) →
        (∀ i, (initState (memOf [1, 2, 3, 4, 5, 6] []) (extents 6 6)).valid 1 i
          = decide (i < 6)) →
        (initState (memOf [1, 2, 3, 4, 5, 6] []) (extents 6 6)).ub = false →
        (st'.ub = false ↔ (∃ n, 6 = 2 ^ n ∧ 2 ≤ 6))) :=
  fht1_in_bounds_iff int32 ⟨0, [6]⟩ ⟨1, [6]⟩ 6 7
    (initState (memOf [1, 2, 3, 4, 5, 6] []) (extents 6 6))
    rfl (by norm_num) (by norm_num) (by norm_num) rfl

/-- C19: stride-loop termination. With `bit` an `unsigned` updated by `bit <<= 1` modulo
`2 ^ 32` and `dim0 < 2 ^ 31`, the loop `for (bit = 2; bit < dim0; bit <<= 1)` of `fht1` and
`fht2` returns for every fuel of 31 or more: its body (any body that returns) runs at
`bit = 2, 4, ..., 2 ^ K` for some `K ≤ 30`, and no shift wraps, each gives twice the value
of `bit`. For `dim0 = 2 ^ n ≥ 2` the number of iterations is `K = n - 1`, the last value of
`bit` in the body being `dim0 / 2`. -/
theorem stride_loop_terminates {σ α : Type} (A : CType α) (f : Nat → σ → σ) (dim0 : Nat)
    (s : σ) (hdim : dim0 < 2 ^ 31) :
    ∃ K, K ≤ 30 ∧
      (∀ t, t < K → 2 ^ (t + 1) < dim0 ∧ u32 (2 ^ (t + 1) <<< 1) = 2 * 2 ^ (t + 1) ∧
        u32 (2 ^ (t + 1) <<< 1) ≠ 0) ∧
      (∀ fuel, 31 ≤ fuel →
        forLoop (fun bit => decide (bit < dim0)) (fun bit => u32 (bit <<< 1))
          (fun bit s => some (f bit s)) fuel 2 s
          = some (runSeq f (fun t => 2 ^ (t + 1)) K 0 s)) ∧
      (∀ fuel vout (st : State Nat α), 31 ≤ fuel → dim0 < fuel →
        fht1_stages A fuel vout dim0 st
          = some (runSeq (fun bit s => stagePass A vout dim0 bit s) (fun t => 2 ^ (t + 1)) K 0
              st)) ∧
      (∀ n, dim0 = 2 ^ n → 2 ≤ dim0 → K = n - 1 ∧ 2 ^ K = dim0 / 2) := by
  obtain ⟨K, hK, hK1, hK2, _⟩ := exists_stride_count dim0 (by omega)
  refine ⟨K, hK, ?_, ?_, ?_, ?_⟩
  · intro t ht
    have h1 : 2 ^ (t + 1) <<< 1 = 2 * 2 ^ (t + 1) := by
      rw [Nat.shiftLeft_eq, pow_one, Nat.mul_comm]
    have h2 : 2 * 2 ^ (t + 1) = 2 ^ (t + 2) := by rw [pow_succ 2 (t + 1)]; ring
    have h3 : 2 ^ (t + 2) < 2 ^ 32 := Nat.pow_lt_pow_right (by norm_num) (by omega)
    have h4 : 0 < 2 ^ (t + 2) := Nat.two_pow_pos _
    rw [h1, u32_of_lt (by omega)]
    exact ⟨hK1 t ht, rfl, by omega⟩
  · intro fuel hfuel
    exact forLoop_doubling_count f dim0 K fuel s hK1 hK2 hK (by omega)
  · intro fuel vout st hfuel hf
    have hbody : (fun bit st => fht1_stage A fuel vout dim0 bit st) =
        fun bit st => some (stagePass A vout dim0 bit st) := by
      funext bit st
      exact fht1_stage_eq A fuel vout dim0 bit st hdim hf
    unfold fht1_stages
    rw [hbody]
    exact forLoop_doubling_count _ dim0 K fuel st hK1 hK2 hK (by omega)
  · intro n hn h2
    subst hn
    have hn1 : 1 ≤ n := by
      rcases Nat.eq_zero_or_pos n with h | h
      · subst h; simp at h2
      · exact h
    have hle : n ≤ K + 1 := (Nat.pow_le_pow_iff_right (by norm_num)).mp hK2
    have hK' : K ≤ n - 1 := by
      rcases Nat.eq_zero_or_pos K with h | h
      · omega
      · have := hK1 (K - 1) (by omega)
        have := (Nat.pow_lt_pow_iff_right (by norm_num)).mp this
        omega
    have e2 : n = K + 1 := by omega
    refine ⟨by omega, ?_⟩
    rw [e2, pow_succ]
    omega

theorem stride_loop_terminates_witness :
    ∃ K, K ≤ 30 ∧
      (∀ t, t < K → 2 ^ (t + 1) < 8 ∧ u32 (2 ^ (t + 1) <<< 1) = 2 * 2 ^ (t + 1) ∧
        u32 (2 ^ (t + 1) <<< 1) ≠ 0) ∧
      (∀ fuel, 31 ≤ fuel →
        forLoop (fun bit => decide (bit < 8)) (fun bit => u32 (bit <<< 1))
          (fun bit s => some ((fun (b : Nat) (l : List Nat) => l ++ [b]) bit s)) fuel 2 []
          = some (runSeq (fun (b : Nat) (l : List Nat) => l ++ [b]) (fun t => 2 ^ (t + 1)) K 0
              [])) ∧
      (∀ fuel vout (st : State Nat Int), 31 ≤ fuel → 8 < fuel →
        fht1_stages int32 fuel vout 8 st
          = some (runSeq (fun bit s => stagePass int32 vout 8 bit s) (fun t => 2 ^ (t + 1)) K 0
              st)) ∧
      (∀ n, 8 = 2 ^ n → 2 ≤ 8 → K = n - 1 ∧ 2 ^ K = 8 / 2) :=
  stride_loop_terminates int32 (fun (b : Nat) (l : List Nat) => l ++ [b]) 8 [] (by norm_num)

end FHT
